import Mathlib

/-!
# Omi: content-addressed commit store (C89 CLI, `src/cli/omi.c`)

A shallow embedding of the digest engine, the object store operations and the
sync gate of `omi.c`, together with the properties the specification states
about them.

Conventions of the embedding.

* `u32` values are naturals reduced modulo `2^32` after every operation that
  can overflow; `u8` values are naturals reduced modulo `2^8` when a wider
  value is stored in a byte.
* C arrays are lists; `a[i] = v` is `List.set`, reading `a[i]` is
  `List.getD a i 0` (every read of the program is in bounds).
* `for`/`while` loops over an index are folds over `List.range` /
  `List.range'`.
-/

namespace Omi

/-! ## Digest engine (omi.c, lines 147-314) -/

/-- Truncation to `u32` (`typedef unsigned int u32`). -/
def u32 (x : Nat) : Nat := x % 4294967296

/-- Truncation to `u8` (`typedef unsigned char u8`). -/
def u8 (x : Nat) : Nat := x % 256

/-- The context of the digest engine, `SHA256_CTX`. -/
structure SHA256_CTX where
  state : List Nat
  bitlen : List Nat
  data : List Nat
  datalen : Nat
deriving DecidableEq, Repr

/-- `sha_rotr`: `(a >> b) | (a << (32 - b))` on `u32`. -/
def sha_rotr (a b : Nat) : Nat := (a >>> b) ||| u32 (a <<< (32 - b))

/-- Bitwise complement of a `u32`, the C operator `~`. -/
def u32_not (x : Nat) : Nat := 4294967295 - u32 x

/-- `sha_ch`: `(x & y) ^ (~x & z)`. -/
def sha_ch (x y z : Nat) : Nat := (x &&& y) ^^^ (u32_not x &&& z)

/-- `sha_maj`: `(x & y) ^ (x & z) ^ (y & z)`. -/
def sha_maj (x y z : Nat) : Nat := (x &&& y) ^^^ (x &&& z) ^^^ (y &&& z)

/-- `sha_ep0`. -/
def sha_ep0 (x : Nat) : Nat := sha_rotr x 2 ^^^ sha_rotr x 13 ^^^ sha_rotr x 22

/-- `sha_ep1`. -/
def sha_ep1 (x : Nat) : Nat := sha_rotr x 6 ^^^ sha_rotr x 11 ^^^ sha_rotr x 25

/-- `sha_sig0`. -/
def sha_sig0 (x : Nat) : Nat := sha_rotr x 7 ^^^ sha_rotr x 18 ^^^ (x >>> 3)

/-- `sha_sig1`. -/
def sha_sig1 (x : Nat) : Nat := sha_rotr x 17 ^^^ sha_rotr x 19 ^^^ (x >>> 10)

/-- The table `sha_k[64]` (the source writes it in hexadecimal, repeated here
in the comments). -/
def sha_k : List Nat := [
  1116352408, 1899447441, 3049323471, 3921009573,  -- 0x428a2f98 0x71374491 0xb5c0fbcf 0xe9b5dba5
  961987163, 1508970993, 2453635748, 2870763221,  -- 0x3956c25b 0x59f111f1 0x923f82a4 0xab1c5ed5
  3624381080, 310598401, 607225278, 1426881987,  -- 0xd807aa98 0x12835b01 0x243185be 0x550c7dc3
  1925078388, 2162078206, 2614888103, 3248222580,  -- 0x72be5d74 0x80deb1fe 0x9bdc06a7 0xc19bf174
  3835390401, 4022224774, 264347078, 604807628,  -- 0xe49b69c1 0xefbe4786 0x0fc19dc6 0x240ca1cc
  770255983, 1249150122, 1555081692, 1996064986,  -- 0x2de92c6f 0x4a7484aa 0x5cb0a9dc 0x76f988da
  2554220882, 2821834349, 2952996808, 3210313671,  -- 0x983e5152 0xa831c66d 0xb00327c8 0xbf597fc7
  3336571891, 3584528711, 113926993, 338241895,  -- 0xc6e00bf3 0xd5a79147 0x06ca6351 0x14292967
  666307205, 773529912, 1294757372, 1396182291,  -- 0x27b70a85 0x2e1b2138 0x4d2c6dfc 0x53380d13
  1695183700, 1986661051, 2177026350, 2456956037,  -- 0x650a7354 0x766a0abb 0x81c2c92e 0x92722c85
  2730485921, 2820302411, 3259730800, 3345764771,  -- 0xa2bfe8a1 0xa81a664b 0xc24b8b70 0xc76c51a3
  3516065817, 3600352804, 4094571909, 275423344,  -- 0xd192e819 0xd6990624 0xf40e3585 0x106aa070
  430227734, 506948616, 659060556, 883997877,  -- 0x19a4c116 0x1e376c08 0x2748774c 0x34b0bcb5
  958139571, 1322822218, 1537002063, 1747873779,  -- 0x391c0cb3 0x4ed8aa4a 0x5b9cca4f 0x682e6ff3
  1955562222, 2024104815, 2227730452, 2361852424,  -- 0x748f82ee 0x78a5636f 0x84c87814 0x8cc70208
  2428436474, 2756734187, 3204031479, 3329325298]  -- 0x90befffa 0xa4506ceb 0xbef9a3f7 0xc67178f2

/-- The first loop of `sha256_transform`: `m[i]` for `i < 16` is the
big-endian word made of `data[4i .. 4i+3]`. -/
def sha256_load (m data : List Nat) : List Nat :=
  (List.range 16).foldl
    (fun m i => m.set i (u32 ((data.getD (i * 4) 0 <<< 24) ||| (data.getD (i * 4 + 1) 0 <<< 16)
        ||| (data.getD (i * 4 + 2) 0 <<< 8) ||| data.getD (i * 4 + 3) 0)))
    m

/-- The second loop of `sha256_transform`: `m[i]` for `16 <= i < 64`. -/
def sha256_expand (m : List Nat) : List Nat :=
  (List.range' 16 48).foldl
    (fun m i => m.set i (u32 (sha_sig1 (m.getD (i - 2) 0) + m.getD (i - 7) 0
        + sha_sig0 (m.getD (i - 15) 0) + m.getD (i - 16) 0)))
    m

/-- The working variables `a .. h` of `sha256_transform`. -/
structure Vars where
  a : Nat
  b : Nat
  c : Nat
  d : Nat
  e : Nat
  f : Nat
  g : Nat
  h : Nat
deriving DecidableEq, Repr

/-- One iteration of the round loop of `sha256_transform`. -/
def sha256_round (m : List Nat) (v : Vars) (i : Nat) : Vars :=
  let t1 := u32 (v.h + sha_ep1 v.e + sha_ch v.e v.f v.g + sha_k.getD i 0 + m.getD i 0)
  let t2 := u32 (sha_ep0 v.a + sha_maj v.a v.b v.c)
  { h := v.g, g := v.f, f := v.e, e := u32 (v.d + t1),
    d := v.c, c := v.b, b := v.a, a := u32 (t1 + t2) }

/-- `sha256_transform(ctx, data)`: the message schedule `m[64]` (a local
array, zero where the program has not yet written), the 64 rounds and the
addition of the working variables into `ctx->state`. -/
def sha256_transform (ctx : SHA256_CTX) (data : List Nat) : SHA256_CTX :=
  let m := sha256_expand (sha256_load (List.replicate 64 0) data)
  let s := ctx.state
  let v0 : Vars := { a := s.getD 0 0, b := s.getD 1 0, c := s.getD 2 0, d := s.getD 3 0,
                     e := s.getD 4 0, f := s.getD 5 0, g := s.getD 6 0, h := s.getD 7 0 }
  let v := (List.range 64).foldl (sha256_round m) v0
  { ctx with state :=
      ((((((((s.set 0 (u32 (s.getD 0 0 + v.a))).set 1 (u32 (s.getD 1 0 + v.b))).set 2
        (u32 (s.getD 2 0 + v.c))).set 3 (u32 (s.getD 3 0 + v.d))).set 4
        (u32 (s.getD 4 0 + v.e))).set 5 (u32 (s.getD 5 0 + v.f))).set 6
        (u32 (s.getD 6 0 + v.g))).set 7 (u32 (s.getD 7 0 + v.h))) }

/-- `sha256_init(ctx)`: resets the counters and the hash words; the block
buffer `ctx->data` is left as it was. -/
def sha256_init (ctx : SHA256_CTX) : SHA256_CTX :=
  { ctx with
    datalen := 0
    bitlen := (ctx.bitlen.set 0 0).set 1 0
    state := ((((((((ctx.state.set 0 0x6a09e667).set 1 0xbb67ae85).set 2 0x3c6ef372).set 3
      0xa54ff53a).set 4 0x510e527f).set 5 0x9b05688c).set 6 0x1f83d9ab).set 7 0x5be0cd19) }

/-- The body of the loop of `sha256_update` for one input byte. -/
def sha256_update_byte (ctx : SHA256_CTX) (byte : Nat) : SHA256_CTX :=
  let ctx1 := { ctx with data := ctx.data.set ctx.datalen byte, datalen := u32 (ctx.datalen + 1) }
  if ctx1.datalen = 64 then
    let ctx2 := sha256_transform ctx1 ctx1.data
    let ctx3 :=
      if ctx2.bitlen.getD 0 0 > 0xffffffff - 512 then
        { ctx2 with bitlen := ctx2.bitlen.set 1 (u32 (ctx2.bitlen.getD 1 0 + 1)) }
      else ctx2
    { ctx3 with bitlen := ctx3.bitlen.set 0 (u32 (ctx3.bitlen.getD 0 0 + 512)), datalen := 0 }
  else ctx1

/-- `sha256_update(ctx, data, len)` with `len` the length of `data`. -/
def sha256_update (ctx : SHA256_CTX) (data : List Nat) : SHA256_CTX :=
  data.foldl sha256_update_byte ctx

/-- The loop `while (i < limit) data[i++] = 0x00;` of `sha256_final`. -/
def zero_fill (data : List Nat) (i limit : Nat) : List Nat :=
  (List.range' i (limit - i)).foldl (fun d j => d.set j 0) data

/-- The last loop of `sha256_final`: the eight state words into `hash[0..31]`,
most significant byte first. -/
def sha256_store (s hash : List Nat) : List Nat :=
  (List.range 4).foldl
    (fun hash i =>
      ((((((((hash.set i (u8 ((s.getD 0 0 >>> (24 - i * 8)) &&& 0xff))).set (i + 4)
        (u8 ((s.getD 1 0 >>> (24 - i * 8)) &&& 0xff))).set (i + 8)
        (u8 ((s.getD 2 0 >>> (24 - i * 8)) &&& 0xff))).set (i + 12)
        (u8 ((s.getD 3 0 >>> (24 - i * 8)) &&& 0xff))).set (i + 16)
        (u8 ((s.getD 4 0 >>> (24 - i * 8)) &&& 0xff))).set (i + 20)
        (u8 ((s.getD 5 0 >>> (24 - i * 8)) &&& 0xff))).set (i + 24)
        (u8 ((s.getD 6 0 >>> (24 - i * 8)) &&& 0xff))).set (i + 28)
        (u8 ((s.getD 7 0 >>> (24 - i * 8)) &&& 0xff))))
    hash

/-- The padding part of `sha256_final`: the context after the length has been
written into `data[56..63]` and the last block has been transformed. -/
def sha256_final_ctx (ctx : SHA256_CTX) : SHA256_CTX :=
  let i := ctx.datalen
  let ctx1 :=
    if ctx.datalen < 56 then
      { ctx with data := zero_fill (ctx.data.set i 0x80) (i + 1) 56 }
    else
      let c := { ctx with data := zero_fill (ctx.data.set i 0x80) (i + 1) 64 }
      let c := sha256_transform c c.data
      { c with data := zero_fill c.data 0 56 }
  let bitlen_high := ctx1.bitlen.getD 1 0
  let bitlen_low := u32 (ctx1.bitlen.getD 0 0 + u32 (ctx1.datalen * 8))
  let d := ctx1.data
  let d := d.set 63 (u8 bitlen_low)
  let d := d.set 62 (u8 (bitlen_low >>> 8))
  let d := d.set 61 (u8 (bitlen_low >>> 16))
  let d := d.set 60 (u8 (bitlen_low >>> 24))
  let d := d.set 59 (u8 bitlen_high)
  let d := d.set 58 (u8 (bitlen_high >>> 8))
  let d := d.set 57 (u8 (bitlen_high >>> 16))
  let d := d.set 56 (u8 (bitlen_high >>> 24))
  sha256_transform { ctx1 with data := d } d

/-- `sha256_final(ctx, hash)`: returns the context and the 32 bytes of `hash`. -/
def sha256_final (ctx : SHA256_CTX) (hash : List Nat) : SHA256_CTX × List Nat :=
  let ctx2 := sha256_final_ctx ctx
  (ctx2, sha256_store ctx2.state hash)

/-- The string `"0123456789abcdef"` of `sha256_hex`. -/
def hex : List Char := "0123456789abcdef".toList

/-- The local variables of `sha256_hex` before they are written: the C
program leaves them uninitialised, every cell is written before it is read
(see `sha256_digest_any_locals`), and the embedding starts them at zero. -/
def fresh_ctx : SHA256_CTX :=
  { state := List.replicate 8 0, bitlen := List.replicate 2 0,
    data := List.replicate 64 0, datalen := 0 }

/-- `sha256_hex(data, len, out_hex, out_len)`: returns the buffer `out_hex`
after the call. -/
def sha256_hex (data : List Nat) (out_hex : List Char) (out_len : Nat) : List Char :=
  if out_len < 65 then out_hex
  else
    let ctx := sha256_init fresh_ctx
    let ctx := sha256_update ctx data
    let hash := (sha256_final ctx (List.replicate 32 0)).2
    let out := (List.range 32).foldl
      (fun out i =>
        (out.set (i * 2) (hex.getD ((hash.getD i 0 >>> 4) &&& 0x0f) '0')).set (i * 2 + 1)
          (hex.getD (hash.getD i 0 &&& 0x0f) '0'))
      out_hex
    out.set 64 (Char.ofNat 0)


/-! ## The reference: SHA-256 as FIPS 180-4 defines it

These definitions follow the standard, not the program: section 4.1.2
(functions), 4.2.2 (constants), 5.1.1 (padding), 5.2.1 (parsing), 5.3.3
(initial hash value), 6.2.2 (hash computation). Words are naturals below
`2^32` and addition is modulo `2^32`. -/

/-- Trial division: `n` is a prime number. -/
def fipsIsPrime (n : Nat) : Bool :=
  decide (2 ≤ n) && (List.range n).all fun d => decide (d < 2) || decide (n % d ≠ 0)

/-- The first sixty-four prime numbers. -/
def fipsPrimes : List Nat := (List.range 312).filter fipsIsPrime

/-- The integer part of the `k`-th root of `n` (for `n < 2^(40 k)`), found bit
by bit from the top. -/
def fipsRoot (k n : Nat) : Nat :=
  (List.range 40).foldr (fun bit r => if (r + 2 ^ bit) ^ k ≤ n then r + 2 ^ bit else r) 0

/-- Section 4.2.2: the first thirty-two bits of the fractional parts of the
cube roots of the first sixty-four prime numbers. -/
def fipsK : List Nat := fipsPrimes.map fun p => fipsRoot 3 (p * 2 ^ 96) % 2 ^ 32

/-- Section 5.3.3: the first thirty-two bits of the fractional parts of the
square roots of the first eight prime numbers. -/
def fipsH0 : List Nat := (fipsPrimes.take 8).map fun p => fipsRoot 2 (p * 2 ^ 64) % 2 ^ 32

/-- Section 3.2: rotate right on 32-bit words. -/
def fipsROTR (n x : Nat) : Nat := (x >>> n) ||| (x <<< (32 - n)) % 2 ^ 32

/-- Section 3.2: shift right. -/
def fipsSHR (n x : Nat) : Nat := x >>> n

/-- Bitwise complement of a 32-bit word. -/
def fipsNot (x : Nat) : Nat := 2 ^ 32 - 1 - x % 2 ^ 32

/-- Equation (4.2). -/
def fipsCh (x y z : Nat) : Nat := (x &&& y) ^^^ (fipsNot x &&& z)

/-- Equation (4.3). -/
def fipsMaj (x y z : Nat) : Nat := (x &&& y) ^^^ (x &&& z) ^^^ (y &&& z)

/-- Equation (4.4). -/
def fipsBigSigma0 (x : Nat) : Nat := fipsROTR 2 x ^^^ fipsROTR 13 x ^^^ fipsROTR 22 x

/-- Equation (4.5). -/
def fipsBigSigma1 (x : Nat) : Nat := fipsROTR 6 x ^^^ fipsROTR 11 x ^^^ fipsROTR 25 x

/-- Equation (4.6). -/
def fipsSmallSigma0 (x : Nat) : Nat := fipsROTR 7 x ^^^ fipsROTR 18 x ^^^ fipsSHR 3 x

/-- Equation (4.7). -/
def fipsSmallSigma1 (x : Nat) : Nat := fipsROTR 17 x ^^^ fipsROTR 19 x ^^^ fipsSHR 10 x

/-- Section 5.1.1: the number of zero bytes of the padding, the smallest
`k` with `len + 1 + k` congruent to 56 modulo 64 (448 modulo 512 in bits). -/
def fipsZeros (len : Nat) : Nat :=
  ((List.range 64).find? fun k => (len + 1 + k) % 64 = 56).getD 0

/-- The 64-bit big-endian representation of `l`. -/
def fipsLength64 (l : Nat) : List Nat :=
  (List.range 8).map fun i => l / 2 ^ (8 * (7 - i)) % 256

/-- Section 5.1.1: the padded message. -/
def fipsPad (msg : List Nat) : List Nat :=
  msg ++ [0x80] ++ List.replicate (fipsZeros msg.length) 0 ++ fipsLength64 (8 * msg.length)

/-- Section 5.2.1: the `i`-th 512-bit block of the padded message. -/
def fipsBlock (padded : List Nat) (i : Nat) : List Nat := (padded.drop (64 * i)).take 64

/-- Section 5.2.1: the `t`-th 32-bit word of a block, big-endian. -/
def fipsWord (block : List Nat) (t : Nat) : Nat :=
  block.getD (4 * t) 0 * 2 ^ 24 + block.getD (4 * t + 1) 0 * 2 ^ 16
    + block.getD (4 * t + 2) 0 * 2 ^ 8 + block.getD (4 * t + 3) 0

/-- One more word of the message schedule, from the words before it. -/
def fipsNextW (w : List Nat) : Nat :=
  (fipsSmallSigma1 (w.getD (w.length - 2) 0) + w.getD (w.length - 7) 0
    + fipsSmallSigma0 (w.getD (w.length - 15) 0) + w.getD (w.length - 16) 0) % 2 ^ 32

/-- Section 6.2.2, step 1: the first `16 + n` words of the message schedule. -/
def fipsScheduleUpTo (block : List Nat) : Nat → List Nat
  | 0 => (List.range 16).map (fipsWord block)
  | n + 1 => fipsScheduleUpTo block n ++ [fipsNextW (fipsScheduleUpTo block n)]

/-- Section 6.2.2, step 1: the message schedule `W_0 .. W_63`. -/
def fipsSchedule (block : List Nat) : List Nat := fipsScheduleUpTo block 48

/-- Section 6.2.2, step 3, for one `t`: the working variables are the list
`[a, b, c, d, e, f, g, h]`. -/
def fipsRound (w : List Nat) (v : List Nat) (t : Nat) : List Nat :=
  match v with
  | [a, b, c, d, e, f, g, h] =>
    let t1 := (h + fipsBigSigma1 e + fipsCh e f g + fipsK.getD t 0 + w.getD t 0) % 2 ^ 32
    let t2 := (fipsBigSigma0 a + fipsMaj a b c) % 2 ^ 32
    [(t1 + t2) % 2 ^ 32, a, b, c, (d + t1) % 2 ^ 32, e, f, g]
  | _ => v

/-- Section 6.2.2, steps 1 to 4: the hash value after one more block. -/
def fipsCompress (h : List Nat) (block : List Nat) : List Nat :=
  let v := (List.range 64).foldl (fipsRound (fipsSchedule block)) h
  List.zipWith (fun x y => (x + y) % 2 ^ 32) v h

/-- Section 6.2.2: the intermediate hash value `H^(n)`, after the first `n`
blocks of the padded message. -/
def fipsHashUpTo (padded : List Nat) (n : Nat) : List Nat :=
  (List.range n).foldl (fun h i => fipsCompress h (fipsBlock padded i)) fipsH0

/-- Section 6.2.2: the final hash value `H^(N)` of a message. -/
def fipsHash (msg : List Nat) : List Nat :=
  fipsHashUpTo (fipsPad msg) ((fipsPad msg).length / 64)

/-- The 256-bit message digest: the eight words of the final hash value,
each as four bytes, most significant first. -/
def fipsDigest (msg : List Nat) : List Nat :=
  (fipsHash msg).flatMap fun w => [w / 2 ^ 24 % 256, w / 2 ^ 16 % 256, w / 2 ^ 8 % 256, w % 256]

/-- The lowercase hexadecimal rendering of the digest, two digits a byte. -/
def fipsHex (msg : List Nat) : List Char :=
  (fipsDigest msg).flatMap fun b => [Nat.digitChar (b / 16), Nat.digitChar (b % 16)]

/-- The working variables as the list `[a, b, c, d, e, f, g, h]`. -/
def Vars.toList (v : Vars) : List Nat := [v.a, v.b, v.c, v.d, v.e, v.f, v.g, v.h]

/-- The state of the engine after `msg` has been fed to it: the hash words
are the intermediate hash value of the full blocks of `msg`, the buffer holds
the bytes after the last full block, and the bit counter counts the full
blocks. -/
structure Tracks (c : SHA256_CTX) (msg : List Nat) : Prop where
  state_eq : c.state = fipsHashUpTo msg (msg.length / 64)
  datalen_eq : c.datalen = msg.length % 64
  data_length : c.data.length = 64
  data_eq : c.data.take (msg.length % 64) = msg.drop (64 * (msg.length / 64))
  bitlen_eq : c.bitlen = [512 * (msg.length / 64) % 2 ^ 32,
    512 * (msg.length / 64) / 2 ^ 32 % 2 ^ 32]

/-! ## Object store (omi.c, lines 316-552)

The storage engine (SQLite) is a library outside the repository. The
embedding takes from its documentation what the statements of the program
need: `INSERT OR IGNORE` on a primary key inserts nothing when the key is
present; an `INTEGER PRIMARY KEY AUTOINCREMENT` column gets one more than the
largest row id the table has ever held; `sqlite3_last_insert_rowid` is the row
id of the last successful insert of the connection and 0 when there was none;
a statement that fails changes nothing; a `SELECT` without `ORDER BY` on a
row-id table delivers the rows in row-id order, which is the insertion order.
Whether a call of the library succeeds is an input of each operation (its
`...Env` record), as are the clock and the file system. -/

/-- C strings and `TEXT` columns. -/
abbrev Text := List Char

/-- The terminating character of a C string. -/
def NUL : Char := Char.ofNat 0

/-- The C string stored in a `char` buffer: the characters before the first NUL. -/
def cstr (buf : List Char) : Text := buf.takeWhile fun c => c ≠ NUL

/-- The conversion `(int)x` of a row id or a `size_t` to a 32-bit `int`. -/
def int_cast (x : Nat) : Int :=
  if x % 4294967296 < 2147483648 then ((x % 4294967296 : Nat) : Int)
  else ((x % 4294967296 : Nat) : Int) - 4294967296

/-- Row of `blobs (hash TEXT PRIMARY KEY, data BLOB, size INTEGER)`. -/
structure BlobRow where
  hash : Text
  data : List Nat
  size : Int
deriving DecidableEq, Repr

/-- Row of `files (id INTEGER PRIMARY KEY AUTOINCREMENT, filename TEXT,
hash TEXT, datetime TEXT, commit_id INTEGER)`. -/
structure FileRow where
  id : Nat
  filename : Text
  hash : Text
  datetime : Text
  commit_id : Int
deriving DecidableEq, Repr

/-- Row of `commits (id INTEGER PRIMARY KEY AUTOINCREMENT, message TEXT,
datetime TEXT, user TEXT)`. -/
structure CommitRow where
  id : Nat
  message : Text
  datetime : Text
  user : Text
deriving DecidableEq, Repr

/-- Row of `staging (id INTEGER PRIMARY KEY AUTOINCREMENT, filename TEXT,
hash TEXT, datetime TEXT)`. -/
structure StagingRow where
  id : Nat
  filename : Text
  hash : Text
  datetime : Text
deriving DecidableEq, Repr

/-- The store file: the four tables of `init_db`, rows in insertion order, and
for each `AUTOINCREMENT` table the largest row id it has ever held. -/
structure Db where
  blobs : List BlobRow
  files : List FileRow
  commits : List CommitRow
  staging : List StagingRow
  files_seq : Nat
  commits_seq : Nat
  staging_seq : Nat
deriving DecidableEq, Repr

/-- The store right after `init_db` on a new file: four empty tables. -/
def empty_db : Db :=
  { blobs := [], files := [], commits := [], staging := [],
    files_seq := 0, commits_seq := 0, staging_seq := 0 }

/-- The row id `AUTOINCREMENT` gives to a new row. -/
def next_rowid (seq : Nat) (ids : List Nat) : Nat := max seq (ids.foldl max 0) + 1

/-- `INSERT OR IGNORE INTO blobs (hash, data, size) VALUES (?, ?, ?)`. -/
def insert_blob (db : Db) (hash : Text) (data : List Nat) (size : Int) : Db :=
  if db.blobs.any (fun b => b.hash = hash) then db
  else { db with blobs := db.blobs ++ [{ hash := hash, data := data, size := size }] }

/-- `INSERT INTO staging (filename, hash, datetime) VALUES (?, ?, ?)`. -/
def insert_staging (db : Db) (filename hash datetime : Text) : Db :=
  let id := next_rowid db.staging_seq (db.staging.map fun r => r.id)
  { db with
    staging := db.staging ++ [{ id := id, filename := filename, hash := hash,
                                datetime := datetime }]
    staging_seq := id }

/-- `INSERT INTO commits (message, datetime, user) VALUES (?, ?, ?)`. -/
def insert_commit (db : Db) (message datetime user : Text) : Db :=
  let id := next_rowid db.commits_seq (db.commits.map fun r => r.id)
  { db with
    commits := db.commits ++ [{ id := id, message := message, datetime := datetime,
                                user := user }]
    commits_seq := id }

/-- `INSERT INTO files (filename, hash, datetime, commit_id) VALUES (?, ?, ?, ?)`. -/
def insert_file (db : Db) (filename hash datetime : Text) (commit_id : Int) : Db :=
  let id := next_rowid db.files_seq (db.files.map fun r => r.id)
  { db with
    files := db.files ++ [{ id := id, filename := filename, hash := hash,
                            datetime := datetime, commit_id := commit_id }]
    files_seq := id }

/-- `DELETE FROM staging`. -/
def delete_staging (db : Db) : Db := { db with staging := [] }

/-- `init_db(db_name)`: `store` is the content of the file before the call
(`none`: no tables yet). `CREATE TABLE IF NOT EXISTS` leaves existing tables
as they are. -/
def init_db (store : Option Db) (open_ok exec_ok : Bool) : Int × Option Db :=
  if !open_ok then (0, store)
  else if !exec_ok then (0, store)
  else (1, some (store.getD empty_db))

/-- The `Settings` record. -/
structure Settings where
  username : Text
  password : Text
  repos : Text
  curl : Text
  api_enabled : Text
  use_internal_http : Int
  http_timeout : Int
deriving DecidableEq, Repr

/-- What the C library does for `load_file` on a path: `fopen` fails, or the
file opens, `ftell` at the end reports `len`, `malloc` succeeds or not, and
`fread` delivers the bytes `read`. -/
inductive FileRead where
  | no_open
  | opened (len : Int) (malloc_ok : Bool) (read : List Nat)
deriving DecidableEq, Repr

/-- `load_file(path, &data, &len)`: `none` for the return value 0, the
bytes for the return value 1. -/
def load_file (f : FileRead) : Option (List Nat) :=
  match f with
  | FileRead.no_open => none
  | FileRead.opened len malloc_ok read =>
    if len ≤ 0 then none
    else if !malloc_ok then none
    else if (read.length : Int) ≠ len then none
    else some read

/-- The inputs of `add_file_to_db` besides its arguments: the file behind
`filename`, the clock as `strftime` renders it, and the outcome of each call
of the storage engine. -/
structure AddEnv where
  file : FileRead
  now : Text
  open_ok : Bool
  blob_prepare_ok : Bool
  blob_step_ok : Bool
  stage_prepare_ok : Bool
  stage_step_ok : Bool
deriving DecidableEq, Repr

/-- The text `hash_hex` of `add_file_to_db`: `sha256_hex` on a 65-byte buffer,
read back as a C string. -/
def hash_hex (data : List Nat) : Text :=
  cstr (sha256_hex data (List.replicate 65 NUL) 65)

/-- `add_file_to_db(db_name, filename)`: the return value and the store file
after the call. The size column gets `(int)data_len`; the data column is given
the bytes read (for a file of `2^31` bytes or more the length passed to
`sqlite3_bind_blob` is out of range and the source does not determine the
column). -/
def add_file_to_db (db : Db) (env : AddEnv) (filename : Text) : Int × Db :=
  match load_file env.file with
  | none => (0, db)
  | some data =>
    let hash := hash_hex data
    let dt := env.now
    if !env.open_ok then (0, db)
    else
      let db1 :=
        if env.blob_prepare_ok && env.blob_step_ok then
          insert_blob db hash data (int_cast data.length)
        else db
      let db2 :=
        if env.stage_prepare_ok && env.stage_step_ok then
          insert_staging db1 filename hash dt
        else db1
      (1, db2)

/-- The inputs of `commit_files` besides its arguments: the clock and the
outcome of each call of the storage engine. `select_rows` is the number of
rows the `SELECT` on staging delivers before `sqlite3_step` returns something
other than `SQLITE_ROW` (no error when it is at least the number of staged
rows); `file_prepare_ok k` and `file_step_ok k` are for the insert of the
`k`-th delivered row. -/
structure CommitEnv where
  now : Text
  open_ok : Bool
  commit_prepare_ok : Bool
  commit_step_ok : Bool
  select_prepare_ok : Bool
  select_rows : Nat
  file_prepare_ok : Nat → Bool
  file_step_ok : Nat → Bool
  delete_ok : Bool

/-- The `while (sqlite3_step(stmt) == SQLITE_ROW)` loop of `commit_files`
over the delivered rows, `k` being the index of the next row. -/
def commit_loop (env : CommitEnv) (commit_id : Int) : Nat → List StagingRow → Db → Db
  | _, [], db => db
  | k, r :: rows, db =>
    commit_loop env commit_id (k + 1) rows
      (if env.file_prepare_ok k && env.file_step_ok k then
        insert_file db r.filename r.hash r.datetime commit_id
      else db)

/-- `commit_files(db_name, s, message)`: the return value and the store file
after the call. -/
def commit_files (db : Db) (env : CommitEnv) (s : Settings) (message : Text) : Int × Db :=
  let dt := env.now
  if !env.open_ok then (0, db)
  else
    let inserted := env.commit_prepare_ok && env.commit_step_ok
    let db1 := if inserted then insert_commit db message dt s.username else db
    let last_insert_rowid := if inserted then db1.commits_seq else 0
    let commit_id := int_cast last_insert_rowid
    let db2 :=
      if env.select_prepare_ok then
        commit_loop env commit_id 0 (db1.staging.take env.select_rows) db1
      else db1
    let db3 := if env.delete_ok then delete_staging db2 else db2
    (1, db3)

/-- `show_status(db_name)`: the lines printed on the standard output and the
store file after the call. -/
def show_status (db : Db) (open_ok prepare_ok : Bool) : List Text × Db :=
  if !open_ok then ([], db)
  else
    let header := "Staged files:".toList
    let rows := if prepare_ok then db.staging.map fun r => "  ".toList ++ r.filename else []
    (header :: rows, db)

/-- The rows of `SELECT id, message, datetime FROM commits ORDER BY id DESC`. -/
def select_commits_desc (db : Db) : List CommitRow :=
  (db.commits.mergeSort fun a b => decide (b.id ≤ a.id))

/-- `show_log(db_name)`: the rows printed (id as `int`, message, datetime) and
the store file after the call. -/
def show_log (db : Db) (open_ok prepare_ok : Bool) : List (Int × Text × Text) × Db :=
  if !open_ok then ([], db)
  else
    let rows := if prepare_ok then
        (select_commits_desc db).map fun r => (int_cast r.id, r.message, r.datetime)
      else []
    (rows, db)

/-- A run of the no-fault kind: every call of the storage engine succeeds. -/
def AddEnv.store_ok (env : AddEnv) : Prop :=
  env.open_ok = true ∧ env.blob_prepare_ok = true ∧ env.blob_step_ok = true
    ∧ env.stage_prepare_ok = true ∧ env.stage_step_ok = true

/-- A run of the no-fault kind on a store with `n` staged rows: every call of
the storage engine succeeds and the `SELECT` delivers all `n` rows. -/
def CommitEnv.store_ok (env : CommitEnv) (n : Nat) : Prop :=
  env.open_ok = true ∧ env.commit_prepare_ok = true ∧ env.commit_step_ok = true
    ∧ env.select_prepare_ok = true ∧ n ≤ env.select_rows
    ∧ (∀ k < n, env.file_prepare_ok k = true ∧ env.file_step_ok k = true)
    ∧ env.delete_ok = true

/-- The file row a staged row becomes at commit time. -/
def to_file_row (commit_id : Int) (id : Nat) (r : StagingRow) : FileRow :=
  { id := id, filename := r.filename, hash := r.hash, datetime := r.datetime,
    commit_id := commit_id }

/-- The stores the program can produce from a freshly initialised store file
by `add` and `commit`, whatever the outcome of the calls of the storage engine. -/
inductive Reachable : Db → Prop where
  | init : Reachable empty_db
  | add (db : Db) (env : AddEnv) (filename : Text) :
      Reachable db → Reachable (add_file_to_db db env filename).2
  | commit (db : Db) (env : CommitEnv) (s : Settings) (message : Text) :
      Reachable db → Reachable (commit_files db env s message).2

/-- The stores the program can produce from a freshly initialised store file
by `add` and `commit` in runs where the blob insert statement of every add
executes; all other calls of the storage engine may fail. -/
inductive ReachableBlobOk : Db → Prop where
  | init : ReachableBlobOk empty_db
  | add (db : Db) (env : AddEnv) (filename : Text) :
      env.blob_prepare_ok = true → env.blob_step_ok = true →
      ReachableBlobOk db → ReachableBlobOk (add_file_to_db db env filename).2
  | commit (db : Db) (env : CommitEnv) (s : Settings) (message : Text) :
      ReachableBlobOk db → ReachableBlobOk (commit_files db env s message).2

/-- Several runs of `add <filename>` in a row, each with its environment and
its file name. -/
def add_many (db : Db) (adds : List (AddEnv × Text)) : Db :=
  adds.foldl (fun d a => (add_file_to_db d a.1 a.2).2) db

/-- Several runs of `commit -m <message>` in a row. -/
def commit_many (db : Db) (calls : List (CommitEnv × Settings × Text)) : Db :=
  calls.foldl (fun d c => (commit_files d c.1 c.2.1 c.2.2).2) db

/-! ### Concrete inputs used in the examples -/

/-- The bytes of `hello`. -/
def hello_bytes : List Nat := [104, 101, 108, 108, 111]

/-- A readable file holding `hello`. -/
def hello_file : FileRead := FileRead.opened 5 true hello_bytes

/-- An environment of `add` in which every call succeeds. -/
def steady_add_env (file : FileRead) (now : Text) : AddEnv :=
  { file := file, now := now, open_ok := true, blob_prepare_ok := true, blob_step_ok := true,
    stage_prepare_ok := true, stage_step_ok := true }

/-- An environment of `commit` in which every call succeeds (for up to 64
staged rows). -/
def steady_commit_env (now : Text) : CommitEnv :=
  { now := now, open_ok := true, commit_prepare_ok := true, commit_step_ok := true,
    select_prepare_ok := true, select_rows := 64, file_prepare_ok := fun _ => true,
    file_step_ok := fun _ => true, delete_ok := true }

/-- An environment of `add` in which the blob insert fails at `sqlite3_step`. -/
def blob_fails_env (file : FileRead) (now : Text) : AddEnv :=
  { steady_add_env file now with blob_step_ok := false }

/-- An environment of `add` in which the staging insert fails at `sqlite3_step`. -/
def stage_fails_env (file : FileRead) (now : Text) : AddEnv :=
  { steady_add_env file now with stage_step_ok := false }

/-- An environment of `commit` in which the insert of the commit row fails at
`sqlite3_step`. -/
def commit_insert_fails_env (now : Text) : CommitEnv :=
  { steady_commit_env now with commit_step_ok := false }

/-- An environment of `commit` in which every insert of a file row fails at
`sqlite3_step`. -/
def file_insert_fails_env (now : Text) : CommitEnv :=
  { steady_commit_env now with file_step_ok := fun _ => false }

/-- The settings of user `alice`. -/
def alice : Settings :=
  { username := "alice".toList, password := "secret".toList,
    repos := "http://localhost".toList, curl := "curl".toList, api_enabled := "1".toList,
    use_internal_http := 1, http_timeout := 30 }

/-- The hexadecimal SHA-256 digest of `hello`. -/
def hello_hash : Text :=
  "2cf24dba5fb0a30e26e83b2ac5b9e29e1b161e5c1fa7425e73043362938b9824".toList

/-- One staged entry for `notes.txt`. -/
def notes_row : StagingRow :=
  { id := 1, filename := "notes.txt".toList, hash := hello_hash,
    datetime := "2024-05-01 10:00:00".toList }

/-- A store with `notes.txt` staged and nothing committed. -/
def staged_store : Db :=
  { empty_db with
    blobs := [{ hash := hello_hash, data := hello_bytes, size := 5 }]
    staging := [notes_row]
    staging_seq := 1 }

/-- A store file (one received by `pull`, say) with `notes.txt` staged and the
sequence of the `commits` table at `INT_MAX`: 2147483647 commit ids have been
given out. -/
def int_max_store : Db := { staged_store with commits_seq := 2147483647 }

/-! ## Sync gate and sync (omi.c, lines 107-114, 350-379 and 554-749)

Text files are lists of characters. A `char` buffer filled by `fgets` is read
back as a C string (`cstr`), a pointer into a C string is the part of the
string from that position on. -/

/-- One call of `fgets(buf, size, f)` that is not at end of file, `n` being
`size - 1`: the characters stored (up to and including the first line feed,
at most `n`) and the rest of the file. -/
def fgets_line : Nat → List Char → List Char × List Char
  | 0, rest => ([], rest)
  | _, [] => ([], [])
  | n + 1, c :: rest =>
    if c = '\n' then ([c], rest)
    else ((c :: (fgets_line n rest).1), (fgets_line n rest).2)

/-- `fgets(buf, size, f)`: `none` at end of file, else the characters stored
and the rest of the file. -/
def fgets (size : Nat) (input : List Char) : Option (List Char × List Char) :=
  if input = [] then none else some (fgets_line (size - 1) input)

/-- `strchr(s, c)` for a character `c` other than NUL: `none` for `NULL`, else
the string from the first `c` on. -/
def strchr : Text → Char → Option Text
  | [], _ => none
  | x :: xs, c => if x = c then some (x :: xs) else strchr xs c

/-- `strncmp(a, b, n) == 0`. -/
def strncmp_eq (a b : Text) (n : Nat) : Bool := decide (a.take n = b.take n)

/-- The test `has_2fa_enabled` makes on one line. -/
def line_has_2fa (buf : List Char) (username : Text) : Bool :=
  let line := cstr buf
  let user_len := username.length
  if strncmp_eq line username user_len && decide (line.getD user_len NUL = ':') then
    match strchr line ':' with
    | none => false
    | some p =>
      match strchr p.tail ':' with
      | none => false
      | some q =>
        decide (q.tail.headD NUL ≠ '\n') && decide (q.tail.headD NUL ≠ '\r')
          && decide (q.tail.headD NUL ≠ NUL)
  else false

/-- The `while (fgets(line, sizeof(line), f))` loop of `has_2fa_enabled`;
`fuel` bounds the number of iterations (every call of `fgets` takes at least
one character, so the length of the file plus one is enough). -/
def has_2fa_loop (username : Text) : Nat → List Char → Int
  | 0, _ => 0
  | fuel + 1, input =>
    match fgets 1024 input with
    | none => 0
    | some (line, rest) =>
      if line_has_2fa line username then 1 else has_2fa_loop username fuel rest

/-- `has_2fa_enabled(s)`: `users` is the content of `users.txt`, `none` when
the file cannot be opened. -/
def has_2fa_enabled (users : Option (List Char)) (s : Settings) : Int :=
  match users with
  | none => 0
  | some content => has_2fa_loop (cstr s.username) (content.length + 1) content

/-- `prompt_otp(out, 32)` on a buffer holding the empty string: the code the
buffer holds afterwards, `stdin` being what is left to read on the standard
input. -/
def prompt_otp (stdin : List Char) : Text :=
  match fgets 32 stdin with
  | none => []
  | some (line, _) => (cstr line).takeWhile fun c => c ≠ '\r' ∧ c ≠ '\n'

/-- What a run of `push` or `pull` does to the outside world, in order: a line
printed, the probe `file_exists(path)`, the return of `has_2fa_enabled`, the
prompt for the one-time code, and the two transports (the library client and
the external `curl` command), which read the store file `db_name` on push and
write it on pull. -/
inductive SyncEvent where
  | print (message : Text)
  | probe_file (path : Text)
  | has_2fa (result : Int)
  | prompt
  | libcurl_push (db_name otp_code : Text)
  | libcurl_pull (db_name otp_code : Text)
  | curl_exec_push (db_name otp_code : Text)
  | curl_exec_pull (db_name otp_code : Text)
deriving DecidableEq, Repr

/-- The inputs of `push_repo` and `pull_repo` besides their arguments. -/
structure SyncEnv where
  users : Option (List Char)
  db_exists : Bool
  stdin : List Char
  libcurl_compiled : Bool
  libcurl_ok : Bool
  curl_exec_ok : Bool
deriving DecidableEq, Repr

/-- `use_internal_http(s)`, with `USE_LIBCURL` defined or not. -/
def use_internal_http (s : Settings) (env : SyncEnv) : Bool :=
  env.libcurl_compiled && decide (s.use_internal_http ≠ 0)

/-- The gate of `push_repo` and `pull_repo`: the call of `has_2fa_enabled`,
the prompt when it returns non-zero, and the code to send. -/
def otp_gate (s : Settings) (env : SyncEnv) : List SyncEvent × Text :=
  let r := has_2fa_enabled env.users s
  if r ≠ 0 then ([SyncEvent.has_2fa r, SyncEvent.prompt], prompt_otp env.stdin)
  else ([SyncEvent.has_2fa r], [])

/-- `push_repo(s, db_name)`: the events of the run. -/
def push_repo (s : Settings) (db_name : Text) (env : SyncEnv) : List SyncEvent :=
  if cstr s.api_enabled = "0".toList then
    [SyncEvent.print "Error: API is disabled".toList]
  else if !env.db_exists then
    [SyncEvent.probe_file db_name,
     SyncEvent.print ("Error: Database file ".toList ++ db_name ++ " not found".toList)]
  else
    let gate := otp_gate s env
    let otp_code := gate.2
    [SyncEvent.probe_file db_name] ++ gate.1 ++
      (if use_internal_http s env then
        SyncEvent.libcurl_push db_name otp_code ::
          (if !env.libcurl_ok then
            SyncEvent.print "Internal HTTP failed, falling back to curl".toList ::
              SyncEvent.curl_exec_push db_name otp_code ::
                (if !env.curl_exec_ok then [SyncEvent.print "Error: Failed to push".toList]
                 else [])
          else [SyncEvent.print ("Successfully pushed to ".toList ++ s.repos)])
      else
        SyncEvent.curl_exec_push db_name otp_code ::
          (if !env.curl_exec_ok then [SyncEvent.print "Error: Failed to push".toList]
           else [SyncEvent.print ("Successfully pushed to ".toList ++ s.repos)]))

/-- `pull_repo(s, db_name)`: the events of the run. -/
def pull_repo (s : Settings) (db_name : Text) (env : SyncEnv) : List SyncEvent :=
  if cstr s.api_enabled = "0".toList then
    [SyncEvent.print "Error: API is disabled".toList]
  else
    let gate := otp_gate s env
    let otp_code := gate.2
    gate.1 ++
      (if use_internal_http s env then
        SyncEvent.libcurl_pull db_name otp_code ::
          (if !env.libcurl_ok then
            SyncEvent.print "Internal HTTP failed, falling back to curl".toList ::
              SyncEvent.curl_exec_pull db_name otp_code ::
                (if !env.curl_exec_ok then [SyncEvent.print "Error: Failed to pull".toList]
                 else [])
          else [SyncEvent.print ("Successfully pulled from ".toList ++ s.repos)])
      else
        SyncEvent.curl_exec_pull db_name otp_code ::
          (if !env.curl_exec_ok then [SyncEvent.print "Error: Failed to pull".toList]
           else [SyncEvent.print ("Successfully pulled from ".toList ++ s.repos)]))

/-- The lines of a text file, each with its line feed when it has one. -/
def text_lines : List Char → List (List Char)
  | [] => []
  | c :: rest =>
    if c = '\n' then [c] :: text_lines rest
    else
      match text_lines rest with
      | [] => [[c]]
      | l :: ls => (c :: l) :: ls

/-- The gate condition on one line, in the words of the specification: the
line starts with the user name immediately followed by a colon, and the
second colon of the line is followed by a character that is neither a
carriage return nor a line feed (nor the end of the text). -/
def GateLine (username line : Text) : Prop :=
  (username ++ [':']) <+: line
  ∧ ∃ a b x rest, line = a ++ ':' :: (b ++ ':' :: x :: rest)
      ∧ ':' ∉ a ∧ ':' ∉ b ∧ x ≠ '\r' ∧ x ≠ '\n'

/-! ## The digest engine and its local storage

The C program keeps no state between two digests except what an earlier call
left in memory: the locals `ctx` and `hash` of `sha256_hex` are not
initialised. The definitions below make that content a parameter, list the
indices of the block buffer the engine writes, and read the length field of
the last block. -/

/-- `sha256_hex(data, len, out_hex, out_len)` with the content of its local
variables `ctx` and `hash` at entry given, for instance what an earlier digest
computation left there. -/
def sha256_hex_from (ctx0 : SHA256_CTX) (hash0 : List Nat) (data : List Nat)
    (out_hex : List Char) (out_len : Nat) : List Char :=
  if out_len < 65 then out_hex
  else
    let ctx := sha256_init ctx0
    let ctx := sha256_update ctx data
    let hash := (sha256_final ctx hash0).2
    let out := (List.range 32).foldl
      (fun out i =>
        (out.set (i * 2) (hex.getD ((hash.getD i 0 >>> 4) &&& 0x0f) '0')).set (i * 2 + 1)
          (hex.getD (hash.getD i 0 &&& 0x0f) '0'))
      out_hex
    out.set 64 (Char.ofNat 0)

/-- The indices `ctx->datalen` of the writes `ctx->data[ctx->datalen] = data[i]`
that `sha256_update(ctx, data, len)` makes, in order. -/
def sha256_update_writes (ctx : SHA256_CTX) : List Nat → List Nat
  | [] => []
  | byte :: rest => ctx.datalen :: sha256_update_writes (sha256_update_byte ctx byte) rest

/-- The indices of the writes into `ctx->data` that `sha256_final` makes, in
order: the byte `0x80`, the zero fill (and in the second branch the
`memset` of the first 56 bytes), and the eight bytes of the length. -/
def sha256_final_writes (ctx : SHA256_CTX) : List Nat :=
  let i := ctx.datalen
  (if ctx.datalen < 56 then
    i :: List.range' (i + 1) (56 - (i + 1))
  else
    i :: List.range' (i + 1) (64 - (i + 1)) ++ List.range 56)
  ++ [63, 62, 61, 60, 59, 58, 57, 56]

/-- The number a list of bytes stands for, most significant byte first. -/
def be_value (bytes : List Nat) : Nat := bytes.foldl (fun acc b => acc * 256 + b) 0

/-- The 64-bit length `sha256_final` has written into `data[56..63]` of the
last block, read from the context it leaves. -/
def length_written (ctx : SHA256_CTX) : Nat :=
  be_value (((sha256_final_ctx ctx).data.drop 56).take 8)

/-- The 64-bit counter formed by `bitlen[1]:bitlen[0]`. -/
def bit_counter (ctx : SHA256_CTX) : Nat :=
  ctx.bitlen.getD 1 0 * 4294967296 + ctx.bitlen.getD 0 0

/-- Two engines that differ at most in the bytes of the block buffer at and
above the fill count, which the program writes before it reads them. -/
structure SameEngine (c d : SHA256_CTX) : Prop where
  state_eq : c.state = d.state
  bitlen_eq : c.bitlen = d.bitlen
  datalen_eq : c.datalen = d.datalen
  datalen_lt : c.datalen < 64
  length_left : c.data.length = 64
  length_right : d.data.length = 64
  data_eq : c.data.take c.datalen = d.data.take c.datalen

/-- The counters of the engine after `n` bytes have been fed to it. -/
structure Fed (c : SHA256_CTX) (n : Nat) : Prop where
  datalen_eq : c.datalen = n % 64
  data_length : c.data.length = 64
  bitlen_eq : c.bitlen = [512 * (n / 64) % 2 ^ 32, 512 * (n / 64) / 2 ^ 32 % 2 ^ 32]

/-- The context an earlier digest computation (of `abc`) leaves behind. -/
def used_ctx : SHA256_CTX :=
  (sha256_final (sha256_update (sha256_init fresh_ctx) [97, 98, 99]) (List.replicate 32 0)).1

/-- The `hash` array an earlier digest computation (of `abc`) leaves behind. -/
def used_hash : List Nat :=
  (sha256_final (sha256_update (sha256_init fresh_ctx) [97, 98, 99]) (List.replicate 32 0)).2

/-- The event is one of the two transports, the library HTTP client or the
external `curl` command. -/
def SyncEvent.is_transport : SyncEvent → Bool
  | SyncEvent.libcurl_push _ _ => true
  | SyncEvent.libcurl_pull _ _ => true
  | SyncEvent.curl_exec_push _ _ => true
  | SyncEvent.curl_exec_pull _ _ => true
  | _ => false

/-- The event opens the local store file: the probe `file_exists(db_name)`
and the transports read it (push) or write it (pull). -/
def SyncEvent.touches_store : SyncEvent → Bool
  | SyncEvent.probe_file _ => true
  | SyncEvent.libcurl_push _ _ => true
  | SyncEvent.libcurl_pull _ _ => true
  | SyncEvent.curl_exec_push _ _ => true
  | SyncEvent.curl_exec_pull _ _ => true
  | _ => false

/-- The settings of `alice` with the sync feature switched off. -/
def alice_sync_off : Settings := { alice with api_enabled := "0".toList }

/-- An environment of `push` and `pull` in which everything else would go
through: the store file exists, the credential record of `alice` asks for a
code, and both transports work. -/
def ready_sync_env : SyncEnv :=
  { users := some "alice:hash:ABC123\n".toList, db_exists := true, stdin := "123456\n".toList,
    libcurl_compiled := true, libcurl_ok := true, curl_exec_ok := true }

/-! ## The compression step of the program is the one of the standard -/

theorem be32_or_eq_add (a b c d : Nat) (hb : b < 256) (hc : c < 256) (hd : d < 256) :
    (a <<< 24) ||| (b <<< 16) ||| (c <<< 8) ||| d = a * 2^24 + b * 2^16 + c * 2^8 + d := by
  simp only [Nat.shiftLeft_eq]
  have e1 : a * 2^24 ||| b * 2^16 = a * 2^24 + b * 2^16 := by
    have := @Nat.mul_add_lt_is_or 24 (b * 2^16) (by omega) a
    rw [Nat.mul_comm (2^24) a] at this
    exact this.symm
  have e2 : (a * 2^24 + b * 2^16) ||| c * 2^8 = a * 2^24 + b * 2^16 + c * 2^8 := by
    have := @Nat.mul_add_lt_is_or 16 (c * 2^8) (by omega) (a * 2^8 + b)
    have h : 2^16 * (a * 2^8 + b) = a * 2^24 + b * 2^16 := by ring
    rw [h] at this
    exact this.symm
  have e3 : (a * 2^24 + b * 2^16 + c * 2^8) ||| d = a * 2^24 + b * 2^16 + c * 2^8 + d := by
    have := @Nat.mul_add_lt_is_or 8 d (by omega) (a * 2^16 + b * 2^8 + c)
    have h : 2^8 * (a * 2^16 + b * 2^8 + c) = a * 2^24 + b * 2^16 + c * 2^8 := by ring
    rw [h] at this
    exact this.symm
  rw [e1, e2, e3]

theorem u32_be32 (a b c d : Nat) (ha : a < 256) (hb : b < 256) (hc : c < 256) (hd : d < 256) :
    u32 ((a <<< 24) ||| (b <<< 16) ||| (c <<< 8) ||| d) = a * 2^24 + b * 2^16 + c * 2^8 + d := by
  rw [be32_or_eq_add a b c d hb hc hd]
  unfold u32
  omega

theorem getD_lt_of_forall (data : List Nat) (hd : ∀ b ∈ data, b < 256) (i : Nat) :
    data.getD i 0 < 256 := by
  by_cases h : i < data.length
  · rw [List.getD_eq_getElem _ _ h]; exact hd _ (List.getElem_mem _)
  · rw [List.getD_eq_default _ _ (by omega)]; decide

theorem sha_sig0_eq (x : Nat) : sha_sig0 x = fipsSmallSigma0 x := rfl

theorem sha_sig1_eq (x : Nat) : sha_sig1 x = fipsSmallSigma1 x := rfl

theorem sha_ep0_eq (x : Nat) : sha_ep0 x = fipsBigSigma0 x := rfl

theorem sha_ep1_eq (x : Nat) : sha_ep1 x = fipsBigSigma1 x := rfl

theorem sha_ch_eq (x y z : Nat) : sha_ch x y z = fipsCh x y z := rfl

theorem sha_maj_eq (x y z : Nat) : sha_maj x y z = fipsMaj x y z := rfl

theorem sha256_load_upto (data : List Nat) (hd : ∀ b ∈ data, b < 256) (n : Nat) (hn : n ≤ 16) :
    (List.range n).foldl
      (fun m i => m.set i (u32 ((data.getD (i * 4) 0 <<< 24) ||| (data.getD (i * 4 + 1) 0 <<< 16)
        ||| (data.getD (i * 4 + 2) 0 <<< 8) ||| data.getD (i * 4 + 3) 0)))
      (List.replicate 64 0)
    = (List.range n).map (fipsWord data) ++ List.replicate (64 - n) 0 := by
  induction n with
  | zero => simp
  | succ n ih =>
    rw [List.range_succ, List.foldl_append, ih (by omega), List.map_append]
    simp only [List.foldl_cons, List.foldl_nil, List.map_cons, List.map_nil]
    rw [List.set_append]
    simp only [List.length_map, List.length_range, Nat.lt_irrefl, if_false, Nat.sub_self]
    have h64 : 64 - n = (64 - (n + 1)) + 1 := by omega
    rw [h64, List.replicate_succ, List.set_cons_zero, List.append_assoc]
    congr 1
    simp only [List.singleton_append, List.cons.injEq, and_true]
    rw [u32_be32 _ _ _ _ (getD_lt_of_forall data hd _) (getD_lt_of_forall data hd _)
      (getD_lt_of_forall data hd _) (getD_lt_of_forall data hd _)]
    simp [fipsWord, Nat.mul_comm]

theorem sha256_load_eq (data : List Nat) (hd : ∀ b ∈ data, b < 256) :
    sha256_load (List.replicate 64 0) data
      = fipsScheduleUpTo data 0 ++ List.replicate 48 0 :=
  sha256_load_upto data hd 16 (Nat.le_refl _)

theorem fipsScheduleUpTo_length (block : List Nat) (n : Nat) :
    (fipsScheduleUpTo block n).length = 16 + n := by
  induction n with
  | zero => simp [fipsScheduleUpTo]
  | succ n ih => simp [fipsScheduleUpTo, ih]; omega

theorem sha256_expand_upto (block : List Nat) (n : Nat) (hn : n ≤ 48) :
    (List.range' 16 n).foldl
      (fun m i => m.set i (u32 (sha_sig1 (m.getD (i - 2) 0) + m.getD (i - 7) 0
        + sha_sig0 (m.getD (i - 15) 0) + m.getD (i - 16) 0)))
      (fipsScheduleUpTo block 0 ++ List.replicate 48 0)
    = fipsScheduleUpTo block n ++ List.replicate (48 - n) 0 := by
  induction n with
  | zero => simp
  | succ n ih =>
    rw [List.range'_concat, List.foldl_append, ih (by omega)]
    simp only [List.foldl_cons, List.foldl_nil, Nat.one_mul]
    have hlen := fipsScheduleUpTo_length block n
    rw [List.set_append]
    simp only [hlen, Nat.lt_irrefl, if_false, Nat.sub_self]
    have h48 : 48 - n = (48 - (n + 1)) + 1 := by omega
    rw [h48, List.replicate_succ, List.set_cons_zero]
    rw [List.getD_append _ _ _ _ (by omega), List.getD_append _ _ _ _ (by omega),
      List.getD_append _ _ _ _ (by omega), List.getD_append _ _ _ _ (by omega)]
    rw [show fipsScheduleUpTo block (n + 1)
        = fipsScheduleUpTo block n ++ [fipsNextW (fipsScheduleUpTo block n)] from rfl]
    rw [List.append_assoc]
    simp only [List.singleton_append, fipsNextW, hlen, sha_sig0_eq, sha_sig1_eq]
    rfl

theorem sha256_schedule_eq (data : List Nat) (hd : ∀ b ∈ data, b < 256) :
    sha256_expand (sha256_load (List.replicate 64 0) data) = fipsSchedule data := by
  rw [sha256_load_eq data hd]
  have := sha256_expand_upto data 48 (Nat.le_refl _)
  simpa [sha256_expand, fipsSchedule] using this


set_option maxRecDepth 100000 in
theorem sha_k_eq_fipsK : sha_k = fipsK := by decide!

theorem sha256_round_eq (m : List Nat) (v : Vars) (i : Nat) :
    (sha256_round m v i).toList = fipsRound m v.toList i := by
  simp only [sha256_round, Vars.toList, fipsRound, sha_k_eq_fipsK, sha_ep0_eq]
  rfl

theorem sha256_rounds_eq (m : List Nat) (l : List Nat) (v : Vars) :
    (l.foldl (sha256_round m) v).toList = l.foldl (fipsRound m) v.toList := by
  induction l generalizing v with
  | nil => rfl
  | cons i l ih => simp only [List.foldl_cons]; rw [ih, sha256_round_eq]

theorem list_length_eight {α : Type} (l : List α) (h : l.length = 8) :
    ∃ a b c d e f g k, l = [a, b, c, d, e, f, g, k] := by
  match l, h with
  | [a, b, c, d, e, f, g, k], _ => exact ⟨a, b, c, d, e, f, g, k, rfl⟩

theorem sha256_transform_state (ctx : SHA256_CTX) (data : List Nat)
    (hs : ctx.state.length = 8) (hd : ∀ b ∈ data, b < 256) :
    sha256_transform ctx data = { ctx with state := fipsCompress ctx.state data } := by
  obtain ⟨s0, s1, s2, s3, s4, s5, s6, s7, hst⟩ := list_length_eight ctx.state hs
  unfold sha256_transform fipsCompress
  rw [sha256_schedule_eq data hd]
  simp only [hst]
  have hv := sha256_rounds_eq (fipsSchedule data) (List.range 64)
    { a := s0, b := s1, c := s2, d := s3, e := s4, f := s5, g := s6, h := s7 }
  simp only [Vars.toList] at hv
  simp only [List.getD_cons_zero, List.getD_cons_succ]
  rw [← hv]
  simp [List.set, u32, Nat.add_comm]


theorem fipsRound_length (w v : List Nat) (t : Nat) : (fipsRound w v t).length = v.length := by
  unfold fipsRound
  split <;> simp

theorem fipsRounds_length (w : List Nat) (l : List Nat) (v : List Nat) :
    (l.foldl (fipsRound w) v).length = v.length := by
  induction l generalizing v with
  | nil => rfl
  | cons i l ih => simp only [List.foldl_cons]; rw [ih, fipsRound_length]

theorem fipsCompress_length (h block : List Nat) : (fipsCompress h block).length = h.length := by
  simp [fipsCompress, fipsRounds_length]

set_option maxRecDepth 100000 in
theorem fipsH0_eq : fipsH0 = [0x6a09e667, 0xbb67ae85, 0x3c6ef372, 0xa54ff53a,
    0x510e527f, 0x9b05688c, 0x1f83d9ab, 0x5be0cd19] := by decide!

theorem fipsHashUpTo_zero (padded : List Nat) : fipsHashUpTo padded 0 = fipsH0 := by
  simp only [fipsHashUpTo, List.range_zero, List.foldl_nil]

theorem fipsHashUpTo_length (padded : List Nat) (n : Nat) : (fipsHashUpTo padded n).length = 8 := by
  unfold fipsHashUpTo
  induction n with
  | zero => simp [fipsH0_eq]
  | succ n ih => rw [List.range_succ, List.foldl_append]; simp [fipsCompress_length, ih]

theorem fipsHashUpTo_succ (padded : List Nat) (n : Nat) :
    fipsHashUpTo padded (n + 1) = fipsCompress (fipsHashUpTo padded n) (fipsBlock padded n) := by
  unfold fipsHashUpTo
  rw [List.range_succ, List.foldl_append]
  rfl

theorem fipsBlock_append (msg t : List Nat) (i : Nat) (h : 64 * (i + 1) ≤ msg.length) :
    fipsBlock (msg ++ t) i = fipsBlock msg i := by
  unfold fipsBlock
  rw [List.drop_append_of_le_length (by omega), List.take_append_of_le_length]
  simp; omega

theorem fipsHashUpTo_append (msg t : List Nat) (n : Nat) (h : 64 * n ≤ msg.length) :
    fipsHashUpTo (msg ++ t) n = fipsHashUpTo msg n := by
  induction n with
  | zero => simp only [fipsHashUpTo_zero]
  | succ n ih =>
    rw [fipsHashUpTo_succ, fipsHashUpTo_succ, ih (by omega), fipsBlock_append _ _ _ (by omega)]

theorem tracks_init (ctx : SHA256_CTX) (hs : ctx.state.length = 8) (hb : ctx.bitlen.length = 2)
    (hd : ctx.data.length = 64) : Tracks (sha256_init ctx) [] := by
  obtain ⟨s0, s1, s2, s3, s4, s5, s6, s7, hst⟩ := list_length_eight ctx.state hs
  match hbl : ctx.bitlen, hb with
  | [b0, b1], _ =>
    constructor
    · simp only [sha256_init, hst, List.set, List.length_nil, Nat.zero_div, fipsHashUpTo_zero,
        fipsH0_eq]
    · rfl
    · exact hd
    · simp
    · simp [sha256_init, hbl]


theorem set_last_of_length (d : List Nat) (b : Nat) (r : Nat) (hr : r < d.length) :
    (d.set r b).take (r + 1) = d.take r ++ [b] := by
  rw [List.set_eq_take_append_cons_drop, if_pos hr]
  rw [List.take_append_eq_append_take]
  simp [List.take_take, Nat.min_eq_left (Nat.le_of_lt hr), List.length_take]

theorem bitlen_step (q : Nat) :
    (if 512 * q % 2 ^ 32 > 0xffffffff - 512
      then [u32 (512 * q % 2 ^ 32 + 512), u32 (512 * q / 2 ^ 32 % 2 ^ 32 + 1)]
      else [u32 (512 * q % 2 ^ 32 + 512), 512 * q / 2 ^ 32 % 2 ^ 32])
    = [512 * (q + 1) % 2 ^ 32, 512 * (q + 1) / 2 ^ 32 % 2 ^ 32] := by
  unfold u32
  split <;> simp only [List.cons.injEq, and_true] <;> constructor <;> omega

theorem tracks_update_byte (c : SHA256_CTX) (msg : List Nat) (b : Nat)
    (h : Tracks c msg) (hm : ∀ x ∈ msg, x < 256) (hb : b < 256) :
    Tracks (sha256_update_byte c b) (msg ++ [b]) := by
  obtain ⟨hst, hdl, hlen, hdata, hbit⟩ := h
  have hr : msg.length % 64 < 64 := Nat.mod_lt _ (by decide)
  have hq : 64 * (msg.length / 64) ≤ msg.length := Nat.mul_div_le _ _
  have hu : u32 (msg.length % 64 + 1) = msg.length % 64 + 1 := by unfold u32; omega
  have htake : (c.data.set (msg.length % 64) b).take (msg.length % 64 + 1)
      = (msg ++ [b]).drop (64 * (msg.length / 64)) := by
    rw [set_last_of_length _ _ _ (by omega), hdata, List.drop_append_of_le_length hq]
  unfold sha256_update_byte
  simp only [hdl, hu]
  by_cases h63 : msg.length % 64 = 63
  · have hblock : c.data.set 63 b = fipsBlock (msg ++ [b]) (msg.length / 64) := by
      rw [h63] at htake
      unfold fipsBlock
      rw [← htake, List.take_take]
      simp
      omega
    have hbytes : ∀ x ∈ fipsBlock (msg ++ [b]) (msg.length / 64), x < 256 := by
      intro x hx
      have hx2 := List.mem_of_mem_drop (List.mem_of_mem_take hx)
      rcases List.mem_append.1 hx2 with h1 | h1
      · exact hm x h1
      · simp at h1; omega
    have hq1 : (msg.length + 1) / 64 = msg.length / 64 + 1 := by omega
    have hr1 : (msg.length + 1) % 64 = 0 := by omega
    simp only [h63, if_true, hblock]
    rw [sha256_transform_state _ _ (by simp [hst, fipsHashUpTo_length]) hbytes]
    simp only [hbit, hst, List.getD_cons_zero, List.getD_cons_succ]
    constructor
    · simp only [List.length_append, List.length_singleton, hq1]
      rw [fipsHashUpTo_succ, fipsHashUpTo_append _ _ _ hq]
      split <;> rfl
    · simp only [List.length_append, List.length_singleton, hr1]
    · split <;> simp [hblock.symm, hlen]
    · simp only [List.length_append, List.length_singleton, hr1, hq1, List.take_zero]
      rw [List.drop_of_length_le]
      simp only [List.length_append, List.length_singleton]
      omega
    · simp only [List.length_append, List.length_singleton, hq1]
      rw [← bitlen_step]
      split <;> simp [List.set]
  · have hq1 : (msg.length + 1) / 64 = msg.length / 64 := by omega
    have hr1 : (msg.length + 1) % 64 = msg.length % 64 + 1 := by omega
    have hne : ¬ (msg.length % 64 + 1 = 64) := by omega
    simp only [hne, if_false]
    constructor
    · simp only [List.length_append, List.length_singleton, hq1]
      rw [fipsHashUpTo_append _ _ _ hq]
      exact hst
    · simp only [List.length_append, List.length_singleton, hr1]
    · simp [hlen]
    · simp only [List.length_append, List.length_singleton, hr1, hq1]
      exact htake
    · simp only [List.length_append, List.length_singleton, hq1]
      exact hbit


theorem tracks_update (data : List Nat) (c : SHA256_CTX) (msg : List Nat)
    (h : Tracks c msg) (hm : ∀ x ∈ msg, x < 256) (hd : ∀ x ∈ data, x < 256) :
    Tracks (sha256_update c data) (msg ++ data) := by
  induction data generalizing c msg with
  | nil => simpa [sha256_update] using h
  | cons b data ih =>
    have hb : b < 256 := hd b (List.mem_cons_self _ _)
    have h1 := tracks_update_byte c msg b h hm hb
    have h2 := ih (sha256_update_byte c b) (msg ++ [b]) h1
      (by
        intro x hx
        rcases List.mem_append.1 hx with h3 | h3
        · exact hm x h3
        · simp at h3; omega)
      (fun x hx => hd x (List.mem_cons_of_mem _ hx))
    simpa [sha256_update] using h2

theorem zero_fill_upto (d : List Nat) (i k : Nat) (h : i + k ≤ d.length) :
    (List.range' i k).foldl (fun d j => d.set j 0) d
      = d.take i ++ List.replicate k 0 ++ d.drop (i + k) := by
  induction k with
  | zero => simp
  | succ k ih =>
    rw [List.range'_concat, List.foldl_append, ih (by omega)]
    simp only [List.foldl_cons, List.foldl_nil, Nat.one_mul]
    rw [List.set_append]
    have hl : (d.take i ++ List.replicate k 0).length = i + k := by
      simp [List.length_take]; omega
    simp only [hl, Nat.lt_irrefl, if_false, Nat.sub_self]
    rw [List.drop_eq_getElem_cons (by omega), List.set_cons_zero]
    rw [List.replicate_succ', ← Nat.add_assoc]
    simp

theorem zero_fill_eq (d : List Nat) (i limit : Nat) (h1 : i ≤ limit) (h2 : limit ≤ d.length) :
    zero_fill d i limit = d.take i ++ List.replicate (limit - i) 0 ++ d.drop limit := by
  unfold zero_fill
  rw [zero_fill_upto d i (limit - i) (by omega)]
  congr 2
  omega

theorem set_tail_eight (d : List Nat) (hd : d.length = 64) (x0 x1 x2 x3 x4 x5 x6 x7 : Nat) :
    (((((((d.set 63 x7).set 62 x6).set 61 x5).set 60 x4).set 59 x3).set 58 x2).set 57 x1).set 56 x0
      = d.take 56 ++ [x0, x1, x2, x3, x4, x5, x6, x7] := by
  have hsplit : d = d.take 56 ++ d.drop 56 := (List.take_append_drop 56 d).symm
  obtain ⟨y0, y1, y2, y3, y4, y5, y6, y7, hy⟩ := list_length_eight (d.drop 56) (by simp [hd])
  have hl : (d.take 56).length = 56 := by simp [hd]
  generalize d.take 56 = p at hsplit hl
  rw [hsplit, hy]
  simp [List.set_append, hl]

theorem fipsZeros_mod (n : Nat) : fipsZeros n = fipsZeros (n % 64) := by
  unfold fipsZeros
  have h : (fun k => decide ((n + 1 + k) % 64 = 56))
      = fun k => decide ((n % 64 + 1 + k) % 64 = 56) := by
    funext k
    have : (n + 1 + k) % 64 = (n % 64 + 1 + k) % 64 := by omega
    rw [this]
  rw [h]

theorem fipsZeros_small : ∀ r < 64, fipsZeros r = if r < 56 then 55 - r else 119 - r := by
  decide

theorem fipsZeros_eq (n : Nat) :
    fipsZeros n = if n % 64 < 56 then 55 - n % 64 else 119 - n % 64 := by
  rw [fipsZeros_mod, fipsZeros_small _ (Nat.mod_lt _ (by decide))]

theorem length_bytes_eq (q r : Nat) (hr : r < 64) (hn : 64 * q + r < 2 ^ 61) :
    let hi := 512 * q / 2 ^ 32 % 2 ^ 32
    let lo := u32 (512 * q % 2 ^ 32 + u32 (r * 8))
    [u8 (hi >>> 24), u8 (hi >>> 16), u8 (hi >>> 8), u8 hi,
      u8 (lo >>> 24), u8 (lo >>> 16), u8 (lo >>> 8), u8 lo] = fipsLength64 (8 * (64 * q + r)) := by
  simp only [fipsLength64, u8, u32, Nat.shiftRight_eq_div_pow]
  have : List.range 8 = [0, 1, 2, 3, 4, 5, 6, 7] := by decide
  rw [this]
  simp only [List.map_cons, List.map_nil, List.cons.injEq, and_true]
  norm_num
  refine ⟨?_, ?_, ?_, ?_, ?_, ?_, ?_, ?_⟩ <;> omega


theorem fipsLength64_length (l : Nat) : (fipsLength64 l).length = 8 := by
  simp [fipsLength64]

theorem fipsPad_eq (msg : List Nat) :
    fipsPad msg = msg ++ ([0x80] ++ List.replicate (fipsZeros msg.length) 0
      ++ fipsLength64 (8 * msg.length)) := by
  simp [fipsPad]

theorem fipsPad_bytes (msg : List Nat) (hm : ∀ x ∈ msg, x < 256) : ∀ x ∈ fipsPad msg, x < 256 := by
  intro x hx
  simp only [fipsPad, List.mem_append, List.mem_singleton, List.mem_replicate, fipsLength64,
    List.mem_map] at hx
  rcases hx with ((h | h) | h) | h
  · exact hm x h
  · omega
  · omega
  · obtain ⟨i, _, hi⟩ := h
    omega

theorem fipsBlock_bytes (p : List Nat) (hp : ∀ x ∈ p, x < 256) (i : Nat) :
    ∀ x ∈ fipsBlock p i, x < 256 :=
  fun x hx => hp x (List.mem_of_mem_drop (List.mem_of_mem_take hx))

theorem fipsPad_length (msg : List Nat) :
    (fipsPad msg).length = if msg.length % 64 < 56 then 64 * (msg.length / 64 + 1)
      else 64 * (msg.length / 64 + 2) := by
  simp only [fipsPad, List.length_append, List.length_singleton, List.length_replicate,
    fipsLength64_length, fipsZeros_eq]
  split <;> omega

theorem drop_full_blocks_length (msg : List Nat) :
    (msg.drop (64 * (msg.length / 64))).length = msg.length % 64 := by
  simp only [List.length_drop]
  omega

theorem fipsPad_block_small (msg : List Nat) (hr : msg.length % 64 < 56) :
    fipsBlock (fipsPad msg) (msg.length / 64)
      = msg.drop (64 * (msg.length / 64)) ++ [0x80] ++ List.replicate (55 - msg.length % 64) 0
        ++ fipsLength64 (8 * msg.length) := by
  unfold fipsBlock
  rw [fipsPad_eq, List.drop_append_of_le_length (Nat.mul_div_le _ _), fipsZeros_eq, if_pos hr]
  rw [List.take_of_length_le]
  · simp
  · simp only [List.length_append, drop_full_blocks_length, List.length_singleton,
      List.length_replicate, fipsLength64_length]
    omega

theorem fipsPad_block_large (msg : List Nat) (hr : ¬ msg.length % 64 < 56) :
    fipsBlock (fipsPad msg) (msg.length / 64)
      = msg.drop (64 * (msg.length / 64)) ++ [0x80] ++ List.replicate (63 - msg.length % 64) 0 := by
  unfold fipsBlock
  have hlt : msg.length % 64 < 64 := Nat.mod_lt _ (by decide)
  rw [fipsPad_eq, List.drop_append_of_le_length (Nat.mul_div_le _ _), fipsZeros_eq, if_neg hr]
  have h119 : 119 - msg.length % 64 = (63 - msg.length % 64) + 56 := by omega
  rw [h119, List.replicate_add]
  have e : List.drop (64 * (msg.length / 64)) msg
        ++ ([128] ++ (List.replicate (63 - msg.length % 64) 0 ++ List.replicate 56 0)
          ++ fipsLength64 (8 * msg.length))
      = (List.drop (64 * (msg.length / 64)) msg ++ [128]
          ++ List.replicate (63 - msg.length % 64) 0)
        ++ (List.replicate 56 0 ++ fipsLength64 (8 * msg.length)) := by
    simp
  rw [e, List.take_append_of_le_length, List.take_of_length_le]
  all_goals
    simp only [List.length_append, drop_full_blocks_length, List.length_singleton,
      List.length_replicate]
    omega

theorem fipsPad_block_last (msg : List Nat) (hr : ¬ msg.length % 64 < 56) :
    fipsBlock (fipsPad msg) (msg.length / 64 + 1)
      = List.replicate 56 0 ++ fipsLength64 (8 * msg.length) := by
  unfold fipsBlock
  have hlt : msg.length % 64 < 64 := Nat.mod_lt _ (by decide)
  rw [fipsPad_eq, fipsZeros_eq, if_neg hr]
  have h119 : 119 - msg.length % 64 = (63 - msg.length % 64) + 56 := by omega
  rw [h119, List.replicate_add]
  have e : msg ++ ([128] ++ (List.replicate (63 - msg.length % 64) 0 ++ List.replicate 56 0)
          ++ fipsLength64 (8 * msg.length))
      = (msg ++ [128] ++ List.replicate (63 - msg.length % 64) 0)
        ++ (List.replicate 56 0 ++ fipsLength64 (8 * msg.length)) := by
    simp
  rw [e, List.drop_append_eq_append_drop, List.drop_of_length_le, List.take_of_length_le]
  · have hz : 64 * (msg.length / 64 + 1)
        - (msg ++ [128] ++ List.replicate (63 - msg.length % 64) 0).length = 0 := by
      simp only [List.length_append, List.length_singleton, List.length_replicate]
      omega
    rw [hz]
    simp
  · simp only [List.length_append, List.length_singleton, List.length_replicate,
      fipsLength64_length, List.length_drop, List.length_nil]
    omega
  · simp only [List.length_append, List.length_singleton, List.length_replicate]
    omega


theorem pad_buffer_small (d p : List Nat) (r : Nat) (hd : d.length = 64) (hr : r < 56)
    (hp : d.take r = p) (x0 x1 x2 x3 x4 x5 x6 x7 : Nat) :
    ((((((((zero_fill (d.set r 0x80) (r + 1) 56).set 63 x7).set 62 x6).set 61 x5).set 60 x4).set
      59 x3).set 58 x2).set 57 x1).set 56 x0
      = p ++ [0x80] ++ List.replicate (55 - r) 0 ++ [x0, x1, x2, x3, x4, x5, x6, x7] := by
  have hz := zero_fill_eq (d.set r 0x80) (r + 1) 56 (by omega) (by simp [hd])
  rw [set_tail_eight _ (by rw [hz]; simp [hd]; omega), hz, set_last_of_length _ _ _ (by omega), hp]
  have h55 : 56 - (r + 1) = 55 - r := by omega
  rw [h55, List.take_append_of_le_length, List.take_of_length_le]
  all_goals
    simp only [List.length_append, List.length_singleton, List.length_replicate, ← hp,
      List.length_take, hd]
    omega

theorem pad_buffer_large (d p : List Nat) (r : Nat) (hd : d.length = 64) (hr : r < 64)
    (hp : d.take r = p) :
    zero_fill (d.set r 0x80) (r + 1) 64 = p ++ [0x80] ++ List.replicate (63 - r) 0 := by
  rw [zero_fill_eq (d.set r 0x80) (r + 1) 64 (by omega) (by simp [hd]),
    set_last_of_length _ _ _ (by omega), hp]
  have h63 : 64 - (r + 1) = 63 - r := by omega
  rw [h63, List.drop_of_length_le (by simp [hd])]
  simp

theorem pad_buffer_last (d : List Nat) (hd : d.length = 64) (x0 x1 x2 x3 x4 x5 x6 x7 : Nat) :
    ((((((((zero_fill d 0 56).set 63 x7).set 62 x6).set 61 x5).set 60 x4).set
      59 x3).set 58 x2).set 57 x1).set 56 x0
      = List.replicate 56 0 ++ [x0, x1, x2, x3, x4, x5, x6, x7] := by
  have hz := zero_fill_eq d 0 56 (by omega) (by simp [hd])
  rw [set_tail_eight _ (by rw [hz]; simp [hd]), hz]
  simp

theorem sha256_final_ctx_state (c : SHA256_CTX) (msg : List Nat)
    (h : Tracks c msg) (hm : ∀ x ∈ msg, x < 256) (hn : msg.length < 2 ^ 61) :
    (sha256_final_ctx c).state = fipsHash msg := by
  obtain ⟨hst, hdl, hlen, hdata, hbit⟩ := h
  have hlt : msg.length % 64 < 64 := Nat.mod_lt _ (by decide)
  have hq : 64 * (msg.length / 64) ≤ msg.length := Nat.mul_div_le _ _
  have hdm : 64 * (msg.length / 64) + msg.length % 64 = msg.length := Nat.div_add_mod _ _
  have hL := length_bytes_eq (msg.length / 64) (msg.length % 64) hlt (by omega)
  simp only [hdm] at hL
  have hpb := fipsPad_bytes msg hm
  unfold fipsHash
  rw [fipsPad_length]
  unfold sha256_final_ctx
  simp only [hdl]
  by_cases hr : msg.length % 64 < 56
  · simp only [hr, if_true, hbit, List.getD_cons_zero, List.getD_cons_succ]
    rw [pad_buffer_small c.data _ _ hlen hr hdata, hL, ← fipsPad_block_small msg hr]
    rw [sha256_transform_state _ _ (by simp [hst, fipsHashUpTo_length]) (fipsBlock_bytes _ hpb _)]
    simp only [hst]
    have e : 64 * (msg.length / 64 + 1) / 64 = msg.length / 64 + 1 := by omega
    rw [e, fipsHashUpTo_succ]
    conv => rhs; rw [fipsPad_eq, fipsHashUpTo_append _ _ _ hq, ← fipsPad_eq]
  · simp only [hr, if_false]
    rw [pad_buffer_large c.data _ _ hlen hlt hdata, ← fipsPad_block_large msg hr]
    rw [sha256_transform_state _ _ (by simp [hst, fipsHashUpTo_length]) (fipsBlock_bytes _ hpb _)]
    simp only [hbit, List.getD_cons_zero, List.getD_cons_succ, hdl]
    rw [pad_buffer_last _ (by simp [fipsBlock, fipsPad_length, hr]; omega), hL,
      ← fipsPad_block_last msg hr]
    rw [sha256_transform_state _ _ (by simp [hst, fipsHashUpTo_length, fipsCompress_length])
      (fipsBlock_bytes _ hpb _)]
    simp only [hst]
    have e : 64 * (msg.length / 64 + 2) / 64 = msg.length / 64 + 1 + 1 := by omega
    rw [e, fipsHashUpTo_succ, fipsHashUpTo_succ]
    conv => rhs; rw [fipsPad_eq, fipsHashUpTo_append _ _ _ hq, ← fipsPad_eq]


theorem byte_extract (x n : Nat) : u8 ((x >>> n) &&& 0xff) = x / 2 ^ n % 256 := by
  unfold u8
  rw [Nat.shiftRight_eq_div_pow]
  have := Nat.and_pow_two_sub_one_eq_mod (x / 2 ^ n) 8
  norm_num at this
  rw [this]
  omega

theorem list_length_32 {α : Type} (l : List α) (h : l.length = 32) :
    ∃ a0 a1 a2 a3 a4 a5 a6 a7 a8 a9 a10 a11 a12 a13 a14 a15 a16 a17 a18 a19 a20 a21 a22 a23
      a24 a25 a26 a27 a28 a29 a30 a31, l = [a0, a1, a2, a3, a4, a5, a6, a7, a8, a9, a10, a11,
        a12, a13, a14, a15, a16, a17, a18, a19, a20, a21, a22, a23, a24, a25, a26, a27, a28, a29,
        a30, a31] := by
  match l, h with
  | [a0, a1, a2, a3, a4, a5, a6, a7, a8, a9, a10, a11, a12, a13, a14, a15, a16, a17, a18, a19,
      a20, a21, a22, a23, a24, a25, a26, a27, a28, a29, a30, a31], _ =>
    exact ⟨a0, a1, a2, a3, a4, a5, a6, a7, a8, a9, a10, a11, a12, a13, a14, a15, a16, a17, a18,
      a19, a20, a21, a22, a23, a24, a25, a26, a27, a28, a29, a30, a31, rfl⟩

theorem sha256_store_eq (s hash : List Nat) (hs : s.length = 8) (hh : hash.length = 32) :
    sha256_store s hash
    = s.flatMap fun w => [w / 2 ^ 24 % 256, w / 2 ^ 16 % 256, w / 2 ^ 8 % 256, w % 256] := by
  obtain ⟨s0, s1, s2, s3, s4, s5, s6, s7, rfl⟩ := list_length_eight s hs
  obtain ⟨a0, a1, a2, a3, a4, a5, a6, a7, a8, a9, a10, a11, a12, a13, a14, a15, a16, a17, a18,
      a19, a20, a21, a22, a23, a24, a25, a26, a27, a28, a29, a30, a31, rfl⟩ :=
    list_length_32 hash hh
  have hr : List.range 4 = [0, 1, 2, 3] := by decide
  unfold sha256_store
  rw [hr]
  simp only [List.foldl_cons, List.foldl_nil, List.getD_cons_zero, List.getD_cons_succ,
    byte_extract, List.set_cons_zero, List.set_cons_succ, List.flatMap_cons, List.flatMap_nil]
  simp

theorem sha256_final_hash (c : SHA256_CTX) (hash : List Nat) (msg : List Nat)
    (h : Tracks c msg) (hm : ∀ x ∈ msg, x < 256) (hn : msg.length < 2 ^ 61)
    (hh : hash.length = 32) :
    (sha256_final c hash).2 = fipsDigest msg := by
  have hst := sha256_final_ctx_state c msg h hm hn
  simp only [sha256_final, hst]
  exact sha256_store_eq _ _ (fipsHashUpTo_length _ _) hh


set_option maxRecDepth 100000 in
theorem hex_digit_eq : ∀ b < 256, hex.getD ((b >>> 4) &&& 0x0f) '0' = Nat.digitChar (b / 16)
    ∧ hex.getD (b &&& 0x0f) '0' = Nat.digitChar (b % 16) := by
  decide

theorem render_length (l : List Nat) :
    (l.flatMap fun b => [Nat.digitChar (b / 16), Nat.digitChar (b % 16)]).length = 2 * l.length := by
  induction l with
  | nil => rfl
  | cons b l ih => simp only [List.flatMap_cons, List.length_append, ih, List.length_cons]; simp; omega

theorem hex_loop_upto (hash : List Nat) (out : List Char) (hb : ∀ b ∈ hash, b < 256) (n : Nat)
    (hn : 2 * n ≤ out.length) (hh : n ≤ hash.length) :
    (List.range n).foldl
      (fun out i =>
        (out.set (i * 2) (hex.getD ((hash.getD i 0 >>> 4) &&& 0x0f) '0')).set (i * 2 + 1)
          (hex.getD (hash.getD i 0 &&& 0x0f) '0'))
      out
    = ((hash.take n).flatMap fun b => [Nat.digitChar (b / 16), Nat.digitChar (b % 16)])
        ++ out.drop (2 * n) := by
  induction n with
  | zero => simp
  | succ n ih =>
    rw [List.range_succ, List.foldl_append, ih (by omega) (by omega)]
    simp only [List.foldl_cons, List.foldl_nil]
    have hlt : n < hash.length := by omega
    have hbn : hash.getD n 0 < 256 := getD_lt_of_forall hash hb n
    obtain ⟨e1, e2⟩ := hex_digit_eq _ hbn
    rw [e1, e2]
    have hl := render_length (hash.take n)
    rw [List.length_take, Nat.min_eq_left (Nat.le_of_lt hlt)] at hl
    rw [List.take_succ, List.flatMap_append, List.getElem?_eq_getElem hlt,
      List.getD_eq_getElem _ _ hlt]
    generalize ((List.take n hash).flatMap
      fun b => [Nat.digitChar (b / 16), Nat.digitChar (b % 16)]) = pre at hl
    have hd0 : List.drop (2 * n) out
        = out[2 * n] :: out[2 * n + 1] :: List.drop (2 * (n + 1)) out := by
      rw [List.drop_eq_getElem_cons (by omega), List.drop_eq_getElem_cons (by omega)]
      rfl
    rw [hd0, List.set_append]
    have h1 : ¬ n * 2 < 2 * n := by omega
    have h2 : n * 2 - 2 * n = 0 := by omega
    simp only [hl, h1, if_false, h2, List.set_cons_zero]
    rw [List.set_append]
    have h3 : ¬ n * 2 + 1 < 2 * n := by omega
    have h4 : n * 2 + 1 - 2 * n = 1 := by omega
    simp only [hl, h3, if_false, h4, List.set_cons_succ, List.set_cons_zero]
    simp

theorem fipsDigest_bytes (msg : List Nat) : ∀ b ∈ fipsDigest msg, b < 256 := by
  intro b hb
  simp only [fipsDigest, List.mem_flatMap] at hb
  obtain ⟨w, _, hw⟩ := hb
  simp at hw
  omega

theorem fipsDigest_length (msg : List Nat) : (fipsDigest msg).length = 32 := by
  have h := fipsHashUpTo_length (fipsPad msg) ((fipsPad msg).length / 64)
  obtain ⟨s0, s1, s2, s3, s4, s5, s6, s7, hs⟩ := list_length_eight _ h
  simp [fipsDigest, fipsHash, hs]

theorem fipsHex_length (msg : List Nat) : (fipsHex msg).length = 64 := by
  unfold fipsHex
  rw [render_length, fipsDigest_length]

theorem sha256_hex_writes (data : List Nat) (out_hex : List Char) (out_len : Nat)
    (hbytes : ∀ b ∈ data, b < 256) (hlen : data.length < 2 ^ 61)
    (hout : 65 ≤ out_len) (hbuf : out_len ≤ out_hex.length) :
    sha256_hex data out_hex out_len = fipsHex data ++ [Char.ofNat 0] ++ out_hex.drop 65 := by
  have ht : Tracks (sha256_update (sha256_init fresh_ctx) data) ([] ++ data) :=
    tracks_update data _ [] (tracks_init fresh_ctx rfl rfl rfl) (by simp) hbytes
  rw [List.nil_append] at ht
  have hd := sha256_final_hash _ (List.replicate 32 0) data ht hbytes hlen (by simp)
  unfold sha256_hex
  rw [if_neg (by omega)]
  simp only [hd]
  rw [hex_loop_upto _ _ (fipsDigest_bytes data) 32 (by omega) (by rw [fipsDigest_length])]
  rw [List.take_of_length_le (by rw [fipsDigest_length])]
  have hl := fipsHex_length data
  unfold fipsHex at hl ⊢
  rw [List.set_append]
  simp only [hl, Nat.lt_irrefl, if_false, Nat.sub_self]
  rw [List.drop_eq_getElem_cons (by omega), List.set_cons_zero]
  simp


/-! ## The object store -/

theorem foldl_max_le (ids : List Nat) (a : Nat) : ∀ x ∈ ids, x ≤ ids.foldl max a := by
  induction ids generalizing a with
  | nil => simp
  | cons y ys ih =>
    intro x hx
    simp only [List.foldl_cons]
    rcases List.mem_cons.1 hx with h | h
    · subst h
      have : ∀ (l : List Nat) (b : Nat), b ≤ l.foldl max b := by
        intro l
        induction l with
        | nil => simp
        | cons z zs ihz =>
          intro b
          simp only [List.foldl_cons]
          exact Nat.le_trans (Nat.le_max_left b z) (ihz _)
      exact Nat.le_trans (Nat.le_max_right a x) (this ys _)
    · exact ih _ x h

theorem next_rowid_gt (seq : Nat) (ids : List Nat) : ∀ x ∈ ids, x < next_rowid seq ids := by
  intro x hx
  have := foldl_max_le ids 0 x hx
  unfold next_rowid
  omega

theorem next_rowid_gt_seq (seq : Nat) (ids : List Nat) : seq < next_rowid seq ids := by
  unfold next_rowid
  omega

theorem foldl_max_append_singleton (ids : List Nat) (a x : Nat) :
    (ids ++ [x]).foldl max a = max (ids.foldl max a) x := by
  simp [List.foldl_append]

theorem next_rowid_after (seq : Nat) (ids : List Nat) :
    next_rowid (next_rowid seq ids) (ids ++ [next_rowid seq ids]) = next_rowid seq ids + 1 := by
  unfold next_rowid
  rw [foldl_max_append_singleton]
  omega

/-- The file rows a fault-free commit loop appends: ids count up from `base`. -/
theorem commit_loop_ok (env : CommitEnv) (cid : Int) (rows : List StagingRow) (k : Nat) (db : Db)
    (hok : ∀ j < rows.length, env.file_prepare_ok (k + j) = true
      ∧ env.file_step_ok (k + j) = true) :
    commit_loop env cid k rows db =
      { db with
        files := db.files ++ List.zipWith (to_file_row cid)
          (List.range' (next_rowid db.files_seq (db.files.map fun r => r.id)) rows.length) rows
        files_seq := if rows = [] then db.files_seq
          else next_rowid db.files_seq (db.files.map fun r => r.id) + (rows.length - 1) } := by
  induction rows generalizing k db with
  | nil => simp [commit_loop]
  | cons r rows ih =>
    have h0 := hok 0 (by simp)
    simp only [Nat.add_zero] at h0
    simp only [commit_loop, h0.1, h0.2, Bool.and_self, if_true]
    rw [ih (k + 1) _ (by
      intro j hj
      have := hok (j + 1) (by simp; omega)
      rw [show k + 1 + j = k + (j + 1) by omega]
      exact this)]
    simp only [insert_file, List.map_append, List.map_cons, List.map_nil, next_rowid_after,
      List.length_cons, List.range'_succ, List.zipWith_cons_cons, List.append_assoc,
      List.singleton_append, to_file_row]
    congr 1
    cases rows with
    | nil => simp
    | cons r2 rows => simp; omega


theorem commit_loop_frame (env : CommitEnv) (cid : Int) (rows : List StagingRow) (k : Nat)
    (db : Db) :
    (commit_loop env cid k rows db).blobs = db.blobs
      ∧ (commit_loop env cid k rows db).commits = db.commits
      ∧ (commit_loop env cid k rows db).commits_seq = db.commits_seq
      ∧ (commit_loop env cid k rows db).staging = db.staging
      ∧ (commit_loop env cid k rows db).staging_seq = db.staging_seq
      ∧ db.files <+: (commit_loop env cid k rows db).files := by
  induction rows generalizing k db with
  | nil => simp [commit_loop]
  | cons r rows ih =>
    simp only [commit_loop]
    obtain ⟨h1, h2, h3, h4, h5, h6⟩ := ih (k + 1)
      (if env.file_prepare_ok k && env.file_step_ok k then
        insert_file db r.filename r.hash r.datetime cid else db)
    refine ⟨?_, ?_, ?_, ?_, ?_, ?_⟩
    · rw [h1]; split <;> rfl
    · rw [h2]; split <;> rfl
    · rw [h3]; split <;> rfl
    · rw [h4]; split <;> rfl
    · rw [h5]; split <;> rfl
    · refine List.IsPrefix.trans ?_ h6
      split
      · exact List.prefix_append _ _
      · exact List.prefix_refl _

theorem commit_loop_no_rows (env : CommitEnv) (cid : Int) (k : Nat) (db : Db) :
    commit_loop env cid k [] db = db := rfl

/-- What `commit_files` does when every call of the storage engine succeeds. -/
theorem commit_files_ok (db : Db) (env : CommitEnv) (s : Settings) (message : Text)
    (hok : env.store_ok db.staging.length) :
    commit_files db env s message =
      (1, { blobs := db.blobs
            files := db.files ++ List.zipWith
              (to_file_row (int_cast (next_rowid db.commits_seq (db.commits.map fun r => r.id))))
              (List.range' (next_rowid db.files_seq (db.files.map fun r => r.id))
                db.staging.length) db.staging
            commits := db.commits ++ [{ id := next_rowid db.commits_seq (db.commits.map fun r => r.id),
                                        message := message, datetime := env.now,
                                        user := s.username }]
            staging := []
            files_seq := if db.staging = [] then db.files_seq
              else next_rowid db.files_seq (db.files.map fun r => r.id)
                + (db.staging.length - 1)
            commits_seq := next_rowid db.commits_seq (db.commits.map fun r => r.id)
            staging_seq := db.staging_seq }) := by
  obtain ⟨h1, h2, h3, h4, h5, h6, h7⟩ := hok
  unfold commit_files
  simp only [h1, h2, h3, h4, h7, Bool.not_true, Bool.false_eq_true, if_false, Bool.and_self,
    if_true]
  have hst : (insert_commit db message env.now s.username).staging = db.staging := rfl
  rw [hst, List.take_of_length_le h5]
  rw [commit_loop_ok env _ db.staging 0 _ (by
    intro j hj
    rw [Nat.zero_add]
    exact h6 j hj)]
  simp [insert_commit, delete_staging]


theorem int_cast_small (x : Nat) (h : x < 2147483648) : int_cast x = (x : Int) := by
  unfold int_cast
  have h1 : x % 4294967296 = x := Nat.mod_eq_of_lt (by omega)
  rw [h1, if_pos h]

theorem zipWith_to_file_row_fields (cid : Int) (rows : List StagingRow) (base : Nat) :
    (List.zipWith (to_file_row cid) (List.range' base rows.length) rows).map
        (fun f => (f.filename, f.hash, f.datetime, f.commit_id))
      = rows.map fun r => (r.filename, r.hash, r.datetime, cid) := by
  induction rows generalizing base with
  | nil => simp
  | cons r rows ih =>
    simp only [List.length_cons, List.range'_succ, List.zipWith_cons_cons, List.map_cons, ih]
    rfl

theorem zipWith_to_file_row_length (cid : Int) (rows : List StagingRow) (base : Nat) :
    (List.zipWith (to_file_row cid) (List.range' base rows.length) rows).length = rows.length := by
  simp

/-- C3 (as amended). A commit on a store with `n` staged rows (`n >= 1`, and
`n = 0` as well), every call of the storage engine succeeding and the new
commit id at most `2^31 - 1`: `commit_files` returns 1, one commit row is
appended, the files table gains exactly `n` rows after the existing ones, the
`i`-th carrying the filename, hash and timestamp of the `i`-th staged row and
the id of the new commit row, and the staging table is empty. -/
theorem commit_promotes_staging (db : Db) (env : CommitEnv) (s : Settings) (message : Text)
    (hok : env.store_ok db.staging.length)
    (hid : next_rowid db.commits_seq (db.commits.map fun r => r.id) < 2147483648) :
    (commit_files db env s message).1 = 1
    ∧ (commit_files db env s message).2.commits
        = db.commits ++ [{ id := next_rowid db.commits_seq (db.commits.map fun r => r.id),
                           message := message, datetime := env.now, user := s.username }]
    ∧ (∃ added : List FileRow,
        (commit_files db env s message).2.files = db.files ++ added
        ∧ added.length = db.staging.length
        ∧ added.map (fun f => (f.filename, f.hash, f.datetime, f.commit_id))
            = db.staging.map (fun r => (r.filename, r.hash, r.datetime,
                ((next_rowid db.commits_seq (db.commits.map fun r => r.id) : Nat) : Int)))
        ∧ added.map (fun f => f.id)
            = List.range' (next_rowid db.files_seq (db.files.map fun r => r.id))
                db.staging.length)
    ∧ (commit_files db env s message).2.staging = []
    ∧ (commit_files db env s message).2.blobs = db.blobs := by
  rw [commit_files_ok db env s message hok, int_cast_small _ hid]
  refine ⟨rfl, rfl, ⟨_, rfl, ?_, ?_, ?_⟩, rfl, rfl⟩
  · simp
  · exact zipWith_to_file_row_fields _ _ _
  · generalize next_rowid db.files_seq (db.files.map fun r => r.id) = base
    generalize db.staging = rows
    induction rows generalizing base with
    | nil => simp
    | cons r rows ih =>
      simp only [List.length_cons, List.range'_succ, List.zipWith_cons_cons, List.map_cons, ih]
      rfl

/-- The scenario of the specification: `notes.txt` holding `hello` is staged,
the commit `first` by `alice` succeeds and leaves the staging table empty. -/
theorem commit_promotes_staging_witness :
    CommitEnv.store_ok (steady_commit_env "2024-05-01 10:05:00".toList) staged_store.staging.length
    ∧ (commit_files staged_store (steady_commit_env "2024-05-01 10:05:00".toList) alice
        "first".toList).1 = 1
    ∧ (commit_files staged_store (steady_commit_env "2024-05-01 10:05:00".toList) alice
        "first".toList).2.staging = [] :=
  have hok : CommitEnv.store_ok (steady_commit_env "2024-05-01 10:05:00".toList)
      staged_store.staging.length :=
    ⟨rfl, rfl, rfl, rfl, by decide, fun _ _ => ⟨rfl, rfl⟩, rfl⟩
  have h := commit_promotes_staging staged_store (steady_commit_env "2024-05-01 10:05:00".toList)
    alice "first".toList hok (by decide)
  ⟨hok, h.1, h.2.2.2.1⟩

/-- C3, the claim as stated fails where the new commit id does not fit a C
`int`: on a store whose `commits` sequence stands at 2147483647, with one
staged row and every call succeeding, the new commit row gets the id
2147483648 and the file row made from the staged row carries the commit id
-2147483648. -/
theorem commit_id_truncated :
    CommitEnv.store_ok (steady_commit_env "2024-05-01 10:05:00".toList) int_max_store.staging.length
    ∧ (commit_files int_max_store (steady_commit_env "2024-05-01 10:05:00".toList) alice
        "first".toList).1 = 1
    ∧ (commit_files int_max_store (steady_commit_env "2024-05-01 10:05:00".toList) alice
        "first".toList).2.commits.map (fun c => c.id) = [2147483648]
    ∧ (commit_files int_max_store (steady_commit_env "2024-05-01 10:05:00".toList) alice
        "first".toList).2.files.map (fun f => f.commit_id) = [-2147483648] := by
  refine ⟨⟨rfl, rfl, rfl, rfl, by decide, fun _ _ => ⟨rfl, rfl⟩, rfl⟩, ?_, ?_, ?_⟩ <;> decide


theorem commit_loop_blobs (env : CommitEnv) (cid : Int) (rows : List StagingRow) (k : Nat)
    (db : Db) : (commit_loop env cid k rows db).blobs = db.blobs :=
  (commit_loop_frame env cid rows k db).1

theorem commit_loop_commits (env : CommitEnv) (cid : Int) (rows : List StagingRow) (k : Nat)
    (db : Db) : (commit_loop env cid k rows db).commits = db.commits :=
  (commit_loop_frame env cid rows k db).2.1

theorem commit_loop_staging (env : CommitEnv) (cid : Int) (rows : List StagingRow) (k : Nat)
    (db : Db) : (commit_loop env cid k rows db).staging = db.staging :=
  (commit_loop_frame env cid rows k db).2.2.2.1

theorem commit_loop_files (env : CommitEnv) (cid : Int) (rows : List StagingRow) (k : Nat)
    (db : Db) : db.files <+: (commit_loop env cid k rows db).files :=
  (commit_loop_frame env cid rows k db).2.2.2.2.2

theorem commit_files_open_fails (db : Db) (env : CommitEnv) (s : Settings) (message : Text)
    (h : env.open_ok = false) : commit_files db env s message = (0, db) := by
  simp [commit_files, h]

theorem commit_files_frame (db : Db) (env : CommitEnv) (s : Settings) (message : Text)
    (h : env.open_ok = true) :
    (commit_files db env s message).1 = 1
    ∧ (commit_files db env s message).2.commits
        = (if (env.commit_prepare_ok && env.commit_step_ok) = true then
            db.commits ++ [{ id := next_rowid db.commits_seq (db.commits.map fun r => r.id),
                             message := message, datetime := env.now, user := s.username }]
          else db.commits)
    ∧ db.files <+: (commit_files db env s message).2.files
    ∧ (env.select_prepare_ok = false → (commit_files db env s message).2.files = db.files)
    ∧ (commit_files db env s message).2.staging = (if env.delete_ok = true then [] else db.staging)
    ∧ (commit_files db env s message).2.blobs = db.blobs := by
  obtain ⟨now, o, cp, cs, sp, sr, fp, fs, d⟩ := env
  simp only at h
  subst h
  have hf1 := fun cid rows => commit_loop_files
    { now := now, open_ok := true, commit_prepare_ok := cp, commit_step_ok := cs,
      select_prepare_ok := sp, select_rows := sr, file_prepare_ok := fp, file_step_ok := fs,
      delete_ok := d } cid rows 0 db
  have hf2 := fun cid rows => commit_loop_files
    { now := now, open_ok := true, commit_prepare_ok := cp, commit_step_ok := cs,
      select_prepare_ok := sp, select_rows := sr, file_prepare_ok := fp, file_step_ok := fs,
      delete_ok := d } cid rows 0 (insert_commit db message now s.username)
  cases cp <;> cases cs <;> cases sp <;> cases d <;>
    simp [commit_files, delete_staging, commit_loop_commits, commit_loop_staging,
      commit_loop_blobs, insert_commit] <;>
    first
    | exact hf1 _ _
    | exact hf2 _ _


theorem commit_files_commits (db : Db) (env : CommitEnv) (s : Settings) (message : Text) :
    (commit_files db env s message).2.commits = db.commits
    ∨ (commit_files db env s message).2.commits
        = db.commits ++ [{ id := next_rowid db.commits_seq (db.commits.map fun r => r.id),
                           message := message, datetime := env.now, user := s.username }] := by
  cases h : env.open_ok
  · rw [commit_files_open_fails db env s message h]
    exact Or.inl rfl
  · have := (commit_files_frame db env s message h).2.1
    rw [this]
    split
    · exact Or.inr rfl
    · exact Or.inl rfl

theorem commit_many_ids (calls : List (CommitEnv × Settings × Text)) (db : Db) :
    ∃ added : List CommitRow,
      (commit_many db calls).commits = db.commits ++ added
      ∧ added.Pairwise (fun a b => a.id < b.id)
      ∧ ∀ old ∈ db.commits, ∀ c ∈ added, old.id < c.id := by
  induction calls generalizing db with
  | nil => exact ⟨[], by simp [commit_many], List.Pairwise.nil, by simp⟩
  | cons call calls ih =>
    obtain ⟨added, h1, h2, h3⟩ := ih (commit_files db call.1 call.2.1 call.2.2).2
    have hstep : commit_many db (call :: calls)
        = commit_many (commit_files db call.1 call.2.1 call.2.2).2 calls := rfl
    rw [hstep, h1]
    rcases commit_files_commits db call.1 call.2.1 call.2.2 with h | h
    · rw [h] at h3 ⊢
      exact ⟨added, rfl, h2, h3⟩
    · rw [h] at h3 ⊢
      refine ⟨{ id := next_rowid db.commits_seq (db.commits.map fun r => r.id),
                 message := call.2.2, datetime := call.1.now,
                 user := call.2.1.username } :: added, by simp, ?_, ?_⟩
      · refine List.Pairwise.cons ?_ h2
        intro c hc
        exact h3 _ (by simp) c hc
      · intro old hold c hc
        rcases List.mem_cons.1 hc with hc | hc
        · subst hc
          exact next_rowid_gt _ _ _ (List.mem_map_of_mem _ hold)
        · exact h3 old (by simp [hold]) c hc

/-- What `commit_files` does on a store with no staged row once the store is
open: no file row is written and the staging table stays empty, whatever the
other calls of the storage engine do. -/
theorem commit_files_empty_staging (db : Db) (env : CommitEnv) (s : Settings) (message : Text)
    (hs : db.staging = []) (ho : env.open_ok = true) :
    (commit_files db env s message).2.files = db.files
    ∧ (commit_files db env s message).2.staging = [] := by
  obtain ⟨now, o, cp, cs, sp, sr, fp, fs, d⟩ := env
  simp only at ho
  subst ho
  cases cp <;> cases cs <;> cases sp <;> cases d <;>
    simp [commit_files, delete_staging, insert_commit, hs, commit_loop]

/-- C6, the claim as stated fails: on the freshly initialised store, whose
staging table is empty, a commit whose insert of the commit row fails at
`sqlite3_step` returns 1 and leaves the commits table empty: the store is as
it was before the call. -/
theorem commit_row_not_added :
    empty_db.staging = []
    ∧ (commit_files empty_db (commit_insert_fails_env "2024-05-01 10:05:00".toList) alice
        "empty".toList).1 = 1
    ∧ (commit_files empty_db (commit_insert_fails_env "2024-05-01 10:05:00".toList) alice
        "empty".toList).2.commits = []
    ∧ (commit_files empty_db (commit_insert_fails_env "2024-05-01 10:05:00".toList) alice
        "empty".toList).2 = empty_db := by
  decide

/-- C6 (as amended). On a store with an empty staging table `commit_files`
returns 1 whenever the store opens (and 0, leaving the store as it was, when it
does not); when the insert of the commit row executes it appends exactly one
commit row, and when that insert fails the commits table stays as it was; in
both cases the files table is unchanged and the staging table stays empty,
whatever the other calls of the storage engine do.
Whatever the store, the staged rows and the outcome of the calls, a commit row
added by `commit_files` has an id greater than that of every commit row already
in the store; along any sequence of commits the added rows have strictly
increasing ids, all greater than the ids present at the start. -/
theorem commit_empty_staging_and_ids (db : Db) (env : CommitEnv) (s : Settings)
    (message : Text) (calls : List (CommitEnv × Settings × Text)) :
    (db.staging = [] → env.open_ok = true →
        env.commit_prepare_ok = true → env.commit_step_ok = true →
        (commit_files db env s message).1 = 1
        ∧ (commit_files db env s message).2.commits
            = db.commits ++ [{ id := next_rowid db.commits_seq (db.commits.map fun r => r.id),
                               message := message, datetime := env.now, user := s.username }]
        ∧ (commit_files db env s message).2.files = db.files
        ∧ (commit_files db env s message).2.staging = [])
    ∧ (db.staging = [] → env.open_ok = true →
        (env.commit_prepare_ok && env.commit_step_ok) = false →
        (commit_files db env s message).1 = 1
        ∧ (commit_files db env s message).2.commits = db.commits
        ∧ (commit_files db env s message).2.files = db.files
        ∧ (commit_files db env s message).2.staging = [])
    ∧ (env.open_ok = false → commit_files db env s message = (0, db))
    ∧ ((commit_files db env s message).2.commits = db.commits
        ∨ ∃ c, (commit_files db env s message).2.commits = db.commits ++ [c]
            ∧ ∀ old ∈ db.commits, old.id < c.id)
    ∧ (∃ added : List CommitRow,
        (commit_many db calls).commits = db.commits ++ added
        ∧ added.Pairwise (fun a b => a.id < b.id)
        ∧ ∀ old ∈ db.commits, ∀ c ∈ added, old.id < c.id) := by
  refine ⟨?_, ?_, commit_files_open_fails db env s message, ?_, commit_many_ids calls db⟩
  · intro hs ho hp hc
    obtain ⟨h1, h2, _⟩ := commit_files_frame db env s message ho
    obtain ⟨h3, h4⟩ := commit_files_empty_staging db env s message hs ho
    refine ⟨h1, ?_, h3, h4⟩
    rw [h2, hp, hc]
    rfl
  · intro hs ho hf
    obtain ⟨h1, h2, _⟩ := commit_files_frame db env s message ho
    obtain ⟨h3, h4⟩ := commit_files_empty_staging db env s message hs ho
    refine ⟨h1, ?_, h3, h4⟩
    rw [h2, hf]
    rfl
  · rcases commit_files_commits db env s message with h | h
    · exact Or.inl h
    · refine Or.inr ⟨_, h, ?_⟩
      intro old hold
      exact next_rowid_gt _ _ _ (List.mem_map_of_mem _ hold)

/-- A commit on the freshly initialised store adds the commit row with id 1 and
writes no file row. -/
theorem commit_empty_staging_and_ids_witness :
    (commit_files empty_db (steady_commit_env "2024-05-01 10:05:00".toList) alice
        "empty".toList).1 = 1
    ∧ (commit_files empty_db (steady_commit_env "2024-05-01 10:05:00".toList) alice
        "empty".toList).2.commits.map (fun c => c.id) = [1]
    ∧ (commit_files empty_db (steady_commit_env "2024-05-01 10:05:00".toList) alice
        "empty".toList).2.files = [] :=
  have h := (commit_empty_staging_and_ids empty_db
    (steady_commit_env "2024-05-01 10:05:00".toList) alice "empty".toList []).1 rfl rfl rfl rfl
  ⟨h.1, by rw [h.2.1]; rfl, h.2.2.1⟩


theorem insert_blob_hashes (db : Db) (hash : Text) (data : List Nat) (size : Int) :
    (hash ∈ db.blobs.map (fun b => b.hash) → insert_blob db hash data size = db)
    ∧ (hash ∉ db.blobs.map (fun b => b.hash) →
        insert_blob db hash data size
          = { db with blobs := db.blobs ++ [{ hash := hash, data := data, size := size }] }) := by
  unfold insert_blob
  constructor
  · intro h
    rw [if_pos]
    simp only [List.any_eq_true, decide_eq_true_eq]
    obtain ⟨b, hb, rfl⟩ := List.mem_map.1 h
    exact ⟨b, hb, rfl⟩
  · intro h
    rw [if_neg]
    simp only [List.any_eq_true, decide_eq_true_eq, not_exists, not_and]
    intro b hb hh
    exact h (List.mem_map.2 ⟨b, hb, hh⟩)

theorem insert_blob_mem (db : Db) (hash : Text) (data : List Nat) (size : Int) :
    hash ∈ (insert_blob db hash data size).blobs.map (fun b => b.hash) := by
  by_cases h : hash ∈ db.blobs.map (fun b => b.hash)
  · rw [(insert_blob_hashes db hash data size).1 h]; exact h
  · rw [(insert_blob_hashes db hash data size).2 h]; simp

theorem insert_blob_nodup (db : Db) (hash : Text) (data : List Nat) (size : Int)
    (hn : (db.blobs.map (fun b => b.hash)).Nodup) :
    ((insert_blob db hash data size).blobs.map (fun b => b.hash)).Nodup := by
  by_cases h : hash ∈ db.blobs.map (fun b => b.hash)
  · rw [(insert_blob_hashes db hash data size).1 h]; exact hn
  · rw [(insert_blob_hashes db hash data size).2 h]
    simp only [List.map_append, List.map_cons, List.map_nil]
    rw [List.nodup_append]
    refine ⟨hn, List.nodup_singleton _, ?_⟩
    intro x hx hx2
    rw [List.mem_singleton] at hx2
    subst hx2
    exact h hx

theorem insert_blob_frame (db : Db) (hash : Text) (data : List Nat) (size : Int) :
    db.blobs <+: (insert_blob db hash data size).blobs
    ∧ (insert_blob db hash data size).files = db.files
    ∧ (insert_blob db hash data size).commits = db.commits
    ∧ (insert_blob db hash data size).staging = db.staging
    ∧ (insert_blob db hash data size).staging_seq = db.staging_seq := by
  unfold insert_blob
  split
  · exact ⟨List.prefix_refl _, rfl, rfl, rfl, rfl⟩
  · exact ⟨List.prefix_append _ _, rfl, rfl, rfl, rfl⟩

/-- What `add_file_to_db` does to each table, whatever fails. -/
theorem add_file_to_db_frame (db : Db) (env : AddEnv) (filename : Text) :
    (add_file_to_db db env filename).2.files = db.files
    ∧ (add_file_to_db db env filename).2.commits = db.commits
    ∧ db.blobs <+: (add_file_to_db db env filename).2.blobs
    ∧ db.staging <+: (add_file_to_db db env filename).2.staging := by
  unfold add_file_to_db
  cases hl : load_file env.file with
  | none => exact ⟨rfl, rfl, List.prefix_refl _, List.prefix_refl _⟩
  | some data =>
    simp only
    obtain ⟨file, now, o, bp, bs, sp, ss⟩ := env
    obtain ⟨h1, h2, h3, h4, _⟩ := insert_blob_frame db (hash_hex data) data (int_cast data.length)
    cases o <;> cases bp <;> cases bs <;> cases sp <;> cases ss <;>
      simp [insert_staging, h1, h2, h3, h4]

/-- The blobs table after an `add` that got past `load_file` and `sqlite3_open`. -/
theorem add_file_to_db_blobs (db : Db) (env : AddEnv) (filename : Text) (data : List Nat)
    (hl : load_file env.file = some data) (ho : env.open_ok = true) :
    (add_file_to_db db env filename).2.blobs
      = (if (env.blob_prepare_ok && env.blob_step_ok) = true then
          (insert_blob db (hash_hex data) data (int_cast data.length)).blobs
        else db.blobs) := by
  unfold add_file_to_db
  simp only [hl, ho, Bool.not_true, Bool.false_eq_true, if_false]
  obtain ⟨file, now, o, bp, bs, sp, ss⟩ := env
  cases bp <;> cases bs <;> cases sp <;> cases ss <;> simp [insert_staging]

theorem add_file_to_db_nodup (db : Db) (env : AddEnv) (filename : Text)
    (hn : (db.blobs.map (fun b => b.hash)).Nodup) :
    ((add_file_to_db db env filename).2.blobs.map (fun b => b.hash)).Nodup := by
  cases hl : load_file env.file with
  | none => simp only [add_file_to_db, hl]; exact hn
  | some data =>
    cases ho : env.open_ok with
    | false => simp only [add_file_to_db, hl, ho, Bool.not_false, if_true]; exact hn
    | true =>
      rw [add_file_to_db_blobs db env filename data hl ho]
      split
      · exact insert_blob_nodup _ _ _ _ hn
      · exact hn

theorem commit_files_blobs (db : Db) (env : CommitEnv) (s : Settings) (message : Text) :
    (commit_files db env s message).2.blobs = db.blobs := by
  cases h : env.open_ok
  · rw [commit_files_open_fails db env s message h]
  · exact (commit_files_frame db env s message h).2.2.2.2.2

theorem reachable_blobs_nodup (db : Db) (h : Reachable db) :
    (db.blobs.map (fun b => b.hash)).Nodup := by
  induction h with
  | init => exact List.nodup_nil
  | add db env filename _ ih => exact add_file_to_db_nodup db env filename ih
  | commit db env s message _ ih => rw [commit_files_blobs]; exact ih

theorem reachable_add_many (adds : List (AddEnv × Text)) (db : Db) (h : Reachable db) :
    Reachable (add_many db adds) := by
  induction adds generalizing db with
  | nil => exact h
  | cons a adds ih => exact ih _ (Reachable.add db a.1 a.2 h)

theorem add_many_blobs_mono (adds : List (AddEnv × Text)) (db : Db) (hash : Text)
    (h : hash ∈ db.blobs.map (fun b => b.hash)) :
    hash ∈ (add_many db adds).blobs.map (fun b => b.hash) := by
  induction adds generalizing db with
  | nil => exact h
  | cons a adds ih =>
    apply ih
    obtain ⟨t, ht⟩ := (add_file_to_db_frame db a.1 a.2).2.2.1
    rw [← ht, List.map_append]
    exact List.mem_append_left _ h


theorem filter_key_length_one {α β : Type} [DecidableEq β] (f : α → β) (l : List α) (k : β)
    (hn : (l.map f).Nodup) (hm : k ∈ l.map f) :
    (l.filter (fun b => f b = k)).length = 1 := by
  induction l with
  | nil => simp at hm
  | cons x l ih =>
    simp only [List.map_cons, List.nodup_cons] at hn
    by_cases hx : f x = k
    · have hnot : ∀ y ∈ l, ¬ f y = k := by
        intro y hy hyk
        exact hn.1 (List.mem_map.2 ⟨y, hy, by rw [hyk, hx]⟩)
      have hnil : l.filter (fun b => f b = k) = [] := by
        rw [List.filter_eq_nil_iff]
        intro y hy
        simpa using hnot y hy
      simp [List.filter_cons, hx, hnil]
    · have hm2 : k ∈ l.map f := by
        simp only [List.map_cons, List.mem_cons] at hm
        rcases hm with h | h
        · exact absurd h.symm hx
        · exact h
      simp [List.filter_cons, hx, ih hn.2 hm2]

/-- What an `add` that got past `load_file` and `sqlite3_open` returns: 1,
whatever the statements do. -/
theorem add_file_to_db_returns (db : Db) (env : AddEnv) (filename : Text) (data : List Nat)
    (hl : load_file env.file = some data) (ho : env.open_ok = true) :
    (add_file_to_db db env filename).1 = 1 := by
  unfold add_file_to_db
  simp only [hl, ho, Bool.not_true, Bool.false_eq_true, if_false]

set_option maxRecDepth 100000 in
/-- C5, the claim as stated fails: on the freshly initialised store an `add`
of `hello`, content without a blob row, whose blob insert fails at
`sqlite3_step` returns 1 and adds no blob row; after two such adds of the same
content, as `notes.txt` and as `copy.txt`, no blob row has its digest. -/
theorem blob_row_not_added :
    load_file (blob_fails_env hello_file "2024-05-01 10:00:00".toList).file = some hello_bytes
    ∧ hash_hex hello_bytes ∉ empty_db.blobs.map (fun b => b.hash)
    ∧ (add_file_to_db empty_db (blob_fails_env hello_file "2024-05-01 10:00:00".toList)
        "notes.txt".toList).1 = 1
    ∧ (add_file_to_db empty_db (blob_fails_env hello_file "2024-05-01 10:00:00".toList)
        "notes.txt".toList).2.blobs = []
    ∧ Reachable (add_many empty_db
        [(blob_fails_env hello_file "2024-05-01 10:00:00".toList, "notes.txt".toList),
         (blob_fails_env hello_file "2024-05-01 10:01:00".toList, "copy.txt".toList)])
    ∧ ((add_many empty_db
        [(blob_fails_env hello_file "2024-05-01 10:00:00".toList, "notes.txt".toList),
         (blob_fails_env hello_file "2024-05-01 10:01:00".toList, "copy.txt".toList)]).blobs.filter
      (fun b => b.hash = hello_hash)).length = 0 :=
  ⟨by decide, by simp [empty_db], by decide!, by decide!,
    reachable_add_many _ _ Reachable.init, by decide!⟩

/-- C5 (as amended). In every store reachable from an initialised empty store
by `add` and `commit` (whatever the calls of the storage engine do) no two blob
rows have the same hash. An `add` of content whose digest already has a blob
row leaves the blobs table as it is; an `add` of content without a row, which
opens the store and whose blob insert executes, appends exactly one row keyed
by the digest; an `add` whose blob insert fails still returns 1 and leaves the
blobs table as it is. After one or more adds of the same content under any
file names, each reading the file and executing its blob insert, exactly one
blob row has the digest of that content; whatever the adds do, at most one
has. -/
theorem blob_dedup (db : Db) (env : AddEnv) (filename : Text) (data : List Nat)
    (adds : List (AddEnv × Text)) :
    (Reachable db → (db.blobs.map (fun b => b.hash)).Nodup)
    ∧ (load_file env.file = some data → hash_hex data ∈ db.blobs.map (fun b => b.hash) →
        (add_file_to_db db env filename).2.blobs = db.blobs)
    ∧ (load_file env.file = some data → hash_hex data ∉ db.blobs.map (fun b => b.hash) →
        env.open_ok = true → env.blob_prepare_ok = true → env.blob_step_ok = true →
        (add_file_to_db db env filename).1 = 1
        ∧ (add_file_to_db db env filename).2.blobs
          = db.blobs ++ [{ hash := hash_hex data, data := data, size := int_cast data.length }])
    ∧ (load_file env.file = some data → env.open_ok = true →
        (env.blob_prepare_ok && env.blob_step_ok) = false →
        (add_file_to_db db env filename).1 = 1
        ∧ (add_file_to_db db env filename).2.blobs = db.blobs)
    ∧ (Reachable db → adds ≠ [] →
        (∀ a ∈ adds, load_file a.1.file = some data ∧ a.1.open_ok = true
          ∧ a.1.blob_prepare_ok = true ∧ a.1.blob_step_ok = true) →
        ((add_many db adds).blobs.filter (fun b => b.hash = hash_hex data)).length = 1)
    ∧ (Reachable db →
        ((add_many db adds).blobs.filter (fun b => b.hash = hash_hex data)).length ≤ 1) := by
  refine ⟨reachable_blobs_nodup db, ?_, ?_, ?_, ?_, ?_⟩
  · intro hl hm
    cases ho : env.open_ok with
    | false => simp [add_file_to_db, hl, ho]
    | true =>
      rw [add_file_to_db_blobs db env filename data hl ho]
      split
      · rw [(insert_blob_hashes db _ data _).1 hm]
      · rfl
  · intro hl hm ho hp hs
    refine ⟨add_file_to_db_returns db env filename data hl ho, ?_⟩
    rw [add_file_to_db_blobs db env filename data hl ho, hp, hs]
    simp only [Bool.and_self, if_true]
    rw [(insert_blob_hashes db _ data _).2 hm]
  · intro hl ho hf
    refine ⟨add_file_to_db_returns db env filename data hl ho, ?_⟩
    rw [add_file_to_db_blobs db env filename data hl ho, hf]
    rfl
  · intro hr hne hall
    cases adds with
    | nil => exact absurd rfl hne
    | cons a rest =>
      obtain ⟨hl, ho, hp, hs⟩ := hall a (List.mem_cons_self _ _)
      have hmem : hash_hex data ∈ (add_file_to_db db a.1 a.2).2.blobs.map (fun b => b.hash) := by
        rw [add_file_to_db_blobs db a.1 a.2 data hl ho, hp, hs]
        simp only [Bool.and_self, if_true]
        exact insert_blob_mem _ _ _ _
      have hmem2 := add_many_blobs_mono rest _ _ hmem
      have hnd := reachable_blobs_nodup _ (reachable_add_many (a :: rest) db hr)
      exact filter_key_length_one _ _ _ hnd hmem2
  · intro hr
    have hnd := reachable_blobs_nodup _ (reachable_add_many adds db hr)
    generalize hash_hex data = hh
    by_cases hm : hh ∈ (add_many db adds).blobs.map (fun b => b.hash)
    · exact le_of_eq (filter_key_length_one _ _ _ hnd hm)
    · have hnil : (add_many db adds).blobs.filter (fun b => b.hash = hh) = [] := by
        rw [List.filter_eq_nil_iff]
        intro b hb
        simp only [decide_eq_true_eq]
        intro hbh
        exact hm (List.mem_map.2 ⟨b, hb, hbh⟩)
      rw [hnil]
      simp

set_option maxRecDepth 100000 in
theorem hash_hex_hello : hash_hex hello_bytes = hello_hash := by decide!

/-- Adding `hello` twice, as `notes.txt` and as `copy.txt`, leaves one blob row
with its digest. -/
theorem blob_dedup_witness :
    ((add_many empty_db
        [(steady_add_env hello_file "2024-05-01 10:00:00".toList, "notes.txt".toList),
         (steady_add_env hello_file "2024-05-01 10:01:00".toList, "copy.txt".toList)]).blobs.filter
      (fun b => b.hash = hello_hash)).length = 1 := by
  have h := (blob_dedup empty_db (steady_add_env hello_file []) [] hello_bytes
    [(steady_add_env hello_file "2024-05-01 10:00:00".toList, "notes.txt".toList),
     (steady_add_env hello_file "2024-05-01 10:01:00".toList, "copy.txt".toList)]).2.2.2.2.1
    Reachable.init (by simp)
    (by
      intro a ha
      simp only [List.mem_cons, List.mem_singleton, List.not_mem_nil, or_false] at ha
      rcases ha with rfl | rfl <;> exact ⟨rfl, rfl, rfl, rfl⟩)
  rw [hash_hex_hello] at h
  exact h


set_option maxRecDepth 100000 in
/-- C7, the claim as stated fails: from an initialised empty store, one `add`
whose blob insert fails at `sqlite3_step` returns 1 and leaves a staging row
naming the hash of `hello` while the blobs table is empty. -/
theorem staging_row_without_blob :
    Reachable (add_file_to_db empty_db (blob_fails_env hello_file "2024-05-01 10:00:00".toList)
      "notes.txt".toList).2
    ∧ (add_file_to_db empty_db (blob_fails_env hello_file "2024-05-01 10:00:00".toList)
        "notes.txt".toList).1 = 1
    ∧ (add_file_to_db empty_db (blob_fails_env hello_file "2024-05-01 10:00:00".toList)
        "notes.txt".toList).2.staging.map (fun r => r.hash) = [hello_hash]
    ∧ (add_file_to_db empty_db (blob_fails_env hello_file "2024-05-01 10:00:00".toList)
        "notes.txt".toList).2.blobs = [] :=
  ⟨Reachable.add _ _ _ Reachable.init, by decide!, by decide!, by decide!⟩

theorem add_rows_staging_hash (db : Db) (hh filename now : Text) (data : List Nat) (size : Int)
    (stage : Bool)
    (hinv : ∀ r ∈ db.staging, r.hash ∈ db.blobs.map (fun b => b.hash)) :
    ∀ r ∈ (if stage = true then insert_staging (insert_blob db hh data size) filename hh now
        else insert_blob db hh data size).staging,
      r.hash ∈ (if stage = true then insert_staging (insert_blob db hh data size) filename hh now
        else insert_blob db hh data size).blobs.map (fun b => b.hash) := by
  have hmem := insert_blob_mem db hh data size
  obtain ⟨⟨t, ht⟩, _, _, h4, _⟩ := insert_blob_frame db hh data size
  have hold : ∀ r ∈ db.staging,
      r.hash ∈ (insert_blob db hh data size).blobs.map (fun b => b.hash) := by
    intro r hr
    rw [← ht, List.map_append]
    exact List.mem_append_left _ (hinv r hr)
  cases stage with
  | true =>
    intro r hr
    simp only [if_true, insert_staging, h4, List.mem_append, List.mem_singleton] at hr ⊢
    rcases hr with hr | hr
    · exact hold r hr
    · subst hr; exact hmem
  | false =>
    intro r hr
    simp only [Bool.false_eq_true, if_false] at hr ⊢
    rw [h4] at hr
    exact hold r hr

theorem add_file_to_db_staging_hash (db : Db) (env : AddEnv) (filename : Text)
    (hp : env.blob_prepare_ok = true) (hs : env.blob_step_ok = true)
    (hinv : ∀ r ∈ db.staging, r.hash ∈ db.blobs.map (fun b => b.hash)) :
    ∀ r ∈ (add_file_to_db db env filename).2.staging,
      r.hash ∈ (add_file_to_db db env filename).2.blobs.map (fun b => b.hash) := by
  unfold add_file_to_db
  cases hl : load_file env.file with
  | none => exact hinv
  | some data =>
    simp only [hp, hs, Bool.and_self, if_true]
    generalize hash_hex data = hh
    cases ho : env.open_ok with
    | false => exact hinv
    | true =>
      exact add_rows_staging_hash db hh filename env.now data (int_cast data.length)
        (env.stage_prepare_ok && env.stage_step_ok) hinv

/-- C7 (as amended). In every store reachable through `add_file_to_db` and
`commit_files` by runs in which the blob insert statement of every add
executes (any other call of the storage engine may fail), every row of the
staging table names a hash that has a row in the blobs table. A blob insert
that fails is not noticed by `add_file_to_db`, which still writes the staging
row. -/
theorem staging_names_blob (db : Db) (h : ReachableBlobOk db) :
    ∀ r ∈ db.staging, r.hash ∈ db.blobs.map (fun b => b.hash) := by
  induction h with
  | init => intro r hr; simp [empty_db] at hr
  | add db env filename hp hs _ ih => exact add_file_to_db_staging_hash db env filename hp hs ih
  | commit db env s message _ ih =>
    rw [commit_files_blobs]
    cases ho : env.open_ok with
    | false => rw [commit_files_open_fails db env s message ho]; exact ih
    | true =>
      rw [(commit_files_frame db env s message ho).2.2.2.2.1]
      split
      · intro r hr; simp at hr
      · exact ih

set_option maxRecDepth 100000 in
theorem staged_store_eq :
    (add_file_to_db empty_db (steady_add_env hello_file "2024-05-01 10:00:00".toList)
      "notes.txt".toList).2 = staged_store := by decide!

/-- The store with `notes.txt` staged is reachable with its blob insert
executing, and its staged row names the blob of `hello`. -/
theorem staging_names_blob_witness :
    ReachableBlobOk staged_store
    ∧ ∀ r ∈ staged_store.staging, r.hash ∈ staged_store.blobs.map (fun b => b.hash) :=
  have hr : ReachableBlobOk staged_store := by
    rw [← staged_store_eq]
    exact ReachableBlobOk.add _ _ _ rfl rfl ReachableBlobOk.init
  ⟨hr, staging_names_blob staged_store hr⟩


theorem add_file_to_db_ok (db : Db) (env : AddEnv) (filename : Text) (data : List Nat)
    (hl : load_file env.file = some data) (hok : env.store_ok) :
    (add_file_to_db db env filename).1 = 1
    ∧ (add_file_to_db db env filename).2.staging
        = db.staging ++ [{ id := next_rowid db.staging_seq (db.staging.map fun r => r.id),
                           filename := filename, hash := hash_hex data, datetime := env.now }] := by
  obtain ⟨h1, h2, h3, h4, h5⟩ := hok
  unfold add_file_to_db
  simp only [hl, h1, h2, h3, h4, h5, Bool.not_true, Bool.false_eq_true, if_false, Bool.and_self,
    if_true]
  generalize hash_hex data = hh
  obtain ⟨_, _, _, e4, e5⟩ := insert_blob_frame db hh data (int_cast data.length)
  simp [insert_staging, e4, e5]

theorem add_many_files (adds : List (AddEnv × Text)) (db : Db) :
    (add_many db adds).files = db.files := by
  induction adds generalizing db with
  | nil => rfl
  | cons a adds ih =>
    have : add_many db (a :: adds) = add_many (add_file_to_db db a.1 a.2).2 adds := rfl
    rw [this, ih, (add_file_to_db_frame db a.1 a.2).1]

theorem add_many_same_file (envs : List AddEnv) (db : Db) (filename : Text) (data : List Nat)
    (hall : ∀ e ∈ envs, load_file e.file = some data ∧ e.store_ok) :
    ∃ rows : List StagingRow,
      (add_many db (envs.map fun e => (e, filename))).staging = db.staging ++ rows
      ∧ rows.map (fun r => (r.filename, r.hash, r.datetime))
          = envs.map (fun e => (filename, hash_hex data, e.now)) := by
  induction envs generalizing db with
  | nil => exact ⟨[], by simp [add_many], rfl⟩
  | cons e envs ih =>
    obtain ⟨hl, hok⟩ := hall e (List.mem_cons_self _ _)
    obtain ⟨rows, h1, h2⟩ := ih (add_file_to_db db e filename).2
      (fun e' he' => hall e' (List.mem_cons_of_mem _ he'))
    have hstep : add_many db ((e :: envs).map fun e => (e, filename))
        = add_many (add_file_to_db db e filename).2 (envs.map fun e => (e, filename)) := rfl
    rw [hstep, h1, (add_file_to_db_ok db e filename data hl hok).2]
    refine ⟨{ id := next_rowid db.staging_seq (db.staging.map fun r => r.id),
              filename := filename, hash := hash_hex data, datetime := e.now } :: rows, ?_, ?_⟩
    · simp
    · simp only [List.map_cons, h2]

theorem zipWith_to_file_row_texts (cid : Int) (rows : List StagingRow) (base : Nat) :
    (List.zipWith (to_file_row cid) (List.range' base rows.length) rows).map
        (fun f => (f.filename, f.hash, f.datetime))
      = rows.map fun r => (r.filename, r.hash, r.datetime) := by
  induction rows generalizing base with
  | nil => simp
  | cons r rows ih =>
    simp only [List.length_cons, List.range'_succ, List.zipWith_cons_cons, List.map_cons, ih]
    rfl

/-- The staging table after an `add` that got past `load_file` and
`sqlite3_open`: one row more when the staging insert executes, the table as it
was when it does not; the return value is 1 in both cases, and the blob insert
has no part in it. -/
theorem add_file_to_db_staging (db : Db) (env : AddEnv) (filename : Text) (data : List Nat)
    (hl : load_file env.file = some data) (ho : env.open_ok = true) :
    (add_file_to_db db env filename).1 = 1
    ∧ (add_file_to_db db env filename).2.staging
      = (if (env.stage_prepare_ok && env.stage_step_ok) = true then
          db.staging ++ [{ id := next_rowid db.staging_seq (db.staging.map fun r => r.id),
                           filename := filename, hash := hash_hex data, datetime := env.now }]
        else db.staging) := by
  unfold add_file_to_db
  simp only [hl, ho, Bool.not_true, Bool.false_eq_true, if_false]
  generalize hash_hex data = hh
  obtain ⟨_, _, _, e4, e5⟩ := insert_blob_frame db hh data (int_cast data.length)
  obtain ⟨file, now, o, bp, bs, sp, ss⟩ := env
  cases bp <;> cases bs <;> cases sp <;> cases ss <;> simp [insert_staging, e4, e5]

theorem add_many_same_file_staged (envs : List AddEnv) (db : Db) (filename : Text)
    (data : List Nat)
    (hall : ∀ e ∈ envs, load_file e.file = some data ∧ e.open_ok = true
      ∧ e.stage_prepare_ok = true ∧ e.stage_step_ok = true) :
    ∃ rows : List StagingRow,
      (add_many db (envs.map fun e => (e, filename))).staging = db.staging ++ rows
      ∧ rows.map (fun r => (r.filename, r.hash, r.datetime))
          = envs.map (fun e => (filename, hash_hex data, e.now)) := by
  induction envs generalizing db with
  | nil => exact ⟨[], by simp [add_many], rfl⟩
  | cons e envs ih =>
    obtain ⟨hl, ho, hp, hs⟩ := hall e (List.mem_cons_self _ _)
    obtain ⟨rows, h1, h2⟩ := ih (add_file_to_db db e filename).2
      (fun e' he' => hall e' (List.mem_cons_of_mem _ he'))
    have hstep : add_many db ((e :: envs).map fun e => (e, filename))
        = add_many (add_file_to_db db e filename).2 (envs.map fun e => (e, filename)) := rfl
    have hst := (add_file_to_db_staging db e filename data hl ho).2
    rw [hp, hs] at hst
    simp only [Bool.and_self, if_true] at hst
    rw [hstep, h1, hst]
    refine ⟨{ id := next_rowid db.staging_seq (db.staging.map fun r => r.id),
              filename := filename, hash := hash_hex data, datetime := e.now } :: rows, ?_, ?_⟩
    · simp
    · simp only [List.map_cons, h2]

set_option maxRecDepth 100000 in
/-- C8, the claim as stated fails: with `notes.txt` staged, an `add` of the
readable non-empty file `notes.txt` whose staging insert fails at
`sqlite3_step` returns 1 and appends no staging row; two such adds on the
freshly initialised store leave no staging row. And with `notes.txt` staged,
a commit whose inserts of file rows fail returns 1, creates no file record and
empties the staging table. -/
theorem staging_row_not_added :
    load_file (stage_fails_env hello_file "2024-05-01 10:02:00".toList).file = some hello_bytes
    ∧ (add_file_to_db staged_store (stage_fails_env hello_file "2024-05-01 10:02:00".toList)
        "notes.txt".toList).1 = 1
    ∧ (add_file_to_db staged_store (stage_fails_env hello_file "2024-05-01 10:02:00".toList)
        "notes.txt".toList).2.staging = staged_store.staging
    ∧ (add_many empty_db
        [(stage_fails_env hello_file "2024-05-01 10:00:00".toList, "notes.txt".toList),
         (stage_fails_env hello_file "2024-05-01 10:01:00".toList, "notes.txt".toList)]).staging
        = []
    ∧ (commit_files staged_store (file_insert_fails_env "2024-05-01 10:05:00".toList) alice
        "first".toList).1 = 1
    ∧ (commit_files staged_store (file_insert_fails_env "2024-05-01 10:05:00".toList) alice
        "first".toList).2.files = []
    ∧ (commit_files staged_store (file_insert_fails_env "2024-05-01 10:05:00".toList) alice
        "first".toList).2.staging = [] :=
  ⟨by decide, by decide!, by decide!, by decide!, by decide, by decide, by decide⟩

/-- C8 (as amended). An `add` that reads a non-empty file, opens the store and
whose staging insert executes returns 1 and appends exactly one staging row
(the file name as given, the digest of the bytes read, the timestamp of the
call) after the existing rows, which stay as they are, whatever they hold; an
`add` whose staging insert fails still returns 1 and leaves the staging table
as it is. Adding the same file `k` times, each staging insert executing,
therefore appends `k` rows for it, and the next commit, every call of the
storage engine succeeding, appends one file record for each staged row, among
them `k` for that file. -/
theorem add_never_deduplicates (db : Db) (env : AddEnv) (filename : Text) (data : List Nat)
    (envs : List AddEnv) (cenv : CommitEnv) (s : Settings) (message : Text) :
    (load_file env.file = some data → env.open_ok = true →
        env.stage_prepare_ok = true → env.stage_step_ok = true →
        (add_file_to_db db env filename).1 = 1
        ∧ (add_file_to_db db env filename).2.staging
            = db.staging ++ [{ id := next_rowid db.staging_seq (db.staging.map fun r => r.id),
                               filename := filename, hash := hash_hex data,
                               datetime := env.now }])
    ∧ (load_file env.file = some data → env.open_ok = true →
        (env.stage_prepare_ok && env.stage_step_ok) = false →
        (add_file_to_db db env filename).1 = 1
        ∧ (add_file_to_db db env filename).2.staging = db.staging)
    ∧ ((∀ e ∈ envs, load_file e.file = some data ∧ e.open_ok = true
          ∧ e.stage_prepare_ok = true ∧ e.stage_step_ok = true) →
        ∃ rows : List StagingRow,
          (add_many db (envs.map fun e => (e, filename))).staging = db.staging ++ rows
          ∧ rows.length = envs.length
          ∧ rows.map (fun r => (r.filename, r.hash, r.datetime))
              = envs.map (fun e => (filename, hash_hex data, e.now))
          ∧ (cenv.store_ok (db.staging.length + envs.length) →
              ∃ added : List FileRow,
                (commit_files (add_many db (envs.map fun e => (e, filename))) cenv s
                    message).2.files = db.files ++ added
                ∧ added.map (fun f => (f.filename, f.hash, f.datetime))
                    = db.staging.map (fun r => (r.filename, r.hash, r.datetime))
                      ++ envs.map (fun e => (filename, hash_hex data, e.now))
                ∧ (commit_files (add_many db (envs.map fun e => (e, filename))) cenv s
                    message).2.staging = [])) := by
  refine ⟨?_, ?_, ?_⟩
  · intro hl ho hp hs
    obtain ⟨h1, h2⟩ := add_file_to_db_staging db env filename data hl ho
    refine ⟨h1, ?_⟩
    rw [h2, hp, hs]
    rfl
  · intro hl ho hf
    obtain ⟨h1, h2⟩ := add_file_to_db_staging db env filename data hl ho
    refine ⟨h1, ?_⟩
    rw [h2, hf]
    rfl
  intro hall
  obtain ⟨rows, h1, h2⟩ := add_many_same_file_staged envs db filename data hall
  have hlen : rows.length = envs.length := by
    have := congrArg List.length h2
    simpa using this
  refine ⟨rows, h1, hlen, h2, ?_⟩
  intro hc
  have hc2 : cenv.store_ok (add_many db (envs.map fun e => (e, filename))).staging.length := by
    rw [h1, List.length_append, hlen]; exact hc
  rw [commit_files_ok _ cenv s message hc2]
  simp only [add_many_files]
  refine ⟨_, rfl, ?_, trivial⟩
  rw [zipWith_to_file_row_texts, h1, List.map_append, h2]

/-- Adding `notes.txt` again while it is staged leaves two staging rows; and
after two adds of `notes.txt` on the freshly initialised store the next commit
creates two file records for it. -/
theorem add_never_deduplicates_witness :
    (add_file_to_db staged_store (steady_add_env hello_file "2024-05-01 10:02:00".toList)
        "notes.txt".toList).2.staging.length = 2
    ∧ (commit_files
        (add_many empty_db
          ([steady_add_env hello_file "2024-05-01 10:00:00".toList,
            steady_add_env hello_file "2024-05-01 10:01:00".toList].map
            fun e => (e, "notes.txt".toList)))
        (steady_commit_env "2024-05-01 10:05:00".toList) alice "first".toList).2.files.map
          (fun f => (f.filename, f.datetime))
        = [("notes.txt".toList, "2024-05-01 10:00:00".toList),
           ("notes.txt".toList, "2024-05-01 10:01:00".toList)] := by
  have h := (add_never_deduplicates staged_store
    (steady_add_env hello_file "2024-05-01 10:02:00".toList) "notes.txt".toList hello_bytes []
    (steady_commit_env []) alice []).1 rfl rfl rfl rfl
  have h2 := (add_never_deduplicates empty_db
    (steady_add_env hello_file []) "notes.txt".toList hello_bytes
    [steady_add_env hello_file "2024-05-01 10:00:00".toList,
     steady_add_env hello_file "2024-05-01 10:01:00".toList]
    (steady_commit_env "2024-05-01 10:05:00".toList) alice "first".toList).2.2
    (by
      intro e he
      simp only [List.mem_cons, List.mem_singleton, List.not_mem_nil, or_false] at he
      rcases he with rfl | rfl <;> exact ⟨rfl, rfl, rfl, rfl⟩)
  obtain ⟨rows, _, _, _, hc⟩ := h2
  obtain ⟨added, hf, hm, _⟩ := hc ⟨rfl, rfl, rfl, rfl, by decide, fun _ _ => ⟨rfl, rfl⟩, rfl⟩
  refine ⟨by rw [h.2]; rfl, ?_⟩
  rw [hf]
  have hm2 := congrArg (List.map (fun t : Text × Text × Text => (t.1, t.2.2))) hm
  simp only [List.map_map] at hm2
  have he : empty_db.files = [] := rfl
  rw [he, List.nil_append]
  exact hm2

/-- C9. `add_file_to_db` leaves the files and commits tables as they are;
`commit_files` keeps every row of the files table and of the commits table,
unchanged and in place, and only appends after them; `show_status` and
`show_log` leave the whole store as it is. All of this whatever the calls of
the storage engine do. -/
theorem history_append_only (db : Db) :
    (∀ (env : AddEnv) (filename : Text),
        (add_file_to_db db env filename).2.files = db.files
        ∧ (add_file_to_db db env filename).2.commits = db.commits)
    ∧ (∀ (env : CommitEnv) (s : Settings) (message : Text),
        db.files <+: (commit_files db env s message).2.files
        ∧ db.commits <+: (commit_files db env s message).2.commits)
    ∧ (∀ open_ok prepare_ok : Bool, (show_status db open_ok prepare_ok).2 = db)
    ∧ (∀ open_ok prepare_ok : Bool, (show_log db open_ok prepare_ok).2 = db) := by
  refine ⟨?_, ?_, ?_, ?_⟩
  · intro env filename
    exact ⟨(add_file_to_db_frame db env filename).1, (add_file_to_db_frame db env filename).2.1⟩
  · intro env s message
    constructor
    · cases h : env.open_ok
      · rw [commit_files_open_fails db env s message h]
      · exact (commit_files_frame db env s message h).2.2.1
    · rcases commit_files_commits db env s message with h | h
      · rw [h]
      · rw [h]; exact List.prefix_append _ _
  · intro o p
    unfold show_status
    split <;> rfl
  · intro o p
    unfold show_log
    split <;> rfl


/-! ## The claims about the digest engine -/

set_option maxRecDepth 100000 in
/-- The constants of the reference are what the standard says they are: the
primes are the 64 primes below 312, and each root is the integer part of the
cube (square) root, so that `fipsK` and `fipsH0` hold the first 32 bits of the
fractional parts. -/
theorem fips_constants_checked :
    fipsPrimes.length = 64
    ∧ (∀ p ∈ fipsPrimes, fipsRoot 3 (p * 2 ^ 96) ^ 3 ≤ p * 2 ^ 96
        ∧ p * 2 ^ 96 < (fipsRoot 3 (p * 2 ^ 96) + 1) ^ 3)
    ∧ (∀ p ∈ fipsPrimes.take 8, fipsRoot 2 (p * 2 ^ 64) ^ 2 ≤ p * 2 ^ 64
        ∧ p * 2 ^ 64 < (fipsRoot 2 (p * 2 ^ 64) + 1) ^ 2) := by
  decide!

theorem fipsIsPrime_iff (n : Nat) : fipsIsPrime n = true ↔ Nat.Prime n := by
  rw [Nat.prime_def_lt']
  simp only [fipsIsPrime, Bool.and_eq_true, decide_eq_true_eq, List.all_eq_true, List.mem_range,
    Bool.or_eq_true, ne_eq]
  constructor
  · rintro ⟨h2, h⟩
    refine ⟨h2, ?_⟩
    intro m hm hmn hdvd
    rcases h m hmn with h1 | h1
    · omega
    · exact h1 (Nat.mod_eq_zero_of_dvd hdvd)
  · rintro ⟨h2, h⟩
    refine ⟨h2, ?_⟩
    intro d hd
    by_cases hd2 : d < 2
    · exact Or.inl hd2
    · exact Or.inr (fun h0 => h d (by omega) hd (Nat.dvd_of_mod_eq_zero h0))

/-- C1. For every sequence of bytes shorter than `2^61` and every output
buffer of at least 65 characters, `sha256_hex` leaves in the buffer the 64
lowercase hexadecimal digits of the SHA-256 digest FIPS 180-4 defines for the
sequence (padding with `0x80`, zeros and the 64-bit big-endian bit length,
64-round compression of each 64-byte block with the standard constants over
words modulo `2^32`, the eight words of the result big-endian), then the
terminating NUL, and does not touch the rest of the buffer. -/
theorem sha256_hex_standard (data : List Nat) (out_hex : List Char) (out_len : Nat)
    (hbytes : ∀ b ∈ data, b < 256) (hlen : data.length < 2 ^ 61)
    (hout : 65 ≤ out_len) (hbuf : out_len ≤ out_hex.length) :
    sha256_hex data out_hex out_len = fipsHex data ++ [Char.ofNat 0] ++ out_hex.drop 65
    ∧ (fipsHex data).length = 64 :=
  ⟨sha256_hex_writes data out_hex out_len hbytes hlen hout hbuf, fipsHex_length data⟩

set_option maxRecDepth 100000 in
/-- The digest of `abc` in a 66-character buffer announced as 65: the 64
digits of the test vector of the standard, the NUL, and the last character
untouched. -/
theorem sha256_hex_standard_witness :
    sha256_hex [97, 98, 99] (List.replicate 66 'x') 65
      = "ba7816bf8f01cfea414140de5dae2223b00361a396177a9cb410ff61f20015ad".toList
        ++ [Char.ofNat 0] ++ ['x'] := by
  have h := (sha256_hex_standard [97, 98, 99] (List.replicate 66 'x') 65 (by decide) (by decide)
    (by decide) (by decide)).1
  rw [h]
  decide!

theorem sha256_update_append (ctx : SHA256_CTX) (a b : List Nat) :
    sha256_update (sha256_update ctx a) b = sha256_update ctx (a ++ b) := by
  simp [sha256_update, List.foldl_append]

theorem sha256_update_chunks (chunks : List (List Nat)) (ctx : SHA256_CTX) :
    chunks.foldl sha256_update ctx = sha256_update ctx chunks.flatten := by
  induction chunks generalizing ctx with
  | nil => rfl
  | cons c chunks ih =>
    simp only [List.foldl_cons, List.flatten_cons, ih, sha256_update_append]

/-- C2. Feeding `a` and then `b` to an initialised engine leaves exactly the
context (hash words, bit counter, buffer fill and the whole buffer) that
feeding `a ++ b` in one call leaves, so `sha256_final` gives the same digest;
the same holds for any list of chunks against their concatenation. -/
theorem sha256_update_chunk_independent (ctx : SHA256_CTX) (a b : List Nat)
    (chunks : List (List Nat)) (hash : List Nat) :
    sha256_update (sha256_update (sha256_init ctx) a) b = sha256_update (sha256_init ctx) (a ++ b)
    ∧ sha256_final (sha256_update (sha256_update (sha256_init ctx) a) b) hash
        = sha256_final (sha256_update (sha256_init ctx) (a ++ b)) hash
    ∧ chunks.foldl sha256_update (sha256_init ctx)
        = sha256_update (sha256_init ctx) chunks.flatten
    ∧ sha256_final (chunks.foldl sha256_update (sha256_init ctx)) hash
        = sha256_final (sha256_update (sha256_init ctx) chunks.flatten) hash := by
  refine ⟨sha256_update_append _ a b, ?_, sha256_update_chunks chunks _, ?_⟩
  · rw [sha256_update_append]
  · rw [sha256_update_chunks]


/-! ## The sync gate -/

theorem cstr_of_no_nul (l : List Char) (h : NUL ∉ l) : cstr l = l := by
  unfold cstr
  rw [List.takeWhile_eq_self_iff]
  intro x hx
  simp only [ne_eq, decide_eq_true_eq]
  intro hx0
  exact h (hx0 ▸ hx)

theorem strchr_none (s : Text) (c : Char) : strchr s c = none ↔ c ∉ s := by
  induction s with
  | nil => simp [strchr]
  | cons x xs ih =>
    unfold strchr
    by_cases h : x = c
    · simp [h]
    · simp only [h, if_false, ih, List.mem_cons, not_or]
      constructor
      · intro h2; exact ⟨fun hc => h hc.symm, h2⟩
      · intro h2; exact h2.2

theorem strchr_some (s : Text) (c : Char) (p : Text) (h : strchr s c = some p) :
    ∃ a t, s = a ++ c :: t ∧ c ∉ a ∧ p = c :: t := by
  induction s with
  | nil => simp [strchr] at h
  | cons x xs ih =>
    unfold strchr at h
    by_cases hx : x = c
    · simp only [hx, if_true, Option.some.injEq] at h
      exact ⟨[], xs, by simp [hx], by simp, h.symm⟩
    · simp only [hx, if_false] at h
      obtain ⟨a, t, h1, h2, h3⟩ := ih h
      refine ⟨x :: a, t, by simp [h1], ?_, h3⟩
      simp only [List.mem_cons, not_or]
      exact ⟨fun hc => hx hc.symm, h2⟩

theorem strchr_append (a t : Text) (c : Char) (h : c ∉ a) :
    strchr (a ++ c :: t) c = some (c :: t) := by
  induction a with
  | nil => simp [strchr]
  | cons x xs ih =>
    simp only [List.mem_cons, not_or] at h
    have hx : ¬ x = c := fun hc => h.1 hc.symm
    simp only [List.cons_append, strchr, hx, if_false]
    exact ih h.2

theorem line_has_2fa_iff (line u : Text) (hl : NUL ∉ line) :
    line_has_2fa line u = true ↔ GateLine u line := by
  unfold line_has_2fa GateLine
  rw [cstr_of_no_nul line hl]
  simp only [strncmp_eq, List.take_length]
  constructor
  · intro h
    split at h
    · rename_i hc
      simp only [Bool.and_eq_true, decide_eq_true_eq] at hc
      obtain ⟨h1, h2⟩ := hc
      have hlt : u.length < line.length := by
        by_contra hge
        rw [List.getD_eq_default _ _ (by omega)] at h2
        exact absurd h2 (by decide)
      have hpre : (u ++ [':']) <+: line := by
        refine ⟨line.drop (u.length + 1), ?_⟩
        rw [List.getD_eq_getElem _ _ hlt] at h2
        have := List.take_append_drop u.length line
        rw [h1, List.drop_eq_getElem_cons hlt, h2] at this
        simpa using this
      refine ⟨hpre, ?_⟩
      split at h
      · exact absurd h (by simp)
      · rename_i p hp
        obtain ⟨a, t, e1, e2, e3⟩ := strchr_some _ _ _ hp
        subst e3
        simp only [List.tail_cons] at h
        split at h
        · exact absurd h (by simp)
        · rename_i q hq
          obtain ⟨b, t2, f1, f2, f3⟩ := strchr_some _ _ _ hq
          subst f3
          simp only [List.tail_cons, Bool.and_eq_true, decide_eq_true_eq] at h
          cases t2 with
          | nil => simp at h
          | cons x rest =>
            simp only [List.headD_cons] at h
            exact ⟨a, b, x, rest, by rw [e1, f1], e2, f2, h.1.2, h.1.1⟩
    · exact absurd h (by simp)
  · rintro ⟨⟨t, ht⟩, a, b, x, rest, e, ha, hb, hx1, hx2⟩
    have h1 : List.take u.length line = u := by
      rw [← ht]; simp
    have h2 : line.getD u.length NUL = ':' := by
      rw [← ht, List.append_assoc, List.getD_append_right _ _ _ _ (Nat.le_refl _)]
      simp
    have hxn : x ≠ NUL := by
      intro hx0
      apply hl
      rw [e, ← hx0]
      simp
    simp only [h1, h2, decide_True, Bool.and_self, if_true]
    rw [e, strchr_append a _ ':' ha]
    simp only [List.tail_cons]
    rw [strchr_append b _ ':' hb]
    simp [hx1, hx2, hxn]


theorem text_lines_ne_nil (c : Char) (rest : List Char) : text_lines (c :: rest) ≠ [] := by
  unfold text_lines
  split
  · simp
  · split <;> simp

theorem text_lines_flatten (input : List Char) : (text_lines input).flatten = input := by
  induction input with
  | nil => rfl
  | cons c rest ih =>
    unfold text_lines
    split
    · simp [ih]
    · split
      · rename_i h
        rw [h] at ih
        simp at ih
        simp [← ih]
      · rename_i l ls h
        rw [h] at ih
        simp at ih
        simp [← ih]

theorem mem_of_mem_text_lines (input : List Char) (l : List Char) (hl : l ∈ text_lines input) :
    ∀ c ∈ l, c ∈ input := by
  intro c hc
  rw [← text_lines_flatten input]
  exact List.mem_flatten.2 ⟨l, hl, hc⟩

theorem fgets_line_nil (n : Nat) : fgets_line n [] = ([], []) := by
  cases n <;> rfl

/-- On a file whose first line has at most `n` characters, `fgets` stores
that line and leaves the other lines. -/
theorem fgets_line_first (input : List Char) (n : Nat) (l : List Char) (ls : List (List Char))
    (h : text_lines input = l :: ls) (hlen : l.length ≤ n) :
    ∃ rest, fgets_line n input = (l, rest) ∧ text_lines rest = ls
      ∧ rest.length < input.length := by
  induction input generalizing n l ls with
  | nil => simp [text_lines] at h
  | cons c rest0 ih =>
    unfold text_lines at h
    by_cases hc : c = '\n'
    · simp only [hc, if_true, List.cons.injEq] at h
      obtain ⟨h1, h2⟩ := h
      subst h1
      cases n with
      | zero => simp at hlen
      | succ n => exact ⟨rest0, by simp [fgets_line, hc], h2, by simp⟩
    · simp only [hc, if_false] at h
      cases htl : text_lines rest0 with
      | nil =>
        rw [htl] at h
        simp only [List.cons.injEq] at h
        obtain ⟨h1, h2⟩ := h
        subst h1
        have hr : rest0 = [] := by
          cases rest0 with
          | nil => rfl
          | cons d r => exact absurd htl (text_lines_ne_nil d r)
        subst hr
        cases n with
        | zero => simp at hlen
        | succ n =>
          refine ⟨[], ?_, by rw [← h2]; rfl, by simp⟩
          simp [fgets_line, hc, fgets_line_nil]
      | cons l2 ls2 =>
        rw [htl] at h
        simp only [List.cons.injEq] at h
        obtain ⟨h1, h2⟩ := h
        subst h1
        cases n with
        | zero => simp at hlen
        | succ n =>
          obtain ⟨rest, e1, e2, e3⟩ := ih n l2 ls2 htl (by simpa using hlen)
          refine ⟨rest, ?_, by rw [e2, h2], by simp; omega⟩
          simp [fgets_line, hc, e1]

theorem has_2fa_loop_values (u : Text) (fuel : Nat) (input : List Char) :
    has_2fa_loop u fuel input = 0 ∨ has_2fa_loop u fuel input = 1 := by
  induction fuel generalizing input with
  | zero => exact Or.inl rfl
  | succ fuel ih =>
    unfold has_2fa_loop
    split
    · exact Or.inl rfl
    · split
      · exact Or.inr rfl
      · exact ih _

theorem has_2fa_loop_iff (u : Text) (fuel : Nat) (input : List Char)
    (hfuel : input.length < fuel) (hlines : ∀ l ∈ text_lines input, l.length < 1024) :
    has_2fa_loop u fuel input = 1 ↔ ∃ l ∈ text_lines input, line_has_2fa l u = true := by
  induction fuel generalizing input with
  | zero => omega
  | succ fuel ih =>
    unfold has_2fa_loop
    cases input with
    | nil => simp [fgets, text_lines]
    | cons c rest0 =>
      cases htl : text_lines (c :: rest0) with
      | nil => exact absurd htl (text_lines_ne_nil c rest0)
      | cons l ls =>
        have hl : l.length < 1024 := hlines l (by rw [htl]; exact List.mem_cons_self _ _)
        obtain ⟨rest, e1, e2, e3⟩ := fgets_line_first (c :: rest0) 1023 l ls htl (by omega)
        have hf : fgets 1024 (c :: rest0) = some (l, rest) := by
          simp [fgets, e1]
        simp only [hf]
        by_cases hm : line_has_2fa l u = true
        · simp only [hm, if_true, true_iff]
          exact ⟨l, List.mem_cons_self _ _, hm⟩
        · simp only [hm, Bool.false_eq_true, if_false]
          rw [ih rest (by simp at hfuel e3; omega)
            (fun l' hl' => hlines l' (by rw [htl, ← e2] at *; exact List.mem_cons_of_mem _ hl')),
            e2]
          constructor
          · rintro ⟨l', h1, h2⟩
            exact ⟨l', List.mem_cons_of_mem _ h1, h2⟩
          · rintro ⟨l', h1, h2⟩
            rcases List.mem_cons.1 h1 with h3 | h3
            · subst h3; exact absurd h2 hm
            · exact ⟨l', h3, h2⟩

theorem has_2fa_enabled_iff (s : Settings) (file : List Char) (hu : NUL ∉ s.username)
    (hf : NUL ∉ file) (hlines : ∀ l ∈ text_lines file, l.length < 1024) :
    has_2fa_enabled (some file) s = 1 ↔ ∃ l ∈ text_lines file, GateLine s.username l := by
  unfold has_2fa_enabled
  simp only [cstr_of_no_nul _ hu]
  rw [has_2fa_loop_iff _ _ _ (Nat.lt_succ_self _) hlines]
  constructor
  · rintro ⟨l, h1, h2⟩
    refine ⟨l, h1, (line_has_2fa_iff l _ ?_).1 h2⟩
    exact fun h0 => hf (mem_of_mem_text_lines file l h1 _ h0)
  · rintro ⟨l, h1, h2⟩
    refine ⟨l, h1, (line_has_2fa_iff l _ ?_).2 h2⟩
    exact fun h0 => hf (mem_of_mem_text_lines file l h1 _ h0)


theorem has_2fa_enabled_values (users : Option (List Char)) (s : Settings) :
    has_2fa_enabled users s = 0 ∨ has_2fa_enabled users s = 1 := by
  unfold has_2fa_enabled
  cases users with
  | none => exact Or.inl rfl
  | some content => exact has_2fa_loop_values _ _ _

theorem otp_gate_prompt (s : Settings) (env : SyncEnv) :
    (SyncEvent.prompt ∈ (otp_gate s env).1 ↔ has_2fa_enabled env.users s = 1)
    ∧ (SyncEvent.has_2fa 1 ∈ (otp_gate s env).1 ↔ has_2fa_enabled env.users s = 1) := by
  unfold otp_gate
  rcases has_2fa_enabled_values env.users s with h | h <;> simp [h]

theorem push_repo_prompt (s : Settings) (db_name : Text) (env : SyncEnv) :
    (SyncEvent.prompt ∈ push_repo s db_name env
      ↔ (cstr s.api_enabled ≠ "0".toList ∧ env.db_exists = true
          ∧ has_2fa_enabled env.users s = 1))
    ∧ (SyncEvent.has_2fa 1 ∈ push_repo s db_name env
      ↔ (cstr s.api_enabled ≠ "0".toList ∧ env.db_exists = true
          ∧ has_2fa_enabled env.users s = 1)) := by
  obtain ⟨h1, h2⟩ := otp_gate_prompt s env
  unfold push_repo
  generalize "0".toList = zero
  by_cases ha : cstr s.api_enabled = zero
  · simp [ha]
  · cases hd : env.db_exists
    · simp [ha]
    · simp only [ha, if_false, Bool.not_true, Bool.false_eq_true, ne_eq, not_false_eq_true,
        true_and]
      constructor
      · rw [← h1]
        cases use_internal_http s env <;> cases env.libcurl_ok <;> cases env.curl_exec_ok <;> simp
      · rw [← h2]
        cases use_internal_http s env <;> cases env.libcurl_ok <;> cases env.curl_exec_ok <;> simp

theorem pull_repo_prompt (s : Settings) (db_name : Text) (env : SyncEnv) :
    (SyncEvent.prompt ∈ pull_repo s db_name env
      ↔ (cstr s.api_enabled ≠ "0".toList ∧ has_2fa_enabled env.users s = 1))
    ∧ (SyncEvent.has_2fa 1 ∈ pull_repo s db_name env
      ↔ (cstr s.api_enabled ≠ "0".toList ∧ has_2fa_enabled env.users s = 1)) := by
  obtain ⟨h1, h2⟩ := otp_gate_prompt s env
  unfold pull_repo
  generalize "0".toList = zero
  by_cases ha : cstr s.api_enabled = zero
  · simp [ha]
  · simp only [ha, if_false, ne_eq, not_false_eq_true, true_and]
    constructor
    · rw [← h1]
      cases use_internal_http s env <;> cases env.libcurl_ok <;> cases env.curl_exec_ok <;> simp
    · rw [← h2]
      cases use_internal_http s env <;> cases env.libcurl_ok <;> cases env.curl_exec_ok <;> simp

theorem gate_line_alice_empty (l : List Char)
    (h : l = "alice:hash:".toList ∨ l = "alice:hash:\n".toList ∨ l = "alice:hash:\r\n".toList) :
    ¬ GateLine "alice".toList l := by
  have hn : NUL ∉ l := by rcases h with h | h | h <;> subst h <;> decide
  rw [← line_has_2fa_iff l _ hn]
  rcases h with h | h | h <;> subst h <;> decide

theorem gate_line_alice_secret (l : List Char)
    (h : l = "alice:hash:ABC123".toList ∨ l = "alice:hash:ABC123\n".toList
      ∨ l = "alice:hash:ABC123\r\n".toList) :
    GateLine "alice".toList l := by
  have hn : NUL ∉ l := by rcases h with h | h | h <;> subst h <;> decide
  rw [← line_has_2fa_iff l _ hn]
  rcases h with h | h | h <;> subst h <;> decide


theorem split_at_first (c : Char) (a a2 t t2 : List Char) (ha : c ∉ a) (ha2 : c ∉ a2)
    (h : a ++ c :: t = a2 ++ c :: t2) : a = a2 ∧ t = t2 := by
  induction a generalizing a2 with
  | nil =>
    cases a2 with
    | nil => simpa using h
    | cons y ys =>
      simp only [List.nil_append, List.cons_append, List.cons.injEq] at h
      simp only [List.mem_cons, not_or] at ha2
      exact absurd h.1 ha2.1
  | cons x xs ih =>
    cases a2 with
    | nil =>
      simp only [List.nil_append, List.cons_append, List.cons.injEq] at h
      simp only [List.mem_cons, not_or] at ha
      exact absurd h.1.symm ha.1
    | cons y ys =>
      simp only [List.cons_append, List.cons.injEq] at h
      simp only [List.mem_cons, not_or] at ha ha2
      obtain ⟨e1, e2⟩ := ih ys ha.2 ha2.2 h.2
      exact ⟨by rw [h.1, e1], e2⟩

/-- For a user name without a colon the gate condition reads on the fields of
the record: the line is the user name, a colon, a second field without colon,
a colon, and a third field that starts with a character other than carriage
return and line feed. -/
theorem gateLine_fields (u line : Text) (hu : ':' ∉ u) :
    GateLine u line ↔ ∃ field x rest, line = u ++ ':' :: (field ++ ':' :: x :: rest)
      ∧ ':' ∉ field ∧ x ≠ '\r' ∧ x ≠ '\n' := by
  unfold GateLine
  constructor
  · rintro ⟨⟨t, ht⟩, a, b, x, rest, e, ha, hb, hx1, hx2⟩
    rw [List.append_assoc, List.singleton_append] at ht
    obtain ⟨e1, e2⟩ := split_at_first ':' a u _ _ ha hu (e.symm.trans ht.symm)
    exact ⟨b, x, rest, by rw [e, e1], hb, hx1, hx2⟩
  · rintro ⟨f, x, rest, e, hf, hx1, hx2⟩
    refine ⟨⟨f ++ ':' :: x :: rest, by rw [e]; simp⟩, u, f, x, rest, e, hu, hf, hx1, hx2⟩

/-- C10. For every user name and every credential file (texts without NUL)
whose lines are shorter than 1024 characters, `has_2fa_enabled` returns 1
exactly when some line starts with the user name immediately followed by a
colon and has its second colon followed by a character that is neither a
carriage return nor a line feed nor the end of the text, and returns 0
otherwise, as it does when the file cannot be opened. For user `alice` a file
whose lines for `alice:` are all the record `alice:hash:` gives 0 and a file
holding the record `alice:hash:ABC123` gives 1. `push_repo` and `pull_repo`
prompt for the code exactly in the runs in which their call of
`has_2fa_enabled` returns 1, that is when the API is enabled (and for push the
store file exists) and the function returns 1 on the credential file. The
second colon is the second colon of the line; for a user name without a colon
it is the one that ends the second field, so the condition is that the third
field is there and starts with a character other than CR and LF. -/
theorem sync_gate_decision (s : Settings) (file : List Char) (db_name : Text) (env : SyncEnv)
    (hu : NUL ∉ s.username) (hf : NUL ∉ file)
    (hlines : ∀ l ∈ text_lines file, l.length < 1024) :
    (has_2fa_enabled (some file) s = 1 ↔ ∃ l ∈ text_lines file, GateLine s.username l)
    ∧ (has_2fa_enabled (some file) s = 0 ↔ ¬ ∃ l ∈ text_lines file, GateLine s.username l)
    ∧ has_2fa_enabled none s = 0
    ∧ (s.username = "alice".toList →
        (∀ l ∈ text_lines file, "alice:".toList <+: l →
          l = "alice:hash:".toList ∨ l = "alice:hash:\n".toList ∨ l = "alice:hash:\r\n".toList) →
        has_2fa_enabled (some file) s = 0)
    ∧ (s.username = "alice".toList →
        (∃ l ∈ text_lines file, l = "alice:hash:ABC123".toList ∨ l = "alice:hash:ABC123\n".toList
          ∨ l = "alice:hash:ABC123\r\n".toList) →
        has_2fa_enabled (some file) s = 1)
    ∧ (SyncEvent.prompt ∈ push_repo s db_name env ↔ SyncEvent.has_2fa 1 ∈ push_repo s db_name env)
    ∧ (SyncEvent.prompt ∈ push_repo s db_name env
        ↔ (cstr s.api_enabled ≠ "0".toList ∧ env.db_exists = true
            ∧ has_2fa_enabled env.users s = 1))
    ∧ (SyncEvent.prompt ∈ pull_repo s db_name env ↔ SyncEvent.has_2fa 1 ∈ pull_repo s db_name env)
    ∧ (SyncEvent.prompt ∈ pull_repo s db_name env
        ↔ (cstr s.api_enabled ≠ "0".toList ∧ has_2fa_enabled env.users s = 1))
    ∧ (':' ∉ s.username →
        (has_2fa_enabled (some file) s = 1 ↔
          ∃ l ∈ text_lines file, ∃ field x rest,
            l = s.username ++ ':' :: (field ++ ':' :: x :: rest)
            ∧ ':' ∉ field ∧ x ≠ '\r' ∧ x ≠ '\n')) := by
  have hiff := has_2fa_enabled_iff s file hu hf hlines
  have hzero : has_2fa_enabled (some file) s = 0
      ↔ ¬ ∃ l ∈ text_lines file, GateLine s.username l := by
    rw [← hiff]
    rcases has_2fa_enabled_values (some file) s with h | h <;> simp [h]
  refine ⟨hiff, hzero, rfl, ?_, ?_, ?_, (push_repo_prompt s db_name env).1, ?_,
    (pull_repo_prompt s db_name env).1, ?_⟩
  · intro hs hall
    rw [hzero, hs]
    rintro ⟨l, hl, hg⟩
    have hp : "alice:".toList <+: l := hg.1
    exact gate_line_alice_empty l (hall l hl hp) hg
  · intro hs hex
    rw [hiff, hs]
    obtain ⟨l, hl, h⟩ := hex
    exact ⟨l, hl, gate_line_alice_secret l h⟩
  · rw [(push_repo_prompt s db_name env).1, (push_repo_prompt s db_name env).2]
  · rw [(pull_repo_prompt s db_name env).1, (pull_repo_prompt s db_name env).2]
  · intro hc
    rw [hiff]
    constructor
    · rintro ⟨l, hl, hg⟩
      exact ⟨l, hl, (gateLine_fields s.username l hc).1 hg⟩
    · rintro ⟨l, hl, hg⟩
      exact ⟨l, hl, (gateLine_fields s.username l hc).2 hg⟩

/-- A credential file with the record `alice:hash:ABC123` makes the gate ask
for a code, one with `alice:hash:` does not. -/
theorem sync_gate_decision_witness :
    has_2fa_enabled (some "bob:x:\nalice:hash:ABC123\n".toList) alice = 1
    ∧ has_2fa_enabled (some "bob:x:y\nalice:hash:\n".toList) alice = 0 :=
  have h1 := sync_gate_decision alice "bob:x:\nalice:hash:ABC123\n".toList "repo.omi".toList
    { users := none, db_exists := true, stdin := [], libcurl_compiled := false,
      libcurl_ok := false, curl_exec_ok := true } (by decide) (by decide) (by decide)
  have h2 := sync_gate_decision alice "bob:x:y\nalice:hash:\n".toList "repo.omi".toList
    { users := none, db_exists := true, stdin := [], libcurl_compiled := false,
      libcurl_ok := false, curl_exec_ok := true } (by decide) (by decide) (by decide)
  ⟨h1.2.2.2.2.1 rfl ⟨"alice:hash:ABC123\n".toList, by decide, Or.inr (Or.inl rfl)⟩,
   h2.2.2.2.1 rfl (by decide)⟩


/-- The digest does not depend on what the local variables of `sha256_hex`
hold before the call: whatever the context and the `hash` array contain,
`sha256_init`, `sha256_update` and `sha256_final` leave the standard digest in
`hash`. -/
theorem sha256_digest_any_locals (ctx : SHA256_CTX) (hash data : List Nat)
    (hs : ctx.state.length = 8) (hb : ctx.bitlen.length = 2) (hd : ctx.data.length = 64)
    (hh : hash.length = 32) (hbytes : ∀ b ∈ data, b < 256) (hlen : data.length < 2 ^ 61) :
    (sha256_final (sha256_update (sha256_init ctx) data) hash).2 = fipsDigest data := by
  have ht : Tracks (sha256_update (sha256_init ctx) data) ([] ++ data) :=
    tracks_update data _ [] (tracks_init ctx hs hb hd) (by simp) hbytes
  rw [List.nil_append] at ht
  exact sha256_final_hash _ hash data ht hbytes hlen hh

set_option maxRecDepth 100000 in
/-- The reference on the test vectors of the standard: the empty message and
`abc`. -/
theorem fips_test_vectors :
    fipsHex [] = "e3b0c44298fc1c149afbf4c8996fb92427ae41e4649b934ca495991b7852b855".toList
    ∧ fipsHex [97, 98, 99]
        = "ba7816bf8f01cfea414140de5dae2223b00361a396177a9cb410ff61f20015ad".toList := by
  decide!

theorem digitChar_ne_nul : ∀ n < 16, Nat.digitChar n ≠ NUL := by decide

theorem fipsHex_no_nul (data : List Nat) : NUL ∉ fipsHex data := by
  intro h
  simp only [fipsHex, List.mem_flatMap, List.mem_cons, List.mem_singleton, List.not_mem_nil,
    or_false] at h
  obtain ⟨b, hb, hc⟩ := h
  have hb256 := fipsDigest_bytes data b hb
  rcases hc with hc | hc
  · exact digitChar_ne_nul (b / 16) (by omega) hc.symm
  · exact digitChar_ne_nul (b % 16) (by omega) hc.symm

/-- The text `add_file_to_db` stores as hash is the standard SHA-256 digest of
the bytes read, in lowercase hexadecimal. -/
theorem hash_hex_eq_fips (data : List Nat) (hbytes : ∀ b ∈ data, b < 256)
    (hlen : data.length < 2 ^ 61) : hash_hex data = fipsHex data := by
  unfold hash_hex
  rw [sha256_hex_writes data _ 65 hbytes hlen (Nat.le_refl _) (by simp)]
  unfold cstr
  rw [List.append_assoc, List.takeWhile_append_of_pos]
  · simp [NUL]
  · intro c hc
    simp only [ne_eq, decide_eq_true_eq]
    intro h0
    exact fipsHex_no_nul data (h0 ▸ hc)


/-! ## Sync disabled -/

/-- C11. When `api_enabled` is `"0"`, a run of `push_repo` and a run of
`pull_repo` consist of printing the error message `Error: API is disabled` and
nothing else: no prompt for a one-time code, no call of `has_2fa_enabled`, no
transport (neither the library HTTP client nor the external `curl` command),
and no event that opens the local store file, whatever the environment. -/
theorem sync_disabled_rejects (s : Settings) (db_name : Text) (env : SyncEnv)
    (h : cstr s.api_enabled = "0".toList) :
    push_repo s db_name env = [SyncEvent.print "Error: API is disabled".toList]
    ∧ pull_repo s db_name env = [SyncEvent.print "Error: API is disabled".toList]
    ∧ (∀ e ∈ push_repo s db_name env,
        e ≠ SyncEvent.prompt ∧ e.is_transport = false ∧ e.touches_store = false)
    ∧ (∀ e ∈ pull_repo s db_name env,
        e ≠ SyncEvent.prompt ∧ e.is_transport = false ∧ e.touches_store = false) := by
  have hp : push_repo s db_name env = [SyncEvent.print "Error: API is disabled".toList] := by
    unfold push_repo
    rw [if_pos h]
  have hq : pull_repo s db_name env = [SyncEvent.print "Error: API is disabled".toList] := by
    unfold pull_repo
    rw [if_pos h]
  refine ⟨hp, hq, ?_, ?_⟩
  · intro e he
    rw [hp, List.mem_singleton] at he
    subst he
    exact ⟨by simp, rfl, rfl⟩
  · intro e he
    rw [hq, List.mem_singleton] at he
    subst he
    exact ⟨by simp, rfl, rfl⟩

/-- With the sync feature off, `push` and `pull` of `alice` only print the
error, in an environment where the same runs with the feature on prompt and
call a transport. -/
theorem sync_disabled_rejects_witness :
    push_repo alice_sync_off "repo.omi".toList ready_sync_env
      = [SyncEvent.print "Error: API is disabled".toList]
    ∧ pull_repo alice_sync_off "repo.omi".toList ready_sync_env
      = [SyncEvent.print "Error: API is disabled".toList]
    ∧ SyncEvent.prompt ∈ push_repo alice "repo.omi".toList ready_sync_env
    ∧ SyncEvent.prompt ∈ pull_repo alice "repo.omi".toList ready_sync_env :=
  have h := sync_disabled_rejects alice_sync_off "repo.omi".toList ready_sync_env (by decide)
  ⟨h.1, h.2.1, by decide, by decide⟩


/-! ## A failed add -/

theorem load_file_none_iff (f : FileRead) :
    load_file f = none ↔
      f = FileRead.no_open
      ∨ ∃ len malloc_ok read, f = FileRead.opened len malloc_ok read
          ∧ (len ≤ 0 ∨ malloc_ok = false ∨ (read.length : Int) ≠ len) := by
  cases f with
  | no_open => simp [load_file]
  | opened len malloc_ok read =>
    simp only [load_file, false_or, FileRead.opened.injEq, reduceCtorEq]
    constructor
    · intro h
      refine ⟨len, malloc_ok, read, ⟨rfl, rfl, rfl⟩, ?_⟩
      by_cases h1 : len ≤ 0
      · exact Or.inl h1
      · by_cases h2 : malloc_ok = false
        · exact Or.inr (Or.inl h2)
        · by_cases h3 : (read.length : Int) ≠ len
          · exact Or.inr (Or.inr h3)
          · simp [h1, h2, h3] at h
    · rintro ⟨l, m, r, ⟨rfl, rfl, rfl⟩, h⟩
      rcases h with h | h | h
      · simp [h]
      · simp [h]
      · simp [h]

theorem add_file_to_db_fails_iff (db : Db) (env : AddEnv) (filename : Text) :
    (add_file_to_db db env filename).1 = 0
      ↔ (load_file env.file = none ∨ env.open_ok = false) := by
  unfold add_file_to_db
  cases hl : load_file env.file with
  | none => simp
  | some data =>
    cases ho : env.open_ok <;> simp

/-- C13. `add_file_to_db` returns 0 exactly when the file cannot be opened,
its length is reported as zero (or negative), the buffer cannot be allocated,
the file is not read in full, or the store cannot be opened; in each of these
cases the store file after the call is the one before it: the blobs, staging,
files and commits tables and the row-id sequences are unchanged. -/
theorem failed_add_leaves_store (db : Db) (env : AddEnv) (filename : Text)
    (h : (add_file_to_db db env filename).1 = 0) :
    (add_file_to_db db env filename).2 = db
    ∧ (add_file_to_db db env filename).2.blobs = db.blobs
    ∧ (add_file_to_db db env filename).2.staging = db.staging
    ∧ (add_file_to_db db env filename).2.files = db.files
    ∧ (add_file_to_db db env filename).2.commits = db.commits
    ∧ (env.file = FileRead.no_open
        ∨ (∃ len malloc_ok read, env.file = FileRead.opened len malloc_ok read
            ∧ (len ≤ 0 ∨ malloc_ok = false ∨ (read.length : Int) ≠ len))
        ∨ env.open_ok = false) := by
  have hc := (add_file_to_db_fails_iff db env filename).1 h
  have he : (add_file_to_db db env filename).2 = db := by
    unfold add_file_to_db
    rcases hc with hl | ho
    · simp only [hl]
    · cases hl : load_file env.file with
      | none => rfl
      | some data => simp only [ho, Bool.not_false, if_true]
  refine ⟨he, by rw [he], by rw [he], by rw [he], by rw [he], ?_⟩
  rcases hc with hl | ho
  · rcases (load_file_none_iff env.file).1 hl with h1 | h1
    · exact Or.inl h1
    · exact Or.inr (Or.inl h1)
  · exact Or.inr (Or.inr ho)

/-- Adding an empty file to the store with `notes.txt` staged fails and
leaves the store as it is. -/
theorem failed_add_leaves_store_witness :
    (add_file_to_db staged_store
        (steady_add_env (FileRead.opened 0 true []) "2024-05-01 10:03:00".toList)
        "empty.txt".toList).1 = 0
    ∧ (add_file_to_db staged_store
        (steady_add_env (FileRead.opened 0 true []) "2024-05-01 10:03:00".toList)
        "empty.txt".toList).2 = staged_store :=
  have h0 : (add_file_to_db staged_store
      (steady_add_env (FileRead.opened 0 true []) "2024-05-01 10:03:00".toList)
      "empty.txt".toList).1 = 0 := by decide
  ⟨h0, (failed_add_leaves_store staged_store _ _ h0).1⟩


/-! ## The counters of the digest engine -/

theorem sha256_transform_frame (ctx : SHA256_CTX) (data : List Nat) :
    (sha256_transform ctx data).bitlen = ctx.bitlen
    ∧ (sha256_transform ctx data).data = ctx.data
    ∧ (sha256_transform ctx data).datalen = ctx.datalen
    ∧ (sha256_transform ctx data).state.length = ctx.state.length := by
  simp [sha256_transform]

theorem fed_init (ctx : SHA256_CTX) (hb : ctx.bitlen.length = 2) (hd : ctx.data.length = 64) :
    Fed (sha256_init ctx) 0 := by
  match hbl : ctx.bitlen, hb with
  | [b0, b1], _ =>
    constructor
    · rfl
    · exact hd
    · simp [sha256_init, hbl]

theorem fed_update_byte (c : SHA256_CTX) (n b : Nat) (h : Fed c n) :
    Fed (sha256_update_byte c b) (n + 1) := by
  obtain ⟨hdl, hlen, hbit⟩ := h
  have hr : n % 64 < 64 := Nat.mod_lt _ (by decide)
  have hu : u32 (n % 64 + 1) = n % 64 + 1 := by unfold u32; omega
  unfold sha256_update_byte
  simp only [hdl, hu]
  by_cases h63 : n % 64 = 63
  · have hq1 : (n + 1) / 64 = n / 64 + 1 := by omega
    have hr1 : (n + 1) % 64 = 0 := by omega
    simp only [h63, if_true]
    have hf := sha256_transform_frame
      { c with data := c.data.set 63 b, datalen := 63 + 1 } (c.data.set 63 b)
    generalize sha256_transform
      { c with data := c.data.set 63 b, datalen := 63 + 1 } (c.data.set 63 b) = t at hf ⊢
    obtain ⟨f1, f2, f3, _⟩ := hf
    simp only at f1 f2 f3
    simp only [f1, hbit, List.getD_cons_zero, List.getD_cons_succ]
    constructor
    · simp only [hr1]
    · split <;> simp [f2, hlen]
    · rw [hq1, ← bitlen_step]
      split <;> simp [f1, hbit, List.set]
  · have hq1 : (n + 1) / 64 = n / 64 := by omega
    have hr1 : (n + 1) % 64 = n % 64 + 1 := by omega
    have hne : ¬ (n % 64 + 1 = 64) := by omega
    simp only [hne, if_false]
    exact ⟨by simp only [hr1], by simp [hlen], by simp only [hq1]; exact hbit⟩

theorem fed_update (data : List Nat) (c : SHA256_CTX) (n : Nat) (h : Fed c n) :
    Fed (sha256_update c data) (n + data.length) := by
  induction data generalizing c n with
  | nil => simpa [sha256_update] using h
  | cons b data ih =>
    have h2 := ih (sha256_update_byte c b) (n + 1) (fed_update_byte c n b h)
    have e : n + (b :: data).length = n + 1 + data.length := by simp; omega
    rw [e]
    simpa [sha256_update] using h2

theorem sha256_update_writes_lt (data : List Nat) (c : SHA256_CTX) (n : Nat) (h : Fed c n) :
    ∀ i ∈ sha256_update_writes c data, i < 64 := by
  induction data generalizing c n with
  | nil => intro i hi; simp [sha256_update_writes] at hi
  | cons b data ih =>
    intro i hi
    simp only [sha256_update_writes, List.mem_cons] at hi
    rcases hi with hi | hi
    · rw [hi, h.datalen_eq]; exact Nat.mod_lt _ (by decide)
    · exact ih _ (n + 1) (fed_update_byte c n b h) i hi

theorem sha256_final_writes_lt (c : SHA256_CTX) (h : c.datalen < 64) :
    ∀ i ∈ sha256_final_writes c, i < 64 := by
  intro i hi
  unfold sha256_final_writes at hi
  simp only [List.mem_append, List.mem_cons, List.mem_range', List.mem_range,
    List.mem_singleton, List.not_mem_nil, or_false] at hi
  split at hi
  · simp only [List.mem_cons, List.mem_range'] at hi
    omega
  · simp only [List.cons_append, List.mem_cons, List.mem_append, List.mem_range',
      List.mem_range] at hi
    omega

theorem bit_counter_fed (c : SHA256_CTX) (n : Nat) (h : Fed c n) :
    bit_counter c = 512 * (n / 64) % 2 ^ 64 := by
  unfold bit_counter
  rw [h.bitlen_eq]
  simp only [List.getD_cons_zero, List.getD_cons_succ]
  omega

theorem be_value_length_bytes (hi lo : Nat) (hhi : hi < 2 ^ 32) (hlo : lo < 2 ^ 32) :
    be_value [u8 (hi >>> 24), u8 (hi >>> 16), u8 (hi >>> 8), u8 hi,
      u8 (lo >>> 24), u8 (lo >>> 16), u8 (lo >>> 8), u8 lo] = hi * 2 ^ 32 + lo := by
  simp only [be_value, List.foldl_cons, List.foldl_nil, u8, Nat.shiftRight_eq_div_pow]
  omega


theorem drop_take_tail_eight (p : List Nat) (hp : p.length = 56)
    (x0 x1 x2 x3 x4 x5 x6 x7 : Nat) :
    ((p ++ [x0, x1, x2, x3, x4, x5, x6, x7]).drop 56).take 8
      = [x0, x1, x2, x3, x4, x5, x6, x7] := by
  rw [List.drop_append_of_le_length (by omega), List.drop_of_length_le (by omega)]
  simp

theorem length_value_eq (n : Nat) :
    512 * (n / 64) / 2 ^ 32 % 2 ^ 32 * 2 ^ 32
      + u32 (512 * (n / 64) % 2 ^ 32 + u32 (n % 64 * 8)) = 8 * n % 2 ^ 64 := by
  unfold u32
  omega

theorem length_written_fed (c : SHA256_CTX) (n : Nat) (h : Fed c n) :
    length_written c = 8 * n % 2 ^ 64 := by
  obtain ⟨hdl, hlen, hbit⟩ := h
  have hlt : c.datalen < 64 := by rw [hdl]; exact Nat.mod_lt _ (by decide)
  have hhi : 512 * (n / 64) / 2 ^ 32 % 2 ^ 32 < 2 ^ 32 := Nat.mod_lt _ (by decide)
  have hlo : u32 (512 * (n / 64) % 2 ^ 32 + u32 (n % 64 * 8)) < 2 ^ 32 :=
    Nat.mod_lt _ (by decide)
  unfold length_written sha256_final_ctx
  by_cases hr : c.datalen < 56
  · simp only [hr, if_true]
    rw [pad_buffer_small c.data _ _ hlen hr rfl]
    rw [(sha256_transform_frame _ _).2.1]
    simp only
    rw [drop_take_tail_eight _ (by simp [hlen]; omega)]
    simp only [hbit, hdl, List.getD_cons_zero, List.getD_cons_succ]
    rw [be_value_length_bytes _ _ hhi hlo, length_value_eq]
  · simp only [hr, if_false]
    have hf := sha256_transform_frame
      { c with data := zero_fill (c.data.set c.datalen 128) (c.datalen + 1) 64 }
      (zero_fill (c.data.set c.datalen 128) (c.datalen + 1) 64)
    generalize sha256_transform
      { c with data := zero_fill (c.data.set c.datalen 128) (c.datalen + 1) 64 }
      (zero_fill (c.data.set c.datalen 128) (c.datalen + 1) 64) = t at hf ⊢
    obtain ⟨f1, f2, f3, _⟩ := hf
    simp only at f1 f2 f3
    have hl2 : t.data.length = 64 := by
      rw [f2, pad_buffer_large c.data _ _ hlen hlt rfl]
      simp [hlen]; omega
    rw [pad_buffer_last _ hl2]
    rw [(sha256_transform_frame _ _).2.1]
    simp only
    rw [drop_take_tail_eight _ (by simp)]
    simp only [f1, f3, hbit, hdl, List.getD_cons_zero, List.getD_cons_succ]
    rw [be_value_length_bytes _ _ hhi hlo, length_value_eq]


theorem fed_chunks (ctx0 : SHA256_CTX) (chunks : List (List Nat))
    (hb : ctx0.bitlen.length = 2) (hd : ctx0.data.length = 64) :
    Fed (chunks.foldl sha256_update (sha256_init ctx0)) chunks.flatten.length := by
  rw [sha256_update_chunks]
  have h := fed_update chunks.flatten _ 0 (fed_init ctx0 hb hd)
  rw [Nat.zero_add] at h
  exact h

/-- C14 (as amended). After `sha256_init` (on a context whose arrays have
their declared sizes) and any sequence of `sha256_update` calls, `datalen` is
below 64 and is the total number of bytes fed modulo 64, and the counter
`bitlen[1]:bitlen[0]` is 512 times the number of full blocks modulo `2^64`.
Hence every write of a further `sha256_update` and of `sha256_final` into the
block buffer is at an index below 64, and the 64-bit length `sha256_final`
writes is 8 times the total byte count modulo `2^64`: exactly 8 times the
count when fewer than `2^61` bytes were fed. -/
theorem buffer_fill_invariant (ctx0 : SHA256_CTX) (chunks : List (List Nat)) (next : List Nat)
    (hb : ctx0.bitlen.length = 2) (hd : ctx0.data.length = 64) :
    (chunks.foldl sha256_update (sha256_init ctx0)).datalen < 64
    ∧ (chunks.foldl sha256_update (sha256_init ctx0)).datalen = chunks.flatten.length % 64
    ∧ (chunks.foldl sha256_update (sha256_init ctx0)).data.length = 64
    ∧ bit_counter (chunks.foldl sha256_update (sha256_init ctx0))
        = 512 * (chunks.flatten.length / 64) % 2 ^ 64
    ∧ (∀ i ∈ sha256_update_writes (chunks.foldl sha256_update (sha256_init ctx0)) next, i < 64)
    ∧ (∀ i ∈ sha256_final_writes (chunks.foldl sha256_update (sha256_init ctx0)), i < 64)
    ∧ length_written (chunks.foldl sha256_update (sha256_init ctx0))
        = 8 * chunks.flatten.length % 2 ^ 64
    ∧ (chunks.flatten.length < 2 ^ 61 →
        length_written (chunks.foldl sha256_update (sha256_init ctx0))
          = 8 * chunks.flatten.length) := by
  have hf := fed_chunks ctx0 chunks hb hd
  have hlt : (chunks.foldl sha256_update (sha256_init ctx0)).datalen < 64 := by
    rw [hf.datalen_eq]; exact Nat.mod_lt _ (by decide)
  refine ⟨hlt, hf.datalen_eq, hf.data_length, bit_counter_fed _ _ hf,
    sha256_update_writes_lt next _ _ hf, sha256_final_writes_lt _ hlt,
    length_written_fed _ _ hf, ?_⟩
  intro hn
  rw [length_written_fed _ _ hf]
  omega

/-- Feeding `ab` and then `c` to a fresh engine: the fill count is 3 and the
length written at the end is 24 bits. -/
theorem buffer_fill_invariant_witness :
    (([[97, 98], [99]] : List (List Nat)).foldl sha256_update (sha256_init fresh_ctx)).datalen
      = 3
    ∧ length_written
        (([[97, 98], [99]] : List (List Nat)).foldl sha256_update (sha256_init fresh_ctx))
      = 24 :=
  have h := buffer_fill_invariant fresh_ctx [[97, 98], [99]] [] rfl rfl
  ⟨h.2.1, h.2.2.2.2.2.2.2 (by decide)⟩

/-- C14, the claim as stated fails once `2^61` bytes have been fed: after
`sha256_init` and one `sha256_update` with 2305843009213693952 zero bytes the
length `sha256_final` writes is 0, while 8 times the byte count is `2^64`,
which a 64-bit field cannot hold. -/
theorem length_written_wraps :
    length_written
        (sha256_update (sha256_init fresh_ctx) (List.replicate 2305843009213693952 0)) = 0
    ∧ 8 * (List.replicate 2305843009213693952 0 : List Nat).length = 18446744073709551616 := by
  have hf := fed_update (List.replicate 2305843009213693952 0) _ 0 (fed_init fresh_ctx rfl rfl)
  rw [Nat.zero_add, List.length_replicate] at hf
  constructor
  · rw [length_written_fed _ _ hf]
    decide
  · rw [List.length_replicate]


/-! ## The digest does not depend on what the locals held -/

theorem sha256_init_state_length (ctx : SHA256_CTX) :
    (sha256_init ctx).state.length = ctx.state.length := by
  simp [sha256_init]

theorem sha256_update_byte_state_length (c : SHA256_CTX) (b : Nat) :
    (sha256_update_byte c b).state.length = c.state.length := by
  unfold sha256_update_byte
  simp only
  have hf := sha256_transform_frame
    { c with data := c.data.set c.datalen b, datalen := u32 (c.datalen + 1) }
    (c.data.set c.datalen b)
  generalize sha256_transform
    { c with data := c.data.set c.datalen b, datalen := u32 (c.datalen + 1) }
    (c.data.set c.datalen b) = t at hf ⊢
  split
  · split <;> simp [hf.2.2.2]
  · rfl

theorem sha256_update_state_length (data : List Nat) (c : SHA256_CTX) :
    (sha256_update c data).state.length = c.state.length := by
  induction data generalizing c with
  | nil => rfl
  | cons b data ih =>
    have : sha256_update c (b :: data) = sha256_update (sha256_update_byte c b) data := rfl
    rw [this, ih, sha256_update_byte_state_length]

theorem sha256_final_ctx_state_length (c : SHA256_CTX) :
    (sha256_final_ctx c).state.length = c.state.length := by
  unfold sha256_final_ctx
  simp only
  rw [(sha256_transform_frame _ _).2.2.2]
  split
  · rfl
  · simp only
    rw [(sha256_transform_frame _ _).2.2.2]

theorem same_init (ctx : SHA256_CTX) (hs : ctx.state.length = 8) (hb : ctx.bitlen.length = 2)
    (hd : ctx.data.length = 64) : SameEngine (sha256_init ctx) (sha256_init fresh_ctx) := by
  obtain ⟨s0, s1, s2, s3, s4, s5, s6, s7, hst⟩ := list_length_eight ctx.state hs
  match hbl : ctx.bitlen, hb with
  | [b0, b1], _ =>
    constructor
    · simp [sha256_init, hst, fresh_ctx]
    · simp [sha256_init, hbl, fresh_ctx]
    · rfl
    · show 0 < 64
      decide
    · exact hd
    · simp [sha256_init, fresh_ctx]
    · simp [sha256_init]

theorem same_update_byte (c d : SHA256_CTX) (n b : Nat) (hc : Fed c n) (hd : Fed d n)
    (h : SameEngine c d) : SameEngine (sha256_update_byte c b) (sha256_update_byte d b) := by
  have hc2 := fed_update_byte c n b hc
  have hd2 := fed_update_byte d n b hd
  have hlt : (n + 1) % 64 < 64 := Nat.mod_lt _ (by decide)
  have hr : c.datalen < 64 := h.datalen_lt
  have hu : u32 (c.datalen + 1) = c.datalen + 1 := by unfold u32; omega
  have htake : (c.data.set c.datalen b).take (c.datalen + 1)
      = (d.data.set c.datalen b).take (c.datalen + 1) := by
    rw [set_last_of_length _ _ _ (by rw [h.length_left]; exact hr),
      set_last_of_length _ _ _ (by rw [h.length_right]; exact hr), h.data_eq]
  by_cases h63 : c.datalen = 63
  · have hdata : c.data.set c.datalen b = d.data.set c.datalen b := by
      rw [h63] at htake ⊢
      rw [List.take_of_length_le (by simp [h.length_left]),
        List.take_of_length_le (by simp [h.length_right])] at htake
      exact htake
    have heq : sha256_update_byte c b = sha256_update_byte d b := by
      unfold sha256_update_byte
      simp only [← h.datalen_eq, ← h.state_eq, ← h.bitlen_eq, hdata]
    rw [← heq]
    exact ⟨rfl, rfl, rfl, by rw [hc2.datalen_eq]; exact hlt, hc2.data_length, hc2.data_length,
      rfl⟩
  · have hne : ¬ (c.datalen + 1 = 64) := by omega
    have e1 : sha256_update_byte c b
        = { c with data := c.data.set c.datalen b, datalen := c.datalen + 1 } := by
      unfold sha256_update_byte
      simp only [hu, hne, if_false]
    have e2 : sha256_update_byte d b
        = { d with data := d.data.set c.datalen b, datalen := c.datalen + 1 } := by
      unfold sha256_update_byte
      simp only [← h.datalen_eq, hu, hne, if_false]
    rw [e1, e2]
    exact ⟨h.state_eq, h.bitlen_eq, rfl, by simp only; omega, by simp [h.length_left],
      by simp [h.length_right], htake⟩

theorem same_update (data : List Nat) (c d : SHA256_CTX) (n : Nat) (hc : Fed c n) (hd : Fed d n)
    (h : SameEngine c d) : SameEngine (sha256_update c data) (sha256_update d data) := by
  induction data generalizing c d n with
  | nil => exact h
  | cons b data ih =>
    exact ih _ _ (n + 1) (fed_update_byte c n b hc) (fed_update_byte d n b hd)
      (same_update_byte c d n b hc hd h)


theorem same_final (c d : SHA256_CTX) (h : SameEngine c d) :
    sha256_final_ctx c = sha256_final_ctx d := by
  obtain ⟨h1, h2, h3, h4, h5, h6, h7⟩ := h
  obtain ⟨cs, cb, cd, cl⟩ := c
  obtain ⟨ds, db, dd, dl⟩ := d
  simp only at h1 h2 h3 h4 h5 h6 h7
  subst h1 h2 h3
  unfold sha256_final_ctx
  simp only
  by_cases hr : cl < 56
  · simp only [hr, if_true]
    rw [pad_buffer_small cd _ _ h5 hr rfl, pad_buffer_small dd _ _ h6 hr rfl, h7]
  · simp only [hr, if_false]
    rw [pad_buffer_large cd _ _ h5 h4 rfl, pad_buffer_large dd _ _ h6 h4 rfl, h7]

theorem sha256_store_any_hash (s h1 h2 : List Nat) (hs : s.length = 8) (e1 : h1.length = 32)
    (e2 : h2.length = 32) : sha256_store s h1 = sha256_store s h2 := by
  rw [sha256_store_eq s h1 hs e1, sha256_store_eq s h2 hs e2]

theorem sha256_final_any_locals (ctx0 : SHA256_CTX) (hash0 data : List Nat)
    (hs : ctx0.state.length = 8) (hb : ctx0.bitlen.length = 2) (hd : ctx0.data.length = 64)
    (hh : hash0.length = 32) :
    (sha256_final (sha256_update (sha256_init ctx0) data) hash0).2
      = (sha256_final (sha256_update (sha256_init fresh_ctx) data) (List.replicate 32 0)).2 := by
  have hsame := same_update data _ _ 0 (fed_init ctx0 hb hd) (fed_init fresh_ctx rfl rfl)
    (same_init ctx0 hs hb hd)
  have hfin := same_final _ _ hsame
  simp only [sha256_final, hfin]
  apply sha256_store_any_hash _ _ _ _ hh (by simp)
  rw [sha256_final_ctx_state_length, sha256_update_state_length, sha256_init_state_length]
  rfl

theorem sha256_hex_from_eq (ctx0 : SHA256_CTX) (hash0 data : List Nat) (out_hex : List Char)
    (out_len : Nat) (hs : ctx0.state.length = 8) (hb : ctx0.bitlen.length = 2)
    (hd : ctx0.data.length = 64) (hh : hash0.length = 32) :
    sha256_hex_from ctx0 hash0 data out_hex out_len = sha256_hex data out_hex out_len := by
  unfold sha256_hex_from sha256_hex
  simp only [sha256_final_any_locals ctx0 hash0 data hs hb hd hh]

theorem digest_bytes_lt (data : List Nat) :
    (sha256_final (sha256_update (sha256_init fresh_ctx) data) (List.replicate 32 0)).2.length
        = 32
    ∧ ∀ b ∈ (sha256_final (sha256_update (sha256_init fresh_ctx) data)
        (List.replicate 32 0)).2, b < 256 := by
  have hl : (sha256_final_ctx (sha256_update (sha256_init fresh_ctx) data)).state.length = 8 := by
    rw [sha256_final_ctx_state_length, sha256_update_state_length, sha256_init_state_length]
    rfl
  simp only [sha256_final]
  rw [sha256_store_eq _ _ hl (by simp)]
  generalize (sha256_final_ctx (sha256_update (sha256_init fresh_ctx) data)).state = s at hl
  obtain ⟨s0, s1, s2, s3, s4, s5, s6, s7, rfl⟩ := list_length_eight s hl
  constructor
  · simp
  · intro b hb
    simp only [List.mem_flatMap, List.mem_cons, List.mem_singleton, List.not_mem_nil,
      or_false] at hb
    obtain ⟨w, _, hw⟩ := hb
    omega

/-- What `sha256_hex` leaves in a buffer of at least 65 characters, for any
input: 64 characters that depend on the input only, the NUL, and the rest of
the buffer as it was. -/
theorem sha256_hex_shape (data : List Nat) (out_hex : List Char) (out_len : Nat)
    (hout : 65 ≤ out_len) (hbuf : out_len ≤ out_hex.length) :
    sha256_hex data out_hex out_len
      = ((sha256_final (sha256_update (sha256_init fresh_ctx) data)
            (List.replicate 32 0)).2.flatMap
          fun b => [Nat.digitChar (b / 16), Nat.digitChar (b % 16)])
        ++ [Char.ofNat 0] ++ out_hex.drop 65 := by
  obtain ⟨hl, hb⟩ := digest_bytes_lt data
  unfold sha256_hex
  rw [if_neg (by omega)]
  simp only
  generalize (sha256_final (sha256_update (sha256_init fresh_ctx) data)
    (List.replicate 32 0)).2 = hash at hl hb ⊢
  rw [hex_loop_upto hash _ hb 32 (by omega) (by omega)]
  rw [List.take_of_length_le (by omega)]
  have hrl := render_length hash
  rw [hl] at hrl
  rw [List.set_append]
  simp only [hrl, Nat.lt_irrefl, if_false, Nat.sub_self]
  rw [List.drop_eq_getElem_cons (by omega), List.set_cons_zero]
  simp


/-- C12. `sha256_hex` on zero bytes of input writes
`e3b0c44298fc1c149afbf4c8996fb92427ae41e4649b934ca495991b7852b855` (and the
NUL after it) into any buffer of at least 65 characters. For every input,
whatever an earlier digest computation left in the local variables `ctx` and
`hash` (arrays of their declared sizes, any content), the call writes what it
writes with fresh locals, and in every buffer the same 64 characters followed
by NUL: equal byte sequences give equal strings. -/
theorem sha256_hex_empty_and_deterministic (data : List Nat) (ctx0 : SHA256_CTX)
    (hash0 : List Nat) (hs : ctx0.state.length = 8) (hb : ctx0.bitlen.length = 2)
    (hd : ctx0.data.length = 64) (hh : hash0.length = 32) :
    (∀ (out_hex : List Char) (out_len : Nat), 65 ≤ out_len → out_len ≤ out_hex.length →
        sha256_hex [] out_hex out_len
          = "e3b0c44298fc1c149afbf4c8996fb92427ae41e4649b934ca495991b7852b855".toList
            ++ [Char.ofNat 0] ++ out_hex.drop 65
        ∧ cstr (sha256_hex [] out_hex out_len)
          = "e3b0c44298fc1c149afbf4c8996fb92427ae41e4649b934ca495991b7852b855".toList)
    ∧ (∀ (out_hex : List Char) (out_len : Nat),
        sha256_hex_from ctx0 hash0 data out_hex out_len = sha256_hex data out_hex out_len)
    ∧ (∀ (out_hex : List Char) (out_len : Nat), 65 ≤ out_len → out_len ≤ out_hex.length →
        sha256_hex_from ctx0 hash0 data out_hex out_len
          = (sha256_hex data (List.replicate 65 (Char.ofNat 0)) 65).take 64
            ++ [Char.ofNat 0] ++ out_hex.drop 65) := by
  refine ⟨?_, ?_, ?_⟩
  · intro out_hex out_len h1 h2
    have hw := sha256_hex_writes [] out_hex out_len (by simp) (by decide) h1 h2
    rw [fips_test_vectors.1] at hw
    refine ⟨hw, ?_⟩
    rw [hw]
    unfold cstr
    rw [List.append_assoc, List.takeWhile_append_of_pos]
    · simp [NUL]
    · decide
  · intro out_hex out_len
    exact sha256_hex_from_eq ctx0 hash0 data out_hex out_len hs hb hd hh
  · intro out_hex out_len h1 h2
    rw [sha256_hex_from_eq ctx0 hash0 data out_hex out_len hs hb hd hh,
      sha256_hex_shape data out_hex out_len h1 h2,
      sha256_hex_shape data (List.replicate 65 (Char.ofNat 0)) 65 (Nat.le_refl _) (by simp)]
    have hl := render_length
      (sha256_final (sha256_update (sha256_init fresh_ctx) data) (List.replicate 32 0)).2
    rw [(digest_bytes_lt data).1] at hl
    generalize ((sha256_final (sha256_update (sha256_init fresh_ctx) data)
      (List.replicate 32 0)).2.flatMap
        fun b => [Nat.digitChar (b / 16), Nat.digitChar (b % 16)]) = digits at hl ⊢
    have ht : (digits ++ [Char.ofNat 0]
        ++ List.drop 65 (List.replicate 65 (Char.ofNat 0))).take 64 = digits := by
      rw [List.append_assoc, List.take_append_of_le_length (by omega),
        List.take_of_length_le (by omega)]
    rw [ht]

set_option maxRecDepth 100000 in
/-- The digest of the empty input computed right after the digest of `abc`,
with the locals still holding what that computation left: the well-known
value. -/
theorem sha256_hex_empty_and_deterministic_witness :
    sha256_hex_from used_ctx used_hash [] (List.replicate 65 'x') 65
      = "e3b0c44298fc1c149afbf4c8996fb92427ae41e4649b934ca495991b7852b855".toList
        ++ [Char.ofNat 0] := by
  have h := sha256_hex_empty_and_deterministic [] used_ctx used_hash (by decide!) (by decide!)
    (by decide!) (by decide!)
  rw [h.2.1 (List.replicate 65 'x') 65, (h.1 (List.replicate 65 'x') 65 (by decide)
    (by decide)).1]
  decide

end Omi
